import Mathlib

/-!
# Replication-set executor and change detector of `pkg/ring/replication_set.go`

The file embeds `ReplicationSet.Do` as a labelled transition system: the
collecting loop, the per-instance goroutines and the three channels are the
state, and every scheduling choice (which goroutine moves, which ready case
a `select` takes, what a call of `f` returns, when the caller's context is
cancelled) is a label.  An execution is a list of labels.
`HasReplicationSetChanged` is embedded as a function.
-/

namespace Ring

/-! ## Data model, transition system and change detector -/

variable {α ε : Type}

/-- Modelled from the spec: the type `IngesterDesc` is declared in `ring.pb.go`, which is
not among the sources. One ring member: address, heartbeat timestamp, state, tokens and
zone. -/
structure IngesterDesc where
  Addr : String
  Timestamp : Int
  State : Int
  Tokens : List Nat
  Zone : String
deriving DecidableEq, Repr

/-- The value `ReplicationSet` of `replication_set.go`. -/
structure ReplicationSet where
  Ingesters : List IngesterDesc
  MaxErrors : Int
  MaxUnavailableZones : Int
deriving DecidableEq, Repr

/-- What one call `f(ctx, ing)` returns: `(result, nil)` or `(_, err)` with `err != nil`. -/
inductive Outcome (α ε : Type) where
  | ok (v : α)
  | fail (e : ε)
deriving DecidableEq, Repr

/-- The error returned by `Do`, tagged with the `return` statement that produced it:
`return nil, err.err`, `return nil, errorTooManyZoneFailures`, `return nil, ctx.Err()`. -/
inductive DoError (ε : Type) where
  | fromF (e : ε)
  | tooManyZoneFailures
  | ctxErr (c : ε)
deriving DecidableEq, Repr

/-- Control state of the goroutine started for one instance.
`waiting`: blocked in the `select` over `ctx.Done()`, `forceStart` and the timer;
`calling`: from the invocation of `f` up to the send of its outcome;
`finished o`: the outcome `o` has been sent and the goroutine has exited;
`stopped`: returned on `ctx.Done()` without invoking `f`. -/
inductive Task (α ε : Type) where
  | waiting
  | calling
  | finished (o : Outcome α ε)
  | stopped
deriving DecidableEq, Repr

/-- Control state of the body of `Do` after the goroutines are started.
`selecting`: at the `select` of the collecting loop;
`signalling`: at the statement `forceStart <- struct{}{}`;
`returned res err`: `Do` has returned `(res, err)`, `none` standing for `nil`. -/
inductive Collector (α ε : Type) where
  | selecting
  | signalling
  | returned (results : Option (List α)) (err : Option (DoError ε))
deriving DecidableEq, Repr

/-- The variables of one call of `Do`. -/
structure DoState (α ε : Type) where
  tasks : List (Task α ε)
  errs : List (ε × IngesterDesc)
  resultsChan : List α
  forceStart : Nat
  parentErr : Option ε
  numErrs : Int
  numSuccess : Int
  results : List α
  zoneFailureCount : List String
  pc : Collector α ε
deriving DecidableEq, Repr

/-- Scheduling labels.
`cancel c`: the context passed to `Do` is cancelled, its `Err()` becomes `c`;
`timer i`: the timer case of goroutine `i` is taken;
`forced i`: goroutine `i` takes a buffered value from `forceStart`;
`handoff i`: the send on `forceStart` is received by goroutine `i` directly;
`ctxDone i`: goroutine `i` takes the `ctx.Done()` case;
`deliver i o`: the call of `f` for instance `i` has returned `o` and the goroutine sends it;
`recvErr`, `recvRes`, `recvDone`: the case of the collecting `select` that is taken;
`signal`: the send on `forceStart` goes into the channel buffer. -/
inductive Action (α ε : Type) where
  | cancel (c : ε)
  | timer (i : Nat)
  | forced (i : Nat)
  | handoff (i : Nat)
  | ctxDone (i : Nat)
  | deliver (i : Nat) (o : Outcome α ε)
  | recvErr
  | recvRes
  | recvDone
  | signal
deriving DecidableEq, Repr

/-- The local `minSuccess = len(r.Ingesters) - r.MaxErrors`. -/
def minSuccess (r : ReplicationSet) : Int :=
  (r.Ingesters.length : Int) - r.MaxErrors

/-- The guard `i >= minSuccess && delay > 0` of the goroutine body. -/
def isHedge (r : ReplicationSet) (delay : Int) (i : Nat) : Bool :=
  decide ((i : Int) ≥ minSuccess r) && decide (delay > 0)

/-- Whether `Do` has returned. -/
def Collector.isReturned : Collector α ε → Bool
  | .returned _ _ => true
  | _ => false

/-- The derived context `ctx` is done: the caller's context is cancelled, or the
deferred `cancel()` has run because `Do` returned. -/
def derivedDone (s : DoState α ε) : Bool :=
  s.parentErr.isSome || s.pc.isReturned

/-- The loop test `for numSuccess < minSuccess`, followed by `return results, nil`. -/
def loopHead (r : ReplicationSet) (s : DoState α ε) : DoState α ε :=
  if s.numSuccess < minSuccess r then { s with pc := .selecting }
  else { s with pc := .returned (some s.results) none }

/-- The statement `zoneFailureCount[zone] = struct{}{}` on a map used as a set. -/
def insertZone (z : String) (zs : List String) : List String :=
  if z ∈ zs then zs else zs ++ [z]

/-- State of `Do` when the goroutines have been started and the loop is reached.
`make(chan struct{}, r.MaxErrors)` panics for a negative capacity: `none`. -/
def Do.init (r : ReplicationSet) (delay : Int) : Option (DoState α ε) :=
  if r.MaxErrors < 0 then none
  else some (loopHead r
    { tasks := (List.range r.Ingesters.length).map
        (fun i => if isHedge r delay i then Task.waiting else Task.calling)
      errs := []
      resultsChan := []
      forceStart := 0
      parentErr := none
      numErrs := 0
      numSuccess := 0
      results := []
      zoneFailureCount := []
      pc := .selecting })

/-- The failure branch `case err := <-errs` for the received message `(e, ing)`. -/
def onFailure (r : ReplicationSet) (s : DoState α ε) (e : ε) (ing : IngesterDesc) :
    DoState α ε :=
  if r.MaxUnavailableZones > 0 then
    let zs := insertZone ing.Zone s.zoneFailureCount
    if (zs.length : Int) > r.MaxUnavailableZones then
      { s with zoneFailureCount := zs, pc := .returned none (some .tooManyZoneFailures) }
    else
      { s with zoneFailureCount := zs, pc := .signalling }
  else
    if s.numErrs + 1 > r.MaxErrors then
      { s with numErrs := s.numErrs + 1, pc := .returned none (some (.fromF e)) }
    else
      { s with numErrs := s.numErrs + 1, pc := .signalling }

/-- One transition; `none` when the label is not enabled in the state (the
goroutine concerned is blocked or is not at that statement). -/
def step (r : ReplicationSet) (s : DoState α ε) : Action α ε → Option (DoState α ε)
  | .cancel c =>
    if s.parentErr.isSome then none else some { s with parentErr := some c }
  | .timer i =>
    match s.tasks[i]? with
    | some .waiting => some { s with tasks := s.tasks.set i .calling }
    | _ => none
  | .forced i =>
    match s.tasks[i]? with
    | some .waiting =>
      if 0 < s.forceStart then
        some { s with tasks := s.tasks.set i .calling, forceStart := s.forceStart - 1 }
      else none
    | _ => none
  | .handoff i =>
    match s.pc, s.tasks[i]? with
    | .signalling, some .waiting =>
      some (loopHead r { s with tasks := s.tasks.set i .calling })
    | _, _ => none
  | .ctxDone i =>
    match s.tasks[i]? with
    | some .waiting =>
      if derivedDone s then some { s with tasks := s.tasks.set i .stopped } else none
    | _ => none
  | .deliver i o =>
    match s.tasks[i]?, r.Ingesters[i]? with
    | some .calling, some ing =>
      match o with
      | .ok v =>
        if s.resultsChan.length < r.Ingesters.length then
          some { s with tasks := s.tasks.set i (.finished (.ok v)),
                        resultsChan := s.resultsChan ++ [v] }
        else none
      | .fail e =>
        if s.errs.length < r.Ingesters.length then
          some { s with tasks := s.tasks.set i (.finished (.fail e)),
                        errs := s.errs ++ [(e, ing)] }
        else none
    | _, _ => none
  | .recvErr =>
    match s.pc, s.errs with
    | .selecting, (e, ing) :: rest => some (onFailure r { s with errs := rest } e ing)
    | _, _ => none
  | .recvRes =>
    match s.pc, s.resultsChan with
    | .selecting, v :: rest =>
      some (loopHead r { s with resultsChan := rest, numSuccess := s.numSuccess + 1,
                                results := s.results ++ [v] })
    | _, _ => none
  | .recvDone =>
    match s.pc, s.parentErr with
    | .selecting, some c => some { s with pc := .returned none (some (.ctxErr c)) }
    | _, _ => none
  | .signal =>
    match s.pc with
    | .signalling =>
      if (s.forceStart : Int) < r.MaxErrors then
        some (loopHead r { s with forceStart := s.forceStart + 1 })
      else none
    | _ => none

/-- Runs a schedule from a state; `none` if some label is not enabled when its turn comes. -/
def run (r : ReplicationSet) (s : DoState α ε) : List (Action α ε) → Option (DoState α ε)
  | [] => some s
  | a :: as => (step r s a).bind (fun s' => run r s' as)

/-- An execution of `r.Do(ctx, delay, f)` under the schedule `acts`. -/
def Do.exec (r : ReplicationSet) (delay : Int) (acts : List (Action α ε)) :
    Option (DoState α ε) :=
  (Do.init r delay).bind (fun s => run r s acts)

/-- The successful delivery made by a label, if any: instance index and value. -/
def okOf : Action α ε → Option (Nat × α)
  | .deliver i (.ok v) => some (i, v)
  | _ => none

/-- The failing delivery made by a label, if any: instance index and error. -/
def failOf : Action α ε → Option (Nat × ε)
  | .deliver i (.fail e) => some (i, e)
  | _ => none

/-- Successful calls of `f` in the order in which their results are sent. -/
def okLog (acts : List (Action α ε)) : List (Nat × α) := acts.filterMap okOf

/-- Failing calls of `f` in the order in which their errors are sent. -/
def failLog (acts : List (Action α ε)) : List (Nat × ε) := acts.filterMap failOf

/-- The caller's context is not cancelled during the schedule. -/
def noCancel (acts : List (Action α ε)) : Prop := ∀ c, Action.cancel c ∉ acts

/-- Weight 1 for a goroutine that has sent its outcome, 0 otherwise. -/
def sentW : Task α ε → Nat
  | .finished _ => 1
  | _ => 0

/-- Number of goroutines that have sent their outcome. -/
def numSent (s : DoState α ε) : Nat := (s.tasks.map sentW).sum

/-- Facts that hold after every schedule: what the goroutines have sent, what
the channels hold and what the collecting loop has received. -/
structure LogInv (r : ReplicationSet) (d : Int) (acts : List (Action α ε))
    (s : DoState α ε) : Prop where
  maxErrors : 0 ≤ r.MaxErrors
  len : s.tasks.length = r.Ingesters.length
  okFin : ∀ p ∈ okLog acts, s.tasks[p.1]? = some (.finished (.ok p.2))
  failFin : ∀ p ∈ failLog acts, s.tasks[p.1]? = some (.finished (.fail p.2))
  nodup : ((okLog acts).map Prod.fst ++ (failLog acts).map Prod.fst).Nodup
  count : numSent s = (okLog acts).length + (failLog acts).length
  results : s.results ++ s.resultsChan = (okLog acts).map Prod.snd
  numSuccess : s.numSuccess = s.results.length
  errsLen : s.errs.length ≤ (failLog acts).length
  errsFrom : ∀ m ∈ s.errs, ∃ i, (i, m.1) ∈ failLog acts ∧ r.Ingesters[i]? = some m.2
  zones : ∀ z ∈ s.zoneFailureCount, ∃ i e ing,
    (i, e) ∈ failLog acts ∧ r.Ingesters[i]? = some ing ∧ ing.Zone = z
  zonesNodup : s.zoneFailureCount.Nodup
  hedge : ∀ i : Nat, s.tasks[i]? = some Task.waiting → isHedge r d i = true
  stopped : ∀ i : Nat, s.tasks[i]? = some Task.stopped → derivedDone s = true
  cancelled : ∀ c, s.parentErr = some c → Action.cancel c ∈ acts

/-- Facts about the control state of the collecting loop after every schedule. -/
structure CtlInv (r : ReplicationSet) (acts : List (Action α ε)) (s : DoState α ε) :
    Prop where
  running : s.pc.isReturned = false → s.numSuccess < minSuccess r
  received : r.MaxUnavailableZones ≤ 0 →
    0 ≤ s.numErrs ∧ s.numErrs.toNat + s.errs.length = (failLog acts).length ∧
    ((failLog acts).map Prod.snd).drop s.numErrs.toNat = s.errs.map Prod.fst
  zoneMode : 0 < r.MaxUnavailableZones → s.numErrs = 0
  budgetSel : r.MaxUnavailableZones ≤ 0 → s.pc = Collector.selecting →
    s.numErrs ≤ r.MaxErrors ∧ (s.forceStart : Int) ≤ s.numErrs
  budgetSig : r.MaxUnavailableZones ≤ 0 → s.pc = Collector.signalling →
    s.numErrs ≤ r.MaxErrors ∧ (s.forceStart : Int) + 1 ≤ s.numErrs
  ret : ∀ res err, s.pc = Collector.returned res err →
    (err = none ∧ res = some s.results ∧ minSuccess r ≤ s.numSuccess ∧
      (s.results = [] ∨ (s.results.length : Int) = minSuccess r)) ∨
    (∃ e, err = some (DoError.fromF e) ∧ res = none ∧ r.MaxUnavailableZones ≤ 0 ∧
      s.numErrs = r.MaxErrors + 1 ∧
      ((failLog acts).map Prod.snd)[r.MaxErrors.toNat]? = some e) ∨
    (err = some DoError.tooManyZoneFailures ∧ res = none ∧ 0 < r.MaxUnavailableZones ∧
      r.MaxUnavailableZones < s.zoneFailureCount.length) ∨
    (∃ c, err = some (DoError.ctxErr c) ∧ res = none ∧ s.parentErr = some c)

/-- Steps a goroutine can still take or cause: a waiting one starts, delivers
and has its message received; a calling one delivers and is received. -/
def taskW : Task α ε → Nat
  | .waiting => 4
  | .calling => 3
  | .finished _ => 0
  | .stopped => 0

/-- Steps the collecting loop can still take without receiving a message. -/
def pcW : Collector α ε → Nat
  | .selecting => 1
  | .signalling => 2
  | .returned _ _ => 0

/-- A bound on the number of transitions that can still be taken from a state. -/
def measure (s : DoState α ε) : Nat :=
  (s.tasks.map taskW).sum + 2 * s.errs.length + s.resultsChan.length + pcW s.pc +
    (if s.parentErr.isSome then 0 else 1)

/-- Labels taken by `Do` and its goroutines on their own: every label except a
cancellation by the caller and the completion of a call of `f`. -/
def Action.internal : Action α ε → Bool
  | .cancel _ => false
  | .deliver _ _ => false
  | _ => true

/-- The collecting loop is at `forceStart <- struct{}{}`, the channel buffer is full and
no goroutine is at the `select` that receives from the channel. -/
def Blocked (r : ReplicationSet) (s : DoState α ε) : Prop :=
  s.pc = Collector.signalling ∧ r.MaxErrors ≤ (s.forceStart : Int) ∧
    ∀ i : Nat, s.tasks[i]? ≠ some Task.waiting

/-- An instance in zone `z`. -/
def exInstance (z : String) : IngesterDesc :=
  { Addr := "", Timestamp := 0, State := 0, Tokens := [], Zone := z }

/-- One instance, zone budget 1, `MaxErrors = 0`. -/
def exOneZone : ReplicationSet :=
  { Ingesters := [exInstance "a"], MaxErrors := 0, MaxUnavailableZones := 1 }

/-- Two instances in two zones, zone budget 1, `MaxErrors = 0`. -/
def exTwoZones : ReplicationSet :=
  { Ingesters := [exInstance "a", exInstance "b"], MaxErrors := 0, MaxUnavailableZones := 1 }

/-- State of `exTwoZones.Do` after both calls failed and the first failure was received. -/
def exTwoZonesBlocked : DoState Nat Nat :=
  { tasks := [.finished (.fail 7), .finished (.fail 8)]
    errs := [(8, exInstance "b")]
    resultsChan := []
    forceStart := 0
    parentErr := none
    numErrs := 0
    numSuccess := 0
    results := []
    zoneFailureCount := ["a"]
    pc := .signalling }

/-- State of `exOneZone.Do` after the call failed and the failure was received. -/
def exOneZoneBlocked : DoState Nat Nat :=
  { tasks := [.finished (.fail 7)]
    errs := []
    resultsChan := []
    forceStart := 0
    parentErr := none
    numErrs := 0
    numSuccess := 0
    results := []
    zoneFailureCount := ["a"]
    pc := .signalling }

/-- One instance, `MaxErrors = 0`, error-count mode. -/
def exSingle : ReplicationSet :=
  { Ingesters := [exInstance "a"], MaxErrors := 0, MaxUnavailableZones := 0 }

/-- State of `exSingle.Do` after the call failed and the context was cancelled,
before the collecting loop has run its `select`. -/
def exSingleCancelled : DoState Nat Nat :=
  { tasks := [.finished (.fail 7)]
    errs := [(7, exInstance "a")]
    resultsChan := []
    forceStart := 0
    parentErr := some 9
    numErrs := 0
    numSuccess := 0
    results := []
    zoneFailureCount := []
    pc := .selecting }

/-- Two instances, `MaxErrors = 1`, error-count mode: instance 1 is a hedge candidate. -/
def exHedge : ReplicationSet :=
  { Ingesters := [exInstance "a", exInstance "b"], MaxErrors := 1, MaxUnavailableZones := 0 }

/-- State of `exHedge.Do` with delay 1 after instance 0 failed, the failure was received,
the force-start signal was buffered and the caller's context was then cancelled, the
goroutine of instance 1 not having run its `select` yet. -/
def exHedgeCancelled : DoState Nat Nat :=
  { tasks := [.finished (.fail 7), .waiting]
    errs := []
    resultsChan := []
    forceStart := 1
    parentErr := some 9
    numErrs := 1
    numSuccess := 0
    results := []
    zoneFailureCount := []
    pc := .selecting }

/-- Initial state of `exHedge.Do` with a positive delay. -/
def exHedgeInit : DoState Nat Nat :=
  { tasks := [.calling, .waiting]
    errs := []
    resultsChan := []
    forceStart := 0
    parentErr := none
    numErrs := 0
    numSuccess := 0
    results := []
    zoneFailureCount := []
    pc := .selecting }

/-- Three instances in three zones, zone budget 1, `MaxErrors = 1`. -/
def exThreeZones : ReplicationSet :=
  { Ingesters := [exInstance "a", exInstance "b", exInstance "c"], MaxErrors := 1,
    MaxUnavailableZones := 1 }

/-- State of `exThreeZones.Do` with delay 0 after the calls for instances 0 and 1 failed
and both failures were received. -/
def exThreeZonesFailed : DoState Nat Nat :=
  { tasks := [.finished (.fail 7), .finished (.fail 8), .calling]
    errs := []
    resultsChan := []
    forceStart := 1
    parentErr := none
    numErrs := 0
    numSuccess := 0
    results := []
    zoneFailureCount := ["a", "b"]
    pc := .returned none (some .tooManyZoneFailures) }

/-- Zones of the instances whose call of `f` failed during a schedule. -/
def failedZones (r : ReplicationSet) (acts : List (Action α ε)) : List String :=
  (failLog acts).filterMap (fun p => (r.Ingesters[p.1]?).map (fun ing => ing.Zone))

/-- Three instances, `MaxErrors = 1`, error-count mode. -/
def exThree : ReplicationSet :=
  { Ingesters := [exInstance "a", exInstance "b", exInstance "c"], MaxErrors := 1,
    MaxUnavailableZones := 0 }

/-- State of `exThree.Do` with delay 0 after instance 0 failed and instances 2 and 1
succeeded, in this order of arrival, and everything was received. -/
def exThreeSucceeded : DoState Nat Nat :=
  { tasks := [.finished (.fail 7), .finished (.ok 4), .finished (.ok 3)]
    errs := []
    resultsChan := []
    forceStart := 1
    parentErr := none
    numErrs := 1
    numSuccess := 2
    results := [3, 4]
    zoneFailureCount := []
    pc := .returned (some [3, 4]) none }

/-- State of `exThree.Do` with delay 0 after instances 0 and 1 failed and both failures
were received. -/
def exThreeFailed : DoState Nat Nat :=
  { tasks := [.finished (.fail 7), .finished (.fail 8), .calling]
    errs := []
    resultsChan := []
    forceStart := 1
    parentErr := none
    numErrs := 2
    numSuccess := 0
    results := []
    zoneFailureCount := []
    pc := .returned none (some (.fromF 8)) }

/-- Modelled from the spec: `Equal` of `IngesterDesc` is declared in `ring.pb.go`, which
is not among the sources. Two members are equal when they are identical field by
field. -/
def IngesterDesc.Equal (this that : IngesterDesc) : Bool :=
  this.Addr == that.Addr && this.Timestamp == that.Timestamp && this.State == that.State &&
    this.Tokens == that.Tokens && this.Zone == that.Zone

/-- The assignment `b.Timestamp = 0` on a copy of an instance. -/
def clearTimestamp (x : IngesterDesc) : IngesterDesc := { x with Timestamp := 0 }

/-- Modelled from the spec: `ByAddr` is declared in `model.go`, which is not among the
sources; it orders instances by address. The effect of `sort.Sort(ByAddr(xs))`:
`sort.Sort` reaches the slice only through `Less` and `Swap`, so the rearrangement it
performs is a function of the sequence of addresses; `sortIdx` maps that sequence to the
list of source positions, in the order in which the sorted slice holds them. -/
def sortByAddr (sortIdx : List String → List Nat) (xs : List IngesterDesc) :
    List IngesterDesc :=
  (sortIdx (xs.map (fun x => x.Addr))).filterMap (fun i => xs[i]?)

/-- The comparison loop of `HasReplicationSetChanged` over the two sorted slices. -/
def changedLoop : List IngesterDesc → List IngesterDesc → Bool
  | b :: bs, a :: as =>
    if !(clearTimestamp b).Equal (clearTimestamp a) then true else changedLoop bs as
  | _, _ => false

/-- The function `HasReplicationSetChanged(before, after)`. -/
def HasReplicationSetChanged (sortIdx : List String → List Nat)
    (before after : ReplicationSet) : Bool :=
  if before.Ingesters.length ≠ after.Ingesters.length then true
  else changedLoop (sortByAddr sortIdx before.Ingesters) (sortByAddr sortIdx after.Ingesters)

/-- Insertion of position `i` into a list of positions ordered by address:
`i` goes before the first position whose address is greater. -/
def insertIdx (ks : List String) (i : Nat) : List Nat → List Nat
  | [] => [i]
  | j :: js => if ks.getD i "" < ks.getD j "" then i :: j :: js else j :: insertIdx ks i js

/-- The rearrangement made by insertion sort, which is what `sort.Sort` runs on
short slices. -/
def insertionSortIdx (ks : List String) : List Nat :=
  (List.range ks.length).foldl (fun acc i => insertIdx ks i acc) []

/-- Two instances with addresses out of order. -/
def exBefore : ReplicationSet :=
  { Ingesters :=
      [{ Addr := "b", Timestamp := 10, State := 0, Tokens := [5], Zone := "z" },
       { Addr := "a", Timestamp := 11, State := 0, Tokens := [9], Zone := "z" }]
    MaxErrors := 0
    MaxUnavailableZones := 0 }

/-- The set `exBefore` after both instances sent a heartbeat. -/
def exAfter : ReplicationSet :=
  { Ingesters :=
      [{ Addr := "b", Timestamp := 20, State := 0, Tokens := [5], Zone := "z" },
       { Addr := "a", Timestamp := 21, State := 0, Tokens := [9], Zone := "z" }]
    MaxErrors := 0
    MaxUnavailableZones := 0 }

/-- What `sort.Sort` guarantees of the rearrangement whatever the order relation: it only
swaps elements, so every source position occurs exactly once. -/
def IsRearrangement (sortIdx : List String → List Nat) : Prop :=
  ∀ ks : List String, (sortIdx ks).Perm (List.range ks.length)

/-- What `sort.Sort(ByAddr(xs))` guarantees: a rearrangement after which the addresses are
in non-decreasing order. -/
def IsSortByAddr (sortIdx : List String → List Nat) : Prop :=
  ∀ ks : List String, (sortIdx ks).Perm (List.range ks.length) ∧
    ((sortIdx ks).map (fun i => ks.getD i "")).Sorted (· ≤ ·)

/-- Modelled from the spec: the getter `GetAddr` of `IngesterDesc` is declared in
`ring.pb.go`, which is not among the sources. It returns the address of a member (and
the empty string on a nil pointer, which `Includes` never passes). -/
def IngesterDesc.GetAddr (m : IngesterDesc) : String := m.Addr

/-- The loop of `ReplicationSet.Includes` over the instances that remain. -/
def includesLoop (addr : String) : List IngesterDesc → Bool
  | [] => false
  | x :: rest => if x.GetAddr = addr then true else includesLoop addr rest

/-- The method `ReplicationSet.Includes(addr)`. -/
def ReplicationSet.Includes (r : ReplicationSet) (addr : String) : Bool :=
  includesLoop addr r.Ingesters

/-- The method `ReplicationSet.GetAddresses()`: `addrs` starts empty and every instance
appends its `Addr`. -/
def ReplicationSet.GetAddresses (r : ReplicationSet) : List String :=
  r.Ingesters.foldl (fun addrs desc => addrs ++ [desc.Addr]) []

/-- The replication set of the test `TestNewRingServiceDiscovery`. -/
def exDiscovery : ReplicationSet :=
  { Ingesters :=
      [{ Addr := "1.1.1.1", Timestamp := 0, State := 0, Tokens := [], Zone := "" },
       { Addr := "2.2.2.2", Timestamp := 0, State := 0, Tokens := [], Zone := "" }]
    MaxErrors := 0
    MaxUnavailableZones := 0 }

/-- Weight 1 for a label by which the send on `forceStart` is made: into the buffer, or
to a goroutine that receives it directly. -/
def signalOf : Action α ε → Nat
  | .signal => 1
  | .handoff _ => 1
  | _ => 0

/-- Number of sends on `forceStart` made during a schedule. -/
def signalsSent (acts : List (Action α ε)) : Nat := (acts.map signalOf).sum

/-- Weight 1 for a label by which the collecting loop receives a failure. -/
def recvErrOf : Action α ε → Nat
  | .recvErr => 1
  | _ => 0

/-- Number of failures received by the collecting loop during a schedule. -/
def failuresReceived (acts : List (Action α ε)) : Nat := (acts.map recvErrOf).sum

/-- Is 1 when `Do` is at the send on `forceStart`, and 0 otherwise. -/
def pendingSignal : Collector α ε → Nat
  | .signalling => 1
  | _ => 0

/-- Facts about the sends on `forceStart` after every schedule in error-count mode. -/
structure SignalInv (r : ReplicationSet) (acts : List (Action α ε)) (s : DoState α ε) :
    Prop where
  counted : s.numErrs = failuresReceived acts
  sent : (signalsSent acts : Int) + pendingSignal s.pc = min s.numErrs r.MaxErrors
  buffered : s.forceStart ≤ signalsSent acts

/-- State of `exThree.Do` with delay 0, hence without hedge candidates, after instance 0
failed and the failure was received: `Do` is at the send on `forceStart`. -/
def exThreeSignalling : DoState Nat Nat :=
  { tasks := [.finished (.fail 7), .calling, .calling]
    errs := []
    resultsChan := []
    forceStart := 0
    parentErr := none
    numErrs := 1
    numSuccess := 0
    results := []
    zoneFailureCount := []
    pc := .signalling }

end Ring

namespace Validation

/-! ## Validation of labels and samples (`pkg/util/validation/validate.go`) -/

/-- Modelled from the spec: `client.LabelAdapter` is declared in the package
`ingester/client`, whose declaration is not among the sources. A label: name and value. -/
structure LabelAdapter where
  Name : String
  Value : String
deriving DecidableEq, Repr

/-- The interface `LabelValidationConfig`. -/
structure LabelValidationConfig where
  EnforceMetricName : String → Bool
  MaxLabelNamesPerSeries : String → Int
  MaxLabelNameLength : String → Int
  MaxLabelValueLength : String → Int

/-- The values of the label `reason` with which `DiscardedSamples` is incremented. -/
inductive Reason where
  | invalidMetricName
  | greaterThanMaxSampleAge
  | maxLabelNamesPerSeries
  | tooFarInFuture
  | invalidLabel
  | labelNameTooLong
  | duplicateLabelNames
  | labelsNotSorted
  | labelValueTooLong
deriving DecidableEq, Repr

/-- The format constants of the error messages. -/
inductive Format where
  | errMissingMetricName
  | errInvalidMetricName
  | errInvalidLabel
  | errLabelNameTooLong
  | errLabelValueTooLong
  | errTooManyLabels
  | errTooOld
  | errTooNew
  | errDuplicateLabelName
  | errLabelsNotSorted
deriving DecidableEq, Repr

/-- A rejection: the reason with which `DiscardedSamples` is incremented and the error
`httpgrpc.Errorf(code, format, ...)` that is returned. The arguments rendered into the
message are left out. -/
structure Rejection where
  reason : Reason
  code : Int
  format : Format
deriving DecidableEq, Repr

/-- The constant `http.StatusBadRequest`. -/
def StatusBadRequest : Int := 400

/-- The constant `model.MetricNameLabel`. -/
def MetricNameLabel : String := "__name__"

/-- The length `len(s)` of a Go string, in bytes. -/
def goLen (s : String) : Int := s.utf8ByteSize

/-- The function `strings.Compare` of the Go library. It compares byte-wise, which on
well-formed UTF-8 is the order of code points. -/
def stringsCompare (a b : String) : Int :=
  if a = b then 0 else if a < b then -1 else 1

/-- An ASCII letter or an underscore. -/
def isLetterOrUnderscore (c : Char) : Bool :=
  (decide ('a' ≤ c) && decide (c ≤ 'z')) || (decide ('A' ≤ c) && decide (c ≤ 'Z')) ||
    c == '_'

/-- An ASCII digit. -/
def isDigit (c : Char) : Bool := decide ('0' ≤ c) && decide (c ≤ '9')

/-- The method `LabelName.IsValid` of `prometheus/common/model`: the name is not empty,
consists of ASCII letters, digits and underscores and does not start with a digit. -/
def IsValidLabelName (s : String) : Bool :=
  match s.toList with
  | [] => false
  | c :: cs => isLetterOrUnderscore c && cs.all (fun b => isLetterOrUnderscore b || isDigit b)

/-- The function `IsValidMetricName` of `prometheus/common/model`: as for a label name,
with the colon allowed in every position. -/
def IsValidMetricName (s : String) : Bool :=
  match s.toList with
  | [] => false
  | c :: cs => (isLetterOrUnderscore c || c == ':') &&
      cs.all (fun b => isLetterOrUnderscore b || b == ':' || isDigit b)

/-- Modelled from the spec: `extract.MetricNameFromLabelAdapters` is declared in the package
`util/extract`, which is not among the sources. The metric name is the value of the first
label named `__name__`; `none` stands for the error returned when there is none. -/
def MetricNameFromLabelAdapters : List LabelAdapter → Option String
  | [] => none
  | l :: rest => if l.Name = MetricNameLabel then some l.Value else MetricNameFromLabelAdapters rest

/-- The loop of `ValidateLabels` over the labels that remain, `lastLabelName` being the
name of the label before them. -/
def validateLabelsLoop (maxLabelNameLength maxLabelValueLength : Int) :
    String → List LabelAdapter → Option Rejection
  | _, [] => none
  | lastLabelName, l :: rest =>
    if !IsValidLabelName l.Name then
      some ⟨Reason.invalidLabel, StatusBadRequest, Format.errInvalidLabel⟩
    else if goLen l.Name > maxLabelNameLength then
      some ⟨Reason.labelNameTooLong, StatusBadRequest, Format.errLabelNameTooLong⟩
    else if goLen l.Value > maxLabelValueLength then
      some ⟨Reason.labelValueTooLong, StatusBadRequest, Format.errLabelValueTooLong⟩
    else if stringsCompare lastLabelName l.Name ≥ 0 then
      if stringsCompare lastLabelName l.Name = 0 then
        some ⟨Reason.duplicateLabelNames, StatusBadRequest, Format.errDuplicateLabelName⟩
      else
        some ⟨Reason.labelsNotSorted, StatusBadRequest, Format.errLabelsNotSorted⟩
    else validateLabelsLoop maxLabelNameLength maxLabelValueLength l.Name rest

/-- The part of `ValidateLabels` after the checks of the metric name. -/
def validateLabelsRest (cfg : LabelValidationConfig) (userID : String)
    (ls : List LabelAdapter) : Option Rejection :=
  if (ls.length : Int) > cfg.MaxLabelNamesPerSeries userID then
    some ⟨Reason.maxLabelNamesPerSeries, StatusBadRequest, Format.errTooManyLabels⟩
  else
    validateLabelsLoop (cfg.MaxLabelNameLength userID) (cfg.MaxLabelValueLength userID) "" ls

/-- The function `ValidateLabels(cfg, userID, ls)`; `none` stands for a nil error. -/
def ValidateLabels (cfg : LabelValidationConfig) (userID : String)
    (ls : List LabelAdapter) : Option Rejection :=
  if cfg.EnforceMetricName userID then
    match MetricNameFromLabelAdapters ls with
    | none => some ⟨Reason.invalidMetricName, StatusBadRequest, Format.errMissingMetricName⟩
    | some metricName =>
      if !IsValidMetricName metricName then
        some ⟨Reason.invalidMetricName, StatusBadRequest, Format.errInvalidMetricName⟩
      else validateLabelsRest cfg userID ls
  else validateLabelsRest cfg userID ls

/-- The interface `SampleValidationConfig`; the two durations are `time.Duration` values,
that is numbers of nanoseconds. -/
structure SampleValidationConfig where
  RejectOldSamples : String → Bool
  RejectOldSamplesMaxAge : String → Int
  CreationGracePeriod : String → Int

/-- Modelled from the spec: `client.Sample` is declared in the package `ingester/client`,
whose declaration is not among the sources. Of a sample only the timestamp, in
milliseconds, is read here. -/
structure Sample where
  TimestampMs : Int
deriving DecidableEq, Repr

/-- Wrap-around of 64-bit signed arithmetic. -/
def wrapInt64 (x : Int) : Int :=
  (x + 9223372036854775808) % 18446744073709551616 - 9223372036854775808

/-- The method `Time.Add` of `prometheus/common/model`, `t + Time(d / minimumTick)`: the
duration is divided by one millisecond, rounding toward zero, and added. -/
def timeAdd (t d : Int) : Int := wrapInt64 (t + d.tdiv 1000000)

/-- The function `ValidateSample(cfg, userID, metricName, s)`; `now₁` and `now₂` are the
values of `model.Now()` at its two calls, in milliseconds; `none` stands for a nil error. -/
def ValidateSample (cfg : SampleValidationConfig) (now₁ now₂ : Int) (userID : String)
    (_metricName : String) (s : Sample) : Option Rejection :=
  if cfg.RejectOldSamples userID = true ∧
      s.TimestampMs < timeAdd now₁ (wrapInt64 (-(cfg.RejectOldSamplesMaxAge userID))) then
    some ⟨Reason.greaterThanMaxSampleAge, StatusBadRequest, Format.errTooOld⟩
  else if s.TimestampMs > timeAdd now₂ (cfg.CreationGracePeriod userID) then
    some ⟨Reason.tooFarInFuture, StatusBadRequest, Format.errTooNew⟩
  else none

/-- A configuration that rejects samples older than one hour and accepts samples up to
ten minutes ahead. -/
def exSampleConfig : SampleValidationConfig :=
  { RejectOldSamples := fun _ => true
    RejectOldSamplesMaxAge := fun _ => 3600000000000
    CreationGracePeriod := fun _ => 600000000000 }

/-- A configuration whose maximum age is one nanosecond below zero. -/
def exNegativeAge : SampleValidationConfig :=
  { RejectOldSamples := fun _ => true
    RejectOldSamplesMaxAge := fun _ => -1
    CreationGracePeriod := fun _ => 600000000000 }

/-- A configuration whose grace period is one millisecond and a half below zero. -/
def exNegativeGrace : SampleValidationConfig :=
  { RejectOldSamples := fun _ => false
    RejectOldSamplesMaxAge := fun _ => 3600000000000
    CreationGracePeriod := fun _ => -1500000 }

/-- The text `fmt.Sprintf("%s=%q", l.Name, l.Value)` of one label, over the library
rendering `quote` of the verb `%q`. -/
def labelString (quote : String → String) (l : LabelAdapter) : String :=
  l.Name ++ "=" ++ quote l.Value

/-- The loop of `formatLabelSet` over the labels that remain: the values of `metricName`,
`hasMetricName` and `labelStrings` after it. -/
def formatLabelSetLoop (quote : String → String) :
    List LabelAdapter → String → Bool → List String → String × Bool × List String
  | [], metricName, hasMetricName, labelStrings => (metricName, hasMetricName, labelStrings)
  | l :: rest, metricName, hasMetricName, labelStrings =>
    if l.Name = MetricNameLabel ∧ hasMetricName = false ∧ l.Value ≠ "" then
      formatLabelSetLoop quote rest l.Value true labelStrings
    else
      formatLabelSetLoop quote rest metricName hasMetricName
        (labelStrings ++ [labelString quote l])

/-- The function `formatLabelSet(ls)`. -/
def formatLabelSet (quote : String → String) (ls : List LabelAdapter) : String :=
  match formatLabelSetLoop quote ls "" false [] with
  | (metricName, hasMetricName, labelStrings) =>
    if labelStrings.length = 0 then
      if hasMetricName then metricName else "\x7b\x7d"
    else metricName ++ "\x7b" ++ String.intercalate ", " labelStrings ++ "\x7d"

/-- The rendering that the comment of `formatLabelSet` describes, for a given reading
`isName` of which labels count as a metric name: the first such label gives the metric
name, every other label is rendered in the original order. -/
def renderLabelSet (isName : LabelAdapter → Bool) (quote : String → String)
    (ls : List LabelAdapter) : String :=
  match ls.find? isName with
  | some l =>
    if ls.eraseP isName = [] then l.Value
    else l.Value ++ "\x7b" ++
      String.intercalate ", " ((ls.eraseP isName).map (labelString quote)) ++ "\x7d"
  | none =>
    if ls = [] then "\x7b\x7d"
    else "\x7b" ++ String.intercalate ", " (ls.map (labelString quote)) ++ "\x7d"

/-- The reading by which every label named `__name__` counts as a metric name. -/
def namedMetricName (l : LabelAdapter) : Bool := decide (l.Name = MetricNameLabel)

/-- The reading by which a label named `__name__` with a value that is not empty counts
as a metric name. -/
def namedMetricNameWithValue (l : LabelAdapter) : Bool :=
  decide (l.Name = MetricNameLabel ∧ l.Value ≠ "")

/-- The rendering of the verb `%q` for text of printable ASCII characters: in double
quotes, with a backslash before a double quote and before a backslash. -/
def exQuote (s : String) : String :=
  "\"" ++ String.join (s.toList.map (fun c =>
    if c = '"' ∨ c = '\\' then "\\" ++ String.singleton c else String.singleton c)) ++ "\""

/-- Two labels named `__name__`, the first one with an empty value. -/
def exTwoNames : List LabelAdapter := [⟨"__name__", ""⟩, ⟨"__name__", "m"⟩, ⟨"a", "b"⟩]

end Validation

namespace Util

/-! ## Metric family maps (`pkg/util/metrics_helper.go`) -/

/-- Modelled from the spec: `dto.MetricFamily` is declared in `prometheus/client_model`,
which is not among the sources. A metric family: its optional name, and `payload` for
the rest of the message. -/
structure MetricFamily where
  Name : Option String
  payload : Nat
deriving DecidableEq, Repr

/-- The getter `GetName` on a pointer to a metric family, `none` being the nil pointer:
the name if the pointer and the name are set, and the empty string otherwise. -/
def GetName : Option MetricFamily → String
  | some m => m.Name.getD ""
  | none => ""

/-- The type `MetricFamilyMap`, a map from names to pointers, as the list of its entries. -/
abbrev MetricFamilyMap := List (String × Option MetricFamily)

/-- The lookup `mfm[name]`; a missing key gives the nil pointer. -/
def mapGet : MetricFamilyMap → String → Option MetricFamily
  | [], _ => none
  | (k, v) :: rest, name => if k = name then v else mapGet rest name

/-- The assignment `mfm[name] = m`. -/
def mapSet : MetricFamilyMap → String → Option MetricFamily → MetricFamilyMap
  | [], name, m => [(name, m)]
  | (k, v) :: rest, name, m =>
    if k = name then (name, m) :: rest else (k, v) :: mapSet rest name m

/-- The two errors of `NewMetricFamilyMap`. -/
inductive MapError where
  | emptyName
  | nonUniqueName (name : String)
deriving DecidableEq, Repr

/-- The loop of `NewMetricFamilyMap` over the families that remain. -/
def newMetricFamilyMapLoop (perMetricName : MetricFamilyMap) :
    List (Option MetricFamily) → Except MapError MetricFamilyMap
  | [] => .ok perMetricName
  | m :: rest =>
    if GetName m = "" then .error MapError.emptyName
    else if mapGet perMetricName (GetName m) ≠ none then
      .error (MapError.nonUniqueName (GetName m))
    else newMetricFamilyMapLoop (mapSet perMetricName (GetName m) m) rest

/-- The function `NewMetricFamilyMap(metrics)`. -/
def NewMetricFamilyMap (metrics : List (Option MetricFamily)) :
    Except MapError MetricFamilyMap :=
  newMetricFamilyMapLoop [] metrics

end Util

namespace Aws

/-! ## Server side encryption (`pkg/chunk/aws/sse_config.go`) -/

/-- The constant `SSEKMS`. -/
def SSEKMS : String := "SSE-KMS"

/-- The constant `sseKMSType`. -/
def sseKMSType : String := "aws:kms"

/-- The constant `SSES3`. -/
def SSES3 : String := "SSE-S3"

/-- The constant `sseS3Type`. -/
def sseS3Type : String := "AES256"

/-- The struct `SSEParsedConfig`; `none` is the nil pointer. -/
structure SSEParsedConfig where
  ServerSideEncryption : String
  KMSKeyID : Option String
  KMSEncryptionContext : Option String
deriving DecidableEq, Repr

/-- A value of type `map[string]string` as the list of its entries; the nil map is the
`none` of `Option Tags`. -/
abbrev Tags := List (String × String)

/-- The errors of `NewSSEParsedConfig` and `parseKMSEncryptionContext`, over the type `ε`
of the errors of `json.Marshal`. -/
inductive SSEError (ε : Type) where
  | kmsKeyMissing
  | marshalFailed (cause : ε)
  | parseFailed (cause : SSEError ε)
  | invalidType
deriving DecidableEq, Repr

/-- The function `parseKMSEncryptionContext`, over the library functions `json.Marshal`
and `base64.StdEncoding.EncodeToString`. -/
def parseKMSEncryptionContext {ε : Type} (jsonMarshal : Tags → Except ε String)
    (base64Std : String → String) (kmsEncryptionContext : Option Tags) :
    Except (SSEError ε) (Option String) :=
  match kmsEncryptionContext with
  | none => .ok none
  | some ctx =>
    match jsonMarshal ctx with
    | .error err => .error (SSEError.marshalFailed err)
    | .ok jsonKMSEncryptionContext => .ok (some (base64Std jsonKMSEncryptionContext))

/-- The function `NewSSEParsedConfig(sseType, kmsKeyID, kmsEncryptionContext)`. -/
def NewSSEParsedConfig {ε : Type} (jsonMarshal : Tags → Except ε String)
    (base64Std : String → String) (sseType : String) (kmsKeyID : Option String)
    (kmsEncryptionContext : Option Tags) : Except (SSEError ε) SSEParsedConfig :=
  if sseType = SSES3 then
    .ok { ServerSideEncryption := sseS3Type, KMSKeyID := none, KMSEncryptionContext := none }
  else if sseType = SSEKMS then
    match kmsKeyID with
    | none => .error SSEError.kmsKeyMissing
    | some _ =>
      match parseKMSEncryptionContext jsonMarshal base64Std kmsEncryptionContext with
      | .error err => .error (SSEError.parseFailed err)
      | .ok parsedKMSEncryptionContext =>
        .ok { ServerSideEncryption := sseKMSType, KMSKeyID := kmsKeyID,
              KMSEncryptionContext := parsedKMSEncryptionContext }
  else .error SSEError.invalidType

/-- A rendering of the entries of a map as a JSON object, for maps whose keys are in
order and whose strings need no escaping. -/
def exJsonMarshal (ctx : Tags) : Except Unit String :=
  .ok ("\x7b" ++ String.intercalate ","
    (ctx.map (fun kv => "\"" ++ kv.1 ++ "\":\"" ++ kv.2 ++ "\"")) ++ "\x7d")

/-- A stand-in for the base64 encoding that marks the encoded text. -/
def exBase64 (s : String) : String := "base64:" ++ s

end Aws

namespace Objectclient

/-! ## The object alert store (`pkg/alertmanager/alertstore/objectclient/store.go`) -/

/-- The constant `alertPrefix`. -/
def alertPrefix : String := "alerts/"

/-- The elements of a path: the pieces between its slashes. -/
def pathElements : List Char → List (List Char)
  | [] => [[]]
  | c :: cs =>
    if c = '/' then [] :: pathElements cs
    else
      match pathElements cs with
      | e :: es => (c :: e) :: es
      | [] => [[c]]

/-- One element in the library function `path.Clean`, whose output so far is `out`,
last element first: empty and `.` elements are dropped, a `..` element removes the
element before it, and where there is none to remove it is kept in a path that is not
rooted and dropped in a rooted one. -/
def cleanElement (rooted : Bool) (out : List (List Char)) (e : List Char) :
    List (List Char) :=
  if e = [] ∨ e = ['.'] then out
  else if e = ['.', '.'] then
    match out with
    | top :: rest => if top = ['.', '.'] then e :: out else rest
    | [] => if rooted then [] else [e]
  else e :: out

/-- The library function `path.Clean`: the shortest path that names the same place, by
the rules of `cleanElement`, the elements joined by single slashes; `.` for an empty
result. -/
def pathClean (path : String) : String :=
  if path = "" then "."
  else
    let rooted : Bool := decide (path.toList.head? = some '/')
    let out := (pathElements path.toList).foldl (cleanElement rooted) []
    let body := String.intercalate "/" (out.reverse.map String.mk)
    if rooted then "/" ++ body else if out = [] then "." else body

/-- The library function `path.Join`: the elements that are not empty, joined by slashes
and cleaned; the empty string if there is none. -/
def pathJoin (elem : List String) : String :=
  match elem.filter (fun e => decide (e ≠ "")) with
  | [] => ""
  | es => pathClean (String.intercalate "/" es)

/-- The library function `strings.TrimPrefix`. -/
def stringsTrimPrefix (s pre : String) : String :=
  if pre.toList.isPrefixOf s.toList then String.mk (s.toList.drop pre.length) else s

/-- The object name `path.Join(alertPrefix, user)` that `GetAlertConfigs`,
`GetAlertConfig`, `SetAlertConfig` (for `cfg.User`) and `DeleteAlertConfig` pass to the
object client. -/
def alertObjectKey (user : String) : String := pathJoin [alertPrefix, user]

/-- The method `ListAllUsers`, on the result of `client.List(ctx, alertPrefix, "")`:
the keys of the objects found, or an error. -/
def ListAllUsers {ε : Type} (objs : Except ε (List String)) : Except ε (List String) :=
  match objs with
  | .error err => .error err
  | .ok keys => .ok (keys.map (fun key => stringsTrimPrefix key alertPrefix))

end Objectclient

namespace Distributor

/-! ## The wire format of `ReplicaDesc` (`pkg/distributor/ha_tracker.pb.go`) -/

/-- A byte. -/
abbrev Byte := Fin 256

/-- The message `ReplicaDesc`: the string `Replica` as its bytes, the `int64` field
`ReceivedAt` as an integer. -/
structure ReplicaDesc where
  Replica : List Byte
  ReceivedAt : Int
deriving DecidableEq, Repr

/-- The conversion `uint8(x)`. -/
def uint8 (x : Nat) : Byte := ⟨x % 256, Nat.mod_lt x (by decide)⟩

/-- The conversion `uint64(x)` of an `int` or `int64`. -/
def uint64 (x : Int) : Nat := (x % 18446744073709551616).toNat

/-- The conversions `int64(x)` and `int(x)` of a `uint64`, and the wrap of a sum of
two `int`s; an `int` has 64 bits. -/
def int64 (x : Int) : Int :=
  if x % 18446744073709551616 < 9223372036854775808 then x % 18446744073709551616
  else x % 18446744073709551616 - 18446744073709551616

/-- The conversion `int32(x)` of a `uint64`. -/
def int32 (x : Nat) : Int :=
  if x % 4294967296 < 2147483648 then (x % 4294967296 : Nat)
  else (x % 4294967296 : Nat) - 4294967296

/-- The method `Equal` for two messages, `none` being the nil pointer. -/
def ReplicaDesc.Equal (this that : Option ReplicaDesc) : Bool :=
  match that with
  | none => this.isNone
  | some that1 =>
    match this with
    | none => false
    | some this =>
      if this.Replica ≠ that1.Replica then false
      else if this.ReceivedAt ≠ that1.ReceivedAt then false
      else true

/-- The loop of `sovHaTracker`, entered with the count `n`. -/
def sovLoop (x n : Nat) : Nat :=
  if x >>> 7 = 0 then n + 1 else sovLoop (x >>> 7) (n + 1)
termination_by x
decreasing_by
  simp_wf
  rename_i h
  rw [Nat.shiftRight_eq_div_pow] at h ⊢
  omega

/-- The function `sovHaTracker(x)`: the number of bytes of the varint of `x`. -/
def sovHaTracker (x : Nat) : Nat := sovLoop x 0

/-- The method `Size`, `none` being the nil pointer. -/
def ReplicaDesc.Size (m : Option ReplicaDesc) : Nat :=
  match m with
  | none => 0
  | some m =>
    let l := m.Replica.length
    let n := if l > 0 then 1 + l + sovHaTracker (uint64 l) else 0
    if m.ReceivedAt ≠ 0 then n + (1 + sovHaTracker (uint64 m.ReceivedAt)) else n

/-- The assignment `dAtA[i] = b`; `none` is the panic for an index out of range. -/
def store (dAtA : List Byte) (i : Nat) (b : Byte) : Option (List Byte) :=
  if i < dAtA.length then some (dAtA.set i b) else none

/-- The function `encodeVarintHaTracker(dAtA, offset, v)`: the buffer as written and
the offset returned; `none` is the panic for an index out of range. -/
def encodeVarintHaTracker (dAtA : List Byte) (offset v : Nat) : Option (List Byte × Nat) :=
  if v ≥ 128 then
    match store dAtA offset (uint8 (v &&& 0x7f ||| 0x80)) with
    | none => none
    | some dAtA => encodeVarintHaTracker dAtA (offset + 1) (v >>> 7)
  else
    match store dAtA offset (uint8 v) with
    | none => none
    | some dAtA => some (dAtA, offset + 1)
termination_by v
decreasing_by
  simp_wf
  rw [Nat.shiftRight_eq_div_pow]
  omega

/-- The call `copy(dAtA[i:], src)`: the buffer as written and the number of bytes
copied; `none` is the panic for a slice bound out of range. -/
def copyAt (dAtA : List Byte) (i : Nat) (src : List Byte) : Option (List Byte × Nat) :=
  if i ≤ dAtA.length then
    let n := min (dAtA.length - i) src.length
    some (dAtA.take i ++ src.take n ++ dAtA.drop (i + n), n)
  else none

/-- The errors of `Unmarshal` and `skipHaTracker`. -/
inductive Error where
  | ErrInvalidLengthHaTracker
  | ErrIntOverflowHaTracker
  | ErrUnexpectedEOF
  | endGroupForNonGroup
  | illegalTag (fieldNum : Int) (wire : Nat)
  | wrongWireType (wireType : Nat) (field : String)
  | illegalWireType (wireType : Nat)
deriving DecidableEq, Repr

/-- The method `MarshalTo(dAtA)`: the buffer as written, the count and the error, which
is always nil; `none` is a panic. -/
def ReplicaDesc.MarshalTo (m : ReplicaDesc) (dAtA : List Byte) :
    Option (List Byte × Nat × Option Error) :=
  let i := 0
  let replica : Option (List Byte × Nat) :=
    if m.Replica.length > 0 then
      match store dAtA i 0xa with
      | none => none
      | some dAtA =>
        match encodeVarintHaTracker dAtA (i + 1) (uint64 m.Replica.length) with
        | none => none
        | some (dAtA, i) =>
          match copyAt dAtA i m.Replica with
          | none => none
          | some (dAtA, n) => some (dAtA, i + n)
    else some (dAtA, i)
  match replica with
  | none => none
  | some (dAtA, i) =>
    if m.ReceivedAt ≠ 0 then
      match store dAtA i 0x10 with
      | none => none
      | some dAtA =>
        match encodeVarintHaTracker dAtA (i + 1) (uint64 m.ReceivedAt) with
        | none => none
        | some (dAtA, i) => some (dAtA, i, none)
    else some (dAtA, i, none)

/-- The method `Marshal()`: the bytes and the error; `none` is a panic. -/
def ReplicaDesc.Marshal (m : ReplicaDesc) : Option (List Byte × Option Error) :=
  let size := ReplicaDesc.Size (some m)
  let dAtA : List Byte := List.replicate size 0
  match m.MarshalTo dAtA with
  | none => none
  | some (dAtA, n, err) =>
    match err with
    | some err => some ([], some err)
    | none => if n ≤ dAtA.length then some (dAtA.take n, none) else none

/-- The outcome of a call that may not return: `panic` is a panic of the Go runtime,
`fuel` a run that is longer than the number of steps it was given. -/
inductive Run (α : Type) where
  | ret (a : α)
  | panic
  | fuel
deriving DecidableEq, Repr

/-- The loop `for shift := uint(0); ; shift += 7` that reads a varint, as `Unmarshal`
and `skipHaTracker` have it: `rest` is `dAtA[iNdEx:]` and `acc` the bits of the variable
that the loop fills. The result is that variable, the index and the error returned, if
any. -/
def varintLoop (shift acc iNdEx : Nat) : List Byte → Nat × Nat × Option Error
  | [] =>
    if shift ≥ 64 then (acc, iNdEx, some Error.ErrIntOverflowHaTracker)
    else (acc, iNdEx, some Error.ErrUnexpectedEOF)
  | b :: rest =>
    if shift ≥ 64 then (acc, iNdEx, some Error.ErrIntOverflowHaTracker)
    else
      let acc := acc ||| ((b.val &&& 0x7F) <<< shift) % 18446744073709551616
      if b.val < 0x80 then (acc, iNdEx + 1, none)
      else varintLoop (shift + 7) acc (iNdEx + 1) rest

/-- The function `skipHaTracker(dAtA)`, in at most `fuel` calls and rounds of the loop
that skips a group. With `group = none` it is the function from its start; with
`group = some iNdEx` it is the round of the loop of wire type 3 that starts at
`iNdEx`. -/
def skipHaTrackerAux : Nat → Option Int → List Byte → Run (Int × Option Error)
  | 0, _, _ => Run.fuel
  | fuel + 1, none, dAtA =>
    let l := dAtA.length
    if 0 < l then
      match varintLoop 0 0 0 dAtA with
      | (_, _, some err) => Run.ret (0, some err)
      | (wire, iNdEx, none) =>
        let wireType := wire &&& 0x7
        if wireType = 0 then
          match varintLoop 0 0 iNdEx (dAtA.drop iNdEx) with
          | (_, _, some err) => Run.ret (0, some err)
          | (_, iNdEx, none) => Run.ret (iNdEx, none)
        else if wireType = 1 then Run.ret ((iNdEx : Int) + 8, none)
        else if wireType = 2 then
          match varintLoop 0 0 iNdEx (dAtA.drop iNdEx) with
          | (_, _, some err) => Run.ret (0, some err)
          | (length, iNdEx, none) =>
            if int64 length < 0 then Run.ret (0, some Error.ErrInvalidLengthHaTracker)
            else if int64 (iNdEx + int64 length) < 0 then
              Run.ret (0, some Error.ErrInvalidLengthHaTracker)
            else Run.ret (int64 (iNdEx + int64 length), none)
        else if wireType = 3 then skipHaTrackerAux fuel (some iNdEx) dAtA
        else if wireType = 4 then Run.ret (iNdEx, none)
        else if wireType = 5 then Run.ret ((iNdEx : Int) + 4, none)
        else Run.ret (0, some (Error.illegalWireType wireType))
    else Run.panic
  | fuel + 1, some start, dAtA =>
    match varintLoop 0 0 start.toNat (dAtA.drop start.toNat) with
    | (_, _, some err) => Run.ret (0, some err)
    | (innerWire, iNdEx, none) =>
      let innerWireType := innerWire &&& 0x7
      if innerWireType = 4 then Run.ret (iNdEx, none)
      else
        match skipHaTrackerAux fuel none (dAtA.drop start.toNat) with
        | Run.ret (_, some err) => Run.ret (0, some err)
        | Run.ret (next, none) =>
          if int64 (start + next) < 0 then Run.ret (0, some Error.ErrInvalidLengthHaTracker)
          else skipHaTrackerAux fuel (some (int64 (start + next))) dAtA
        | Run.panic => Run.panic
        | Run.fuel => Run.fuel

/-- The function `skipHaTracker(dAtA)`; two steps for every byte are enough. -/
def skipHaTracker (dAtA : List Byte) : Run (Int × Option Error) :=
  skipHaTrackerAux (2 * dAtA.length + 2) none dAtA

/-- The loop `for iNdEx < l` of `Unmarshal` with the last check, in at most `fuel`
rounds: the message as it is left and the error returned. -/
def unmarshalLoop (dAtA : List Byte) : Nat → ReplicaDesc → Nat → Run (ReplicaDesc × Option Error)
  | 0, _, _ => Run.fuel
  | fuel + 1, m, iNdEx =>
    let l := dAtA.length
    if iNdEx < l then
      let preIndex := iNdEx
      match varintLoop 0 0 iNdEx (dAtA.drop iNdEx) with
      | (_, _, some err) => Run.ret (m, some err)
      | (wire, iNdEx, none) =>
        let fieldNum := int32 (wire >>> 3)
        let wireType := wire &&& 0x7
        if wireType = 4 then Run.ret (m, some Error.endGroupForNonGroup)
        else if fieldNum ≤ 0 then Run.ret (m, some (Error.illegalTag fieldNum wire))
        else if fieldNum = 1 then
          if wireType ≠ 2 then Run.ret (m, some (Error.wrongWireType wireType "Replica"))
          else
            match varintLoop 0 0 iNdEx (dAtA.drop iNdEx) with
            | (_, _, some err) => Run.ret (m, some err)
            | (stringLen, iNdEx, none) =>
              let intStringLen := int64 stringLen
              if intStringLen < 0 then Run.ret (m, some Error.ErrInvalidLengthHaTracker)
              else
                let postIndex := int64 (iNdEx + intStringLen)
                if postIndex < 0 then Run.ret (m, some Error.ErrInvalidLengthHaTracker)
                else if postIndex > l then Run.ret (m, some Error.ErrUnexpectedEOF)
                else
                  unmarshalLoop dAtA fuel
                    { m with Replica := (dAtA.take postIndex.toNat).drop iNdEx }
                    postIndex.toNat
        else if fieldNum = 2 then
          if wireType ≠ 0 then
            Run.ret (m, some (Error.wrongWireType wireType "ReceivedAt"))
          else
            match varintLoop 0 0 iNdEx (dAtA.drop iNdEx) with
            | (bits, _, some err) => Run.ret ({ m with ReceivedAt := int64 bits }, some err)
            | (bits, iNdEx, none) =>
              unmarshalLoop dAtA fuel { m with ReceivedAt := int64 bits } iNdEx
        else
          let iNdEx := preIndex
          match skipHaTracker (dAtA.drop iNdEx) with
          | Run.ret (_, some err) => Run.ret (m, some err)
          | Run.ret (skippy, none) =>
            if skippy < 0 then Run.ret (m, some Error.ErrInvalidLengthHaTracker)
            else if int64 (iNdEx + skippy) < 0 then
              Run.ret (m, some Error.ErrInvalidLengthHaTracker)
            else if int64 (iNdEx + skippy) > l then Run.ret (m, some Error.ErrUnexpectedEOF)
            else unmarshalLoop dAtA fuel m (int64 (iNdEx + skippy)).toNat
          | Run.panic => Run.panic
          | Run.fuel => Run.fuel
    else if iNdEx > l then Run.ret (m, some Error.ErrUnexpectedEOF)
    else Run.ret (m, none)

/-- The method `Unmarshal(dAtA)` on the message `m`: the message as it is left and the
error returned. Every round of the loop reads at least one byte, so that one round more
than there are bytes is enough. -/
def ReplicaDesc.Unmarshal (m : ReplicaDesc) (dAtA : List Byte) :
    Run (ReplicaDesc × Option Error) :=
  unmarshalLoop dAtA (dAtA.length + 1) m 0

/-- The bytes of the varint of `v`, low groups first. -/
def varint (v : Nat) : List Byte :=
  if v ≥ 128 then uint8 (v % 128 + 128) :: varint (v / 128) else [uint8 v]
termination_by v
decreasing_by
  simp_wf
  omega

/-- The wire form of a message: the fields that are not empty or zero. -/
def wire (m : ReplicaDesc) : List Byte :=
  (if m.Replica.length > 0 then (0xa : Byte) :: varint m.Replica.length ++ m.Replica else []) ++
  (if m.ReceivedAt ≠ 0 then (0x10 : Byte) :: varint (uint64 m.ReceivedAt) else [])

/-- An example message with a negative time. -/
def exReplicaDesc : ReplicaDesc := ⟨[97, 98], -1⟩

end Distributor

/-! ## Executions, invariants and the claims -/

namespace Ring

variable {α ε : Type}

theorem run_append (r : ReplicationSet) (s : DoState α ε) (as bs : List (Action α ε)) :
    run r s (as ++ bs) = (run r s as).bind (fun s' => run r s' bs) := by
  induction as generalizing s with
  | nil => simp [run]
  | cons a as ih =>
    simp only [List.cons_append, run]
    cases step r s a with
    | none => simp
    | some s' => simpa using ih s'

theorem exec_snoc (r : ReplicationSet) (d : Int) (as : List (Action α ε)) (a : Action α ε) :
    Do.exec r d (as ++ [a]) = (Do.exec r d as).bind (fun s => step r s a) := by
  unfold Do.exec
  cases Do.init r d with
  | none => simp
  | some s0 =>
    simp only [Option.some_bind, run_append]
    cases run r s0 as with
    | none => simp
    | some s => simp [run]

theorem exec_induction {r : ReplicationSet} {d : Int}
    (P : List (Action α ε) → DoState α ε → Prop)
    (h0 : ∀ s0, Do.init r d = some s0 → P [] s0)
    (hs : ∀ as s a s', Do.exec r d as = some s → P as s → step r s a = some s' →
      P (as ++ [a]) s') :
    ∀ as s, Do.exec r d as = some s → P as s := by
  intro as
  induction as using List.reverseRecOn with
  | nil =>
    intro s h
    apply h0
    simpa [Do.exec, run] using h
  | append_singleton as a ih =>
    intro s' h
    rw [exec_snoc] at h
    cases hx : Do.exec r d as with
    | none => simp [hx] at h
    | some s =>
      rw [hx] at h
      exact hs as s a s' hx (ih s hx) (by simpa using h)

theorem step_cancel {r : ReplicationSet} {s s' : DoState α ε} {c : ε}
    (h : step r s (.cancel c) = some s') :
    s.parentErr = none ∧ s' = { s with parentErr := some c } := by
  simp only [step] at h
  split at h
  · exact absurd h (by simp)
  · rename_i h1
    refine ⟨?_, (Option.some.inj h).symm⟩
    cases hp : s.parentErr with
    | none => rfl
    | some c => simp [hp] at h1

theorem step_timer {r : ReplicationSet} {s s' : DoState α ε} {i : Nat}
    (h : step r s (.timer i) = some s') :
    s.tasks[i]? = some .waiting ∧ s' = { s with tasks := s.tasks.set i .calling } := by
  simp only [step] at h
  split at h
  · rename_i h1
    exact ⟨h1, (Option.some.inj h).symm⟩
  · exact absurd h (by simp)

theorem step_forced {r : ReplicationSet} {s s' : DoState α ε} {i : Nat}
    (h : step r s (.forced i) = some s') :
    s.tasks[i]? = some .waiting ∧ 0 < s.forceStart ∧
      s' = { s with tasks := s.tasks.set i .calling, forceStart := s.forceStart - 1 } := by
  simp only [step] at h
  split at h
  · rename_i h1
    split at h
    · rename_i h2
      exact ⟨h1, h2, (Option.some.inj h).symm⟩
    · exact absurd h (by simp)
  · exact absurd h (by simp)

theorem step_handoff {r : ReplicationSet} {s s' : DoState α ε} {i : Nat}
    (h : step r s (.handoff i) = some s') :
    s.pc = .signalling ∧ s.tasks[i]? = some .waiting ∧
      s' = loopHead r { s with tasks := s.tasks.set i .calling } := by
  simp only [step] at h
  split at h
  · rename_i h1 h2
    exact ⟨h1, h2, (Option.some.inj h).symm⟩
  · exact absurd h (by simp)

theorem step_ctxDone {r : ReplicationSet} {s s' : DoState α ε} {i : Nat}
    (h : step r s (.ctxDone i) = some s') :
    s.tasks[i]? = some .waiting ∧ derivedDone s = true ∧
      s' = { s with tasks := s.tasks.set i .stopped } := by
  simp only [step] at h
  split at h
  · rename_i h1
    split at h
    · rename_i h2
      exact ⟨h1, h2, (Option.some.inj h).symm⟩
    · exact absurd h (by simp)
  · exact absurd h (by simp)

theorem step_deliver_ok {r : ReplicationSet} {s s' : DoState α ε} {i : Nat} {v : α}
    (h : step r s (.deliver i (.ok v)) = some s') :
    s.tasks[i]? = some .calling ∧ i < r.Ingesters.length ∧
      s.resultsChan.length < r.Ingesters.length ∧
      s' = { s with tasks := s.tasks.set i (.finished (.ok v)),
                    resultsChan := s.resultsChan ++ [v] } := by
  simp only [step] at h
  split at h
  · rename_i ing h1 h2
    split at h
    · rename_i h3
      exact ⟨h1, (List.getElem?_eq_some_iff.mp h2).1, h3, (Option.some.inj h).symm⟩
    · exact absurd h (by simp)
  · exact absurd h (by simp)

theorem step_deliver_fail {r : ReplicationSet} {s s' : DoState α ε} {i : Nat} {e : ε}
    (h : step r s (.deliver i (.fail e)) = some s') :
    s.tasks[i]? = some .calling ∧ s.errs.length < r.Ingesters.length ∧
      ∃ ing, r.Ingesters[i]? = some ing ∧
      s' = { s with tasks := s.tasks.set i (.finished (.fail e)),
                    errs := s.errs ++ [(e, ing)] } := by
  simp only [step] at h
  split at h
  · rename_i ing h1 h2
    split at h
    · rename_i h3
      exact ⟨h1, h3, ing, h2, (Option.some.inj h).symm⟩
    · exact absurd h (by simp)
  · exact absurd h (by simp)

theorem step_recvErr {r : ReplicationSet} {s s' : DoState α ε}
    (h : step r s .recvErr = some s') :
    s.pc = .selecting ∧ ∃ e ing rest, s.errs = (e, ing) :: rest ∧
      s' = onFailure r { s with errs := rest } e ing := by
  simp only [step] at h
  split at h
  · rename_i e ing rest h1 h2
    exact ⟨h1, e, ing, rest, h2, (Option.some.inj h).symm⟩
  · exact absurd h (by simp)

theorem step_recvRes {r : ReplicationSet} {s s' : DoState α ε}
    (h : step r s .recvRes = some s') :
    s.pc = .selecting ∧ ∃ v rest, s.resultsChan = v :: rest ∧
      s' = loopHead r { s with resultsChan := rest, numSuccess := s.numSuccess + 1,
                               results := s.results ++ [v] } := by
  simp only [step] at h
  split at h
  · rename_i v rest h1 h2
    exact ⟨h1, v, rest, h2, (Option.some.inj h).symm⟩
  · exact absurd h (by simp)

theorem step_recvDone {r : ReplicationSet} {s s' : DoState α ε}
    (h : step r s .recvDone = some s') :
    s.pc = .selecting ∧ ∃ c, s.parentErr = some c ∧
      s' = { s with pc := .returned none (some (.ctxErr c)) } := by
  simp only [step] at h
  split at h
  · rename_i c h1 h2
    exact ⟨h1, c, h2, (Option.some.inj h).symm⟩
  · exact absurd h (by simp)

theorem step_signal {r : ReplicationSet} {s s' : DoState α ε}
    (h : step r s .signal = some s') :
    s.pc = .signalling ∧ (s.forceStart : Int) < r.MaxErrors ∧
      s' = loopHead r { s with forceStart := s.forceStart + 1 } := by
  simp only [step] at h
  split at h
  · rename_i h1
    split at h
    · rename_i h2
      exact ⟨h1, h2, (Option.some.inj h).symm⟩
    · exact absurd h (by simp)
  · exact absurd h (by simp)

@[simp]
theorem loopHead_tasks (r : ReplicationSet) (s : DoState α ε) :
    (loopHead r s).tasks = s.tasks := by unfold loopHead; split <;> rfl

@[simp]
theorem loopHead_errs (r : ReplicationSet) (s : DoState α ε) :
    (loopHead r s).errs = s.errs := by unfold loopHead; split <;> rfl

@[simp]
theorem loopHead_resultsChan (r : ReplicationSet) (s : DoState α ε) :
    (loopHead r s).resultsChan = s.resultsChan := by unfold loopHead; split <;> rfl

@[simp]
theorem loopHead_forceStart (r : ReplicationSet) (s : DoState α ε) :
    (loopHead r s).forceStart = s.forceStart := by unfold loopHead; split <;> rfl

@[simp]
theorem loopHead_parentErr (r : ReplicationSet) (s : DoState α ε) :
    (loopHead r s).parentErr = s.parentErr := by unfold loopHead; split <;> rfl

@[simp]
theorem loopHead_numErrs (r : ReplicationSet) (s : DoState α ε) :
    (loopHead r s).numErrs = s.numErrs := by unfold loopHead; split <;> rfl

@[simp]
theorem loopHead_numSuccess (r : ReplicationSet) (s : DoState α ε) :
    (loopHead r s).numSuccess = s.numSuccess := by unfold loopHead; split <;> rfl

@[simp]
theorem loopHead_results (r : ReplicationSet) (s : DoState α ε) :
    (loopHead r s).results = s.results := by unfold loopHead; split <;> rfl

@[simp]
theorem loopHead_zoneFailureCount (r : ReplicationSet) (s : DoState α ε) :
    (loopHead r s).zoneFailureCount = s.zoneFailureCount := by unfold loopHead; split <;> rfl

theorem loopHead_pc (r : ReplicationSet) (s : DoState α ε) :
    (loopHead r s).pc =
      if s.numSuccess < minSuccess r then .selecting else .returned (some s.results) none := by
  unfold loopHead; split <;> rfl

@[simp]
theorem onFailure_tasks (r : ReplicationSet) (s : DoState α ε) (e : ε)
    (ing : IngesterDesc) : (onFailure r s e ing).tasks = s.tasks := by
  unfold onFailure; split <;> [skip; skip] <;> (try simp only []) <;> split <;> rfl

@[simp]
theorem onFailure_errs (r : ReplicationSet) (s : DoState α ε) (e : ε)
    (ing : IngesterDesc) : (onFailure r s e ing).errs = s.errs := by
  unfold onFailure; split <;> [skip; skip] <;> (try simp only []) <;> split <;> rfl

@[simp]
theorem onFailure_resultsChan (r : ReplicationSet) (s : DoState α ε) (e : ε)
    (ing : IngesterDesc) : (onFailure r s e ing).resultsChan = s.resultsChan := by
  unfold onFailure; split <;> [skip; skip] <;> (try simp only []) <;> split <;> rfl

@[simp]
theorem onFailure_forceStart (r : ReplicationSet) (s : DoState α ε) (e : ε)
    (ing : IngesterDesc) : (onFailure r s e ing).forceStart = s.forceStart := by
  unfold onFailure; split <;> [skip; skip] <;> (try simp only []) <;> split <;> rfl

@[simp]
theorem onFailure_parentErr (r : ReplicationSet) (s : DoState α ε) (e : ε)
    (ing : IngesterDesc) : (onFailure r s e ing).parentErr = s.parentErr := by
  unfold onFailure; split <;> [skip; skip] <;> (try simp only []) <;> split <;> rfl

@[simp]
theorem onFailure_numSuccess (r : ReplicationSet) (s : DoState α ε) (e : ε)
    (ing : IngesterDesc) : (onFailure r s e ing).numSuccess = s.numSuccess := by
  unfold onFailure; split <;> [skip; skip] <;> (try simp only []) <;> split <;> rfl

@[simp]
theorem onFailure_results (r : ReplicationSet) (s : DoState α ε) (e : ε)
    (ing : IngesterDesc) : (onFailure r s e ing).results = s.results := by
  unfold onFailure; split <;> [skip; skip] <;> (try simp only []) <;> split <;> rfl

theorem sum_map_set {β : Type} (w : β → Nat) (l : List β) (i : Nat) (a b : β)
    (h : l[i]? = some a) :
    ((l.set i b).map w).sum + w a = (l.map w).sum + w b := by
  induction l generalizing i with
  | nil => simp at h
  | cons x xs ih =>
    cases i with
    | zero =>
      simp at h
      subst h
      simp
      omega
    | succ j =>
      simp at h
      have := ih j h
      simp only [List.set_cons_succ, List.map_cons, List.sum_cons]
      omega

theorem sum_sentW_le (l : List (Task α ε)) : (l.map sentW).sum ≤ l.length := by
  induction l with
  | nil => simp
  | cons x xs ih =>
    have : sentW x ≤ 1 := by cases x <;> simp [sentW]
    simp
    omega

theorem sum_sentW_lt (l : List (Task α ε)) (i : Nat) (t : Task α ε) (h : l[i]? = some t)
    (ht : sentW t = 0) : (l.map sentW).sum < l.length := by
  induction l generalizing i with
  | nil => simp at h
  | cons x xs ih =>
    cases i with
    | zero =>
      simp at h
      subst h
      have := sum_sentW_le xs
      simp [ht]
      omega
    | succ j =>
      simp at h
      have := ih j h
      have : sentW x ≤ 1 := by cases x <;> simp [sentW]
      simp
      omega

theorem sum_sentW_eq (l : List (Task α ε))
    (h : ∀ (i : Nat) (t : Task α ε), l[i]? = some t → sentW t = 1) : (l.map sentW).sum = l.length := by
  induction l with
  | nil => simp
  | cons x xs ih =>
    have h0 := h 0 x (by simp)
    have := ih (fun i t hi => h (i + 1) t (by simpa using hi))
    simp
    omega

theorem init_eq {r : ReplicationSet} {d : Int} {s0 : DoState α ε}
    (h : Do.init r d = some s0) :
    0 ≤ r.MaxErrors ∧ s0 = loopHead r
      { tasks := (List.range r.Ingesters.length).map
          (fun i => if isHedge r d i then Task.waiting else Task.calling)
        errs := []
        resultsChan := []
        forceStart := 0
        parentErr := none
        numErrs := 0
        numSuccess := 0
        results := []
        zoneFailureCount := []
        pc := .selecting } := by
  unfold Do.init at h
  split at h
  · exact absurd h (by simp)
  · exact ⟨by omega, (Option.some.inj h).symm⟩

theorem init_task {r : ReplicationSet} {d : Int} {i : Nat} {t : Task α ε}
    (h : ((List.range r.Ingesters.length).map
      (fun i => if isHedge r d i then (Task.waiting : Task α ε) else Task.calling))[i]? = some t) :
    i < r.Ingesters.length ∧ t = if isHedge r d i then Task.waiting else Task.calling := by
  rw [List.getElem?_map] at h
  by_cases hi : i < r.Ingesters.length
  · rw [List.getElem?_range hi] at h
    simp at h
    exact ⟨hi, h.symm⟩
  · rw [List.getElem?_eq_none (by simpa using hi)] at h
    simp at h

theorem logInv_init {r : ReplicationSet} {d : Int} {s0 : DoState α ε}
    (h : Do.init r d = some s0) : LogInv r d ([] : List (Action α ε)) s0 := by
  obtain ⟨h0, rfl⟩ := init_eq h
  refine
    { maxErrors := h0
      len := by simp
      okFin := by simp [okLog]
      failFin := by simp [failLog]
      nodup := by simp [okLog, failLog]
      count := ?_
      results := by simp [okLog]
      numSuccess := by simp
      errsLen := by simp
      errsFrom := by simp
      zones := by simp
      zonesNodup := by simp
      hedge := ?_
      stopped := ?_
      cancelled := by simp }
  · have : ∀ l : List Nat, ((l.map (fun i =>
        if isHedge r d i then (Task.waiting : Task α ε) else Task.calling)).map sentW).sum = 0 := by
      intro l
      induction l with
      | nil => simp
      | cons x xs ih =>
        simp only [List.map_cons, List.sum_cons, ih]
        split <;> simp [sentW]
    simp [numSent, okLog, failLog]
    simpa using this (List.range r.Ingesters.length)
  · intro i hi
    simp only [loopHead_tasks] at hi
    obtain ⟨_, ht⟩ := init_task hi
    by_cases hh : isHedge r d i = true
    · exact hh
    · simp [hh] at ht
  · intro i hi
    simp only [loopHead_tasks] at hi
    obtain ⟨_, ht⟩ := init_task hi
    split at ht <;> simp at ht

theorem getElem?_set_keep {β : Type} {l : List β} {i j : Nat} {t t' x : β}
    (h : l[i]? = some t) (hx : l[j]? = some x) (hne : x ≠ t) :
    (l.set i t')[j]? = some x := by
  by_cases hij : i = j
  · subst hij
    rw [h] at hx
    exact absurd (Option.some.inj hx).symm hne
  · rw [List.getElem?_set_ne hij]
    exact hx

theorem getElem?_set_inv {β : Type} {l : List β} {i j : Nat} {t' x : β}
    (hx : (l.set i t')[j]? = some x) : (j = i ∧ x = t') ∨ l[j]? = some x := by
  by_cases hij : i = j
  · subst hij
    rw [List.getElem?_set] at hx
    simp only [if_true] at hx
    split at hx
    · exact Or.inl ⟨rfl, (Option.some.inj hx).symm⟩
    · exact absurd hx (by simp)
  · rw [List.getElem?_set_ne hij] at hx
    exact Or.inr hx

@[simp]
theorem okLog_snoc (as : List (Action α ε)) (a : Action α ε) :
    okLog (as ++ [a]) = okLog as ++ (okOf a).toList := by
  unfold okLog
  rw [List.filterMap_append]
  cases h : okOf a <;> simp [List.filterMap, h]

@[simp]
theorem failLog_snoc (as : List (Action α ε)) (a : Action α ε) :
    failLog (as ++ [a]) = failLog as ++ (failOf a).toList := by
  unfold failLog
  rw [List.filterMap_append]
  cases h : failOf a <;> simp [List.filterMap, h]

/-- Preservation of `LogInv` by a label that delivers nothing. -/
theorem logInv_frame {r : ReplicationSet} {d : Int} {as : List (Action α ε)}
    {s s' : DoState α ε} (ih : LogInv r d as s) (a : Action α ε)
    (hok : okOf a = none) (hfail : failOf a = none)
    (htasks : s'.tasks = s.tasks ∨ ∃ i t', s.tasks[i]? = some Task.waiting ∧
      s'.tasks = s.tasks.set i t' ∧
      (t' = Task.calling ∨ (t' = Task.stopped ∧ derivedDone s = true)))
    (hres : s'.results ++ s'.resultsChan = s.results ++ s.resultsChan)
    (hns : s'.numSuccess = s'.results.length)
    (herrs : ∀ m ∈ s'.errs, m ∈ s.errs) (herrsLen : s'.errs.length ≤ s.errs.length)
    (hz : ∀ z ∈ s'.zoneFailureCount, z ∈ s.zoneFailureCount ∨ ∃ m ∈ s.errs, m.2.Zone = z)
    (hzn : s'.zoneFailureCount.Nodup)
    (hdone : derivedDone s = true → derivedDone s' = true)
    (hpar : ∀ c, s'.parentErr = some c → s.parentErr = some c ∨ a = Action.cancel c) :
    LogInv r d (as ++ [a]) s' := by
  have keep : ∀ (j : Nat) (o : Outcome α ε), s.tasks[j]? = some (Task.finished o) →
      s'.tasks[j]? = some (Task.finished o) := by
    intro j o hj
    rcases htasks with h | ⟨i, t', hi, h, _⟩
    · rw [h]; exact hj
    · rw [h]; exact getElem?_set_keep hi hj (by simp)
  have back : ∀ (j : Nat) (x : Task α ε), s'.tasks[j]? = some x →
      s.tasks[j]? = some x ∨ (x = Task.calling) ∨ (x = Task.stopped ∧ derivedDone s = true) := by
    intro j x hj
    rcases htasks with h | ⟨i, t', hi, h, ht⟩
    · rw [h] at hj; exact Or.inl hj
    · rw [h] at hj
      rcases getElem?_set_inv hj with ⟨_, rfl⟩ | h2
      · exact Or.inr ht
      · exact Or.inl h2
  refine
    { maxErrors := ih.maxErrors
      len := ?_
      okFin := ?_
      failFin := ?_
      nodup := by simpa [hok, hfail] using ih.nodup
      count := ?_
      results := by simpa [hok, hres] using ih.results
      numSuccess := hns
      errsLen := by simpa [hfail] using le_trans herrsLen ih.errsLen
      errsFrom := ?_
      zones := ?_
      zonesNodup := hzn
      hedge := ?_
      stopped := ?_
      cancelled := ?_ }
  · rcases htasks with h | ⟨i, t', _, h, _⟩
    · rw [h]; exact ih.len
    · rw [h, List.length_set]; exact ih.len
  · intro p hp
    simp only [okLog_snoc, hok, Option.toList, List.append_nil] at hp
    exact keep _ _ (ih.okFin p hp)
  · intro p hp
    simp only [failLog_snoc, hfail, Option.toList, List.append_nil] at hp
    exact keep _ _ (ih.failFin p hp)
  · have hc := ih.count
    simp only [okLog_snoc, failLog_snoc, hok, hfail, Option.toList, List.append_nil]
    rw [← hc]
    unfold numSent
    rcases htasks with h | ⟨i, t', hi, h, ht⟩
    · rw [h]
    · rw [h]
      have := sum_map_set sentW s.tasks i Task.waiting t' hi
      rcases ht with rfl | ⟨rfl, _⟩ <;> simpa [sentW] using this
  · intro m hm
    obtain ⟨i, h1, h2⟩ := ih.errsFrom m (herrs m hm)
    exact ⟨i, by simp [hfail, h1], h2⟩
  · intro z hz'
    rcases hz z hz' with h | ⟨m, hm, hmz⟩
    · obtain ⟨i, e, ing, h1, h2, h3⟩ := ih.zones z h
      exact ⟨i, e, ing, by simp [hfail, h1], h2, h3⟩
    · obtain ⟨i, h1, h2⟩ := ih.errsFrom m hm
      exact ⟨i, m.1, m.2, by simp [hfail, h1], h2, hmz⟩
  · intro j hj
    rcases back j _ hj with h | h | ⟨h, _⟩
    · exact ih.hedge j h
    · exact absurd h (by simp)
    · exact absurd h (by simp)
  · intro j hj
    rcases back j _ hj with h | h | ⟨_, h⟩
    · exact hdone (ih.stopped j h)
    · exact absurd h (by simp)
    · exact hdone h
  · intro c hc
    rcases hpar c hc with h | h
    · exact List.mem_append_left _ (ih.cancelled c h)
    · simp [h]

theorem mem_insertZone {z z' : String} {zs : List String} :
    z' ∈ insertZone z zs ↔ z' ∈ zs ∨ z' = z := by
  unfold insertZone
  split
  · constructor
    · intro h; exact Or.inl h
    · rintro (h | rfl)
      · exact h
      · assumption
  · simp

theorem nodup_insertZone {z : String} {zs : List String} (h : zs.Nodup) :
    (insertZone z zs).Nodup := by
  unfold insertZone
  split
  · exact h
  · rename_i hz
    rw [List.nodup_append]
    refine ⟨h, by simp, ?_⟩
    intro a ha hb
    simp at hb
    subst hb
    exact hz ha

theorem onFailure_zoneFailureCount (r : ReplicationSet) (s : DoState α ε) (e : ε)
    (ing : IngesterDesc) : (onFailure r s e ing).zoneFailureCount =
      if r.MaxUnavailableZones > 0 then insertZone ing.Zone s.zoneFailureCount
      else s.zoneFailureCount := by
  unfold onFailure
  split
  · simp only []
    split <;> rfl
  · split <;> rfl

theorem derivedDone_mono {s s' : DoState α ε} (hp : s'.parentErr = s.parentErr)
    (hr : s.pc.isReturned = true → s'.pc.isReturned = true) :
    derivedDone s = true → derivedDone s' = true := by
  unfold derivedDone
  rw [hp]
  intro h
  rcases Bool.or_eq_true _ _ |>.mp h with h | h
  · simp [h]
  · simp [hr h]

/-- Every transition preserves `LogInv`. -/
theorem logInv_step {r : ReplicationSet} {d : Int} {as : List (Action α ε)}
    {s s' : DoState α ε} {a : Action α ε} (ih : LogInv r d as s)
    (hst : step r s a = some s') : LogInv r d (as ++ [a]) s' := by
  cases a with
  | cancel c =>
    obtain ⟨_, rfl⟩ := step_cancel hst
    exact logInv_frame ih _ rfl rfl (Or.inl rfl) rfl ih.numSuccess (fun _ h => h) le_rfl
      (fun _ h => Or.inl h) ih.zonesNodup (by simp [derivedDone])
      (by intro c' hc'; simp at hc'; exact Or.inr (by rw [hc']))
  | timer i =>
    obtain ⟨h1, rfl⟩ := step_timer hst
    exact logInv_frame ih _ rfl rfl (Or.inr ⟨i, _, h1, rfl, Or.inl rfl⟩) rfl ih.numSuccess
      (fun _ h => h) le_rfl (fun _ h => Or.inl h) ih.zonesNodup
      (derivedDone_mono rfl (fun h => h)) (fun _ h => Or.inl h)
  | forced i =>
    obtain ⟨h1, _, rfl⟩ := step_forced hst
    exact logInv_frame ih _ rfl rfl (Or.inr ⟨i, _, h1, rfl, Or.inl rfl⟩) rfl ih.numSuccess
      (fun _ h => h) le_rfl (fun _ h => Or.inl h) ih.zonesNodup
      (derivedDone_mono rfl (fun h => h)) (fun _ h => Or.inl h)
  | handoff i =>
    obtain ⟨h0, h1, rfl⟩ := step_handoff hst
    exact logInv_frame ih _ rfl rfl (Or.inr ⟨i, _, h1, by simp, Or.inl rfl⟩) (by simp)
      (by simpa using ih.numSuccess)
      (fun _ h => by simpa using h) (by simp) (fun _ h => Or.inl (by simpa using h))
      (by simpa using ih.zonesNodup)
      (derivedDone_mono (by simp) (fun h => by simp [h0, Collector.isReturned] at h))
      (fun _ h => Or.inl (by simpa using h))
  | ctxDone i =>
    obtain ⟨h1, h2, rfl⟩ := step_ctxDone hst
    exact logInv_frame ih _ rfl rfl (Or.inr ⟨i, _, h1, rfl, Or.inr ⟨rfl, h2⟩⟩) rfl
      ih.numSuccess (fun _ h => h) le_rfl (fun _ h => Or.inl h) ih.zonesNodup
      (derivedDone_mono rfl (fun h => h)) (fun _ h => Or.inl h)
  | recvErr =>
    obtain ⟨h0, e, ing, rest, h1, rfl⟩ := step_recvErr hst
    refine logInv_frame ih _ rfl rfl (Or.inl (by simp)) (by simp)
      (by simpa using ih.numSuccess)
      (fun m h => by
        simp only [onFailure_errs] at h
        rw [h1]
        exact List.mem_cons_of_mem _ h)
      (by simp [h1]) ?_ ?_
      (derivedDone_mono (by simp) (fun h => by simp [h0, Collector.isReturned] at h))
      (fun _ h => Or.inl (by simpa using h))
    · intro z hz
      rw [onFailure_zoneFailureCount] at hz
      split at hz
      · rcases mem_insertZone.mp hz with h | h
        · exact Or.inl h
        · exact Or.inr ⟨(e, ing), by simp [h1], h.symm⟩
      · exact Or.inl hz
    · rw [onFailure_zoneFailureCount]
      split
      · exact nodup_insertZone ih.zonesNodup
      · exact ih.zonesNodup
  | recvRes =>
    obtain ⟨h0, v, rest, h1, rfl⟩ := step_recvRes hst
    exact logInv_frame ih _ rfl rfl (Or.inl (by simp)) (by simp [h1])
      (by simp [ih.numSuccess])
      (fun _ h => by simpa using h) (by simp) (fun _ h => Or.inl (by simpa using h))
      (by simpa using ih.zonesNodup)
      (derivedDone_mono (by simp) (fun h => by simp [h0, Collector.isReturned] at h))
      (fun _ h => Or.inl (by simpa using h))
  | recvDone =>
    obtain ⟨h0, c, h1, rfl⟩ := step_recvDone hst
    exact logInv_frame ih _ rfl rfl (Or.inl rfl) rfl ih.numSuccess
      (fun _ h => h) le_rfl (fun _ h => Or.inl h) ih.zonesNodup
      (derivedDone_mono rfl (fun _ => rfl)) (fun _ h => Or.inl h)
  | signal =>
    obtain ⟨h0, _, rfl⟩ := step_signal hst
    exact logInv_frame ih _ rfl rfl (Or.inl (by simp)) (by simp)
      (by simpa using ih.numSuccess)
      (fun _ h => by simpa using h) (by simp) (fun _ h => Or.inl (by simpa using h))
      (by simpa using ih.zonesNodup)
      (derivedDone_mono (by simp) (fun h => by simp [h0, Collector.isReturned] at h))
      (fun _ h => Or.inl (by simpa using h))
  | deliver i o =>
    have notFin : ∀ (o' : Outcome α ε), s.tasks[i]? = some Task.calling →
        s.tasks[i]? ≠ some (Task.finished o') := by
      intro o' h h'
      rw [h] at h'
      exact absurd h' (by simp)
    cases o with
    | ok v =>
      obtain ⟨h1, h2, h3, rfl⟩ := step_deliver_ok hst
      have hiOk : i ∉ (okLog as).map Prod.fst := by
        intro hmem
        obtain ⟨p, hp, rfl⟩ := List.mem_map.mp hmem
        exact notFin _ h1 (ih.okFin p hp)
      have hiFail : i ∉ (failLog as).map Prod.fst := by
        intro hmem
        obtain ⟨p, hp, rfl⟩ := List.mem_map.mp hmem
        exact notFin _ h1 (ih.failFin p hp)
      refine
        { maxErrors := ih.maxErrors
          len := by simpa using ih.len
          okFin := ?_
          failFin := ?_
          nodup := ?_
          count := ?_
          results := ?_
          numSuccess := ih.numSuccess
          errsLen := by simpa [failOf] using ih.errsLen
          errsFrom := ?_
          zones := ?_
          zonesNodup := ih.zonesNodup
          hedge := ?_
          stopped := ?_
          cancelled := fun c h => List.mem_append_left _ (ih.cancelled c h) }
      · intro p hp
        simp only [okLog_snoc, okOf, Option.toList, List.mem_append, List.mem_singleton] at hp
        rcases hp with hp | rfl
        · exact getElem?_set_keep h1 (ih.okFin p hp) (by simp)
        · exact List.getElem?_set_self (by rw [ih.len]; exact h2)
      · intro p hp
        simp only [failLog_snoc, failOf, Option.toList, List.append_nil] at hp
        exact getElem?_set_keep h1 (ih.failFin p hp) (by simp)
      · have hn := ih.nodup
        rw [List.nodup_append] at hn ⊢
        obtain ⟨n1, n2, n3⟩ := hn
        simp only [okLog_snoc, okOf, Option.toList, failLog_snoc, failOf, List.append_nil,
          List.map_append, List.map_cons, List.map_nil]
        refine ⟨?_, n2, ?_⟩
        · rw [List.nodup_append]
          refine ⟨n1, by simp, ?_⟩
          intro a ha hb
          simp at hb
          subst hb
          exact hiOk ha
        · intro a ha hb
          rcases List.mem_append.mp ha with ha | ha
          · exact n3 ha hb
          · simp at ha
            subst ha
            exact hiFail hb
      · have hc := ih.count
        have := sum_map_set sentW s.tasks i Task.calling (Task.finished (Outcome.ok v)) h1
        simp only [sentW] at this
        simp only [okLog_snoc, okOf, Option.toList, failLog_snoc, failOf, List.append_nil,
          List.length_append, List.length_singleton]
        unfold numSent at hc ⊢
        simp only []
        omega
      · simp only [okLog_snoc, okOf, Option.toList, List.map_append, List.map_cons,
          List.map_nil]
        rw [← ih.results, List.append_assoc]
      · intro m hm
        obtain ⟨j, hj1, hj2⟩ := ih.errsFrom m hm
        exact ⟨j, by simp [failOf, hj1], hj2⟩
      · intro z hz
        obtain ⟨j, e, ing, hj1, hj2, hj3⟩ := ih.zones z hz
        exact ⟨j, e, ing, by simp [failOf, hj1], hj2, hj3⟩
      · intro j hj
        rcases getElem?_set_inv hj with ⟨_, h⟩ | h
        · exact absurd h (by simp)
        · exact ih.hedge j h
      · intro j hj
        rcases getElem?_set_inv hj with ⟨_, h⟩ | h
        · exact absurd h (by simp)
        · exact derivedDone_mono rfl (fun h => h) (ih.stopped j h)
    | fail e =>
      obtain ⟨h1, h3, ing, h2, rfl⟩ := step_deliver_fail hst
      have hi : i < r.Ingesters.length := (List.getElem?_eq_some_iff.mp h2).1
      have hiOk : i ∉ (okLog as).map Prod.fst := by
        intro hmem
        obtain ⟨p, hp, rfl⟩ := List.mem_map.mp hmem
        exact notFin _ h1 (ih.okFin p hp)
      have hiFail : i ∉ (failLog as).map Prod.fst := by
        intro hmem
        obtain ⟨p, hp, rfl⟩ := List.mem_map.mp hmem
        exact notFin _ h1 (ih.failFin p hp)
      refine
        { maxErrors := ih.maxErrors
          len := by simpa using ih.len
          okFin := ?_
          failFin := ?_
          nodup := ?_
          count := ?_
          results := by simpa [okOf] using ih.results
          numSuccess := ih.numSuccess
          errsLen := by simpa [failOf] using ih.errsLen
          errsFrom := ?_
          zones := ?_
          zonesNodup := ih.zonesNodup
          hedge := ?_
          stopped := ?_
          cancelled := fun c h => List.mem_append_left _ (ih.cancelled c h) }
      · intro p hp
        simp only [okLog_snoc, okOf, Option.toList, List.append_nil] at hp
        exact getElem?_set_keep h1 (ih.okFin p hp) (by simp)
      · intro p hp
        simp only [failLog_snoc, failOf, Option.toList, List.mem_append,
          List.mem_singleton] at hp
        rcases hp with hp | rfl
        · exact getElem?_set_keep h1 (ih.failFin p hp) (by simp)
        · exact List.getElem?_set_self (by rw [ih.len]; exact hi)
      · have hn := ih.nodup
        rw [List.nodup_append] at hn ⊢
        obtain ⟨n1, n2, n3⟩ := hn
        simp only [okLog_snoc, okOf, Option.toList, failLog_snoc, failOf, List.append_nil,
          List.map_append, List.map_cons, List.map_nil]
        refine ⟨n1, ?_, ?_⟩
        · rw [List.nodup_append]
          refine ⟨n2, by simp, ?_⟩
          intro a ha hb
          simp at hb
          subst hb
          exact hiFail ha
        · intro a ha hb
          rcases List.mem_append.mp hb with hb | hb
          · exact n3 ha hb
          · simp at hb
            subst hb
            exact hiOk ha
      · have hc := ih.count
        have := sum_map_set sentW s.tasks i Task.calling (Task.finished (Outcome.fail e)) h1
        simp only [sentW] at this
        simp only [okLog_snoc, okOf, Option.toList, failLog_snoc, failOf, List.append_nil,
          List.length_append, List.length_singleton]
        unfold numSent at hc ⊢
        simp only []
        omega
      · intro m hm
        simp only [List.mem_append, List.mem_singleton] at hm
        rcases hm with hm | rfl
        · obtain ⟨j, hj1, hj2⟩ := ih.errsFrom m hm
          exact ⟨j, by simp [failOf, hj1], hj2⟩
        · exact ⟨i, by simp [failOf], h2⟩
      · intro z hz
        obtain ⟨j, e', ing', hj1, hj2, hj3⟩ := ih.zones z hz
        exact ⟨j, e', ing', by simp [failOf, hj1], hj2, hj3⟩
      · intro j hj
        rcases getElem?_set_inv hj with ⟨_, h⟩ | h
        · exact absurd h (by simp)
        · exact ih.hedge j h
      · intro j hj
        rcases getElem?_set_inv hj with ⟨_, h⟩ | h
        · exact absurd h (by simp)
        · exact derivedDone_mono rfl (fun h => h) (ih.stopped j h)

/-- `LogInv` holds after every schedule. -/
theorem logInv {r : ReplicationSet} {d : Int} (as : List (Action α ε)) (s : DoState α ε)
    (h : Do.exec r d as = some s) : LogInv r d as s :=
  exec_induction (fun as s => LogInv r d as s) (fun _ h0 => logInv_init h0)
    (fun _ _ _ _ _ ih hst => logInv_step ih hst) as s h

theorem ctlInv_init {r : ReplicationSet} {d : Int} {s0 : DoState α ε}
    (h : Do.init r d = some s0) : CtlInv r ([] : List (Action α ε)) s0 := by
  obtain ⟨h0, rfl⟩ := init_eq h
  refine
    { running := ?_
      received := by intro _; simp [failLog]
      zoneMode := by intro _; simp
      budgetSel := by intro _ _; simpa using h0
      budgetSig := ?_
      ret := ?_ }
  · intro hr
    rw [loopHead_pc] at hr
    simp only [loopHead_numSuccess]
    split at hr
    · assumption
    · simp [Collector.isReturned] at hr
  · intro _ hp
    rw [loopHead_pc] at hp
    split at hp <;> simp at hp
  · intro res err hp
    rw [loopHead_pc] at hp
    split at hp
    · simp at hp
    · rename_i hn
      simp only [Collector.returned.injEq] at hp
      left
      simp only [loopHead_results, loopHead_numSuccess]
      exact ⟨hp.2.symm, hp.1.symm, by simpa using hn, Or.inl trivial⟩

/-- Preservation of `CtlInv` by a label that leaves the collecting loop alone. -/
theorem ctlInv_frame {r : ReplicationSet} {as : List (Action α ε)}
    {s s' : DoState α ε} (ih : CtlInv r as s) (a : Action α ε)
    (hfail : failOf a = none) (hpc : s'.pc = s.pc) (hne : s'.numErrs = s.numErrs)
    (herrs : s'.errs = s.errs) (hns : s'.numSuccess = s.numSuccess)
    (hres : s'.results = s.results) (hz : s'.zoneFailureCount = s.zoneFailureCount)
    (hfs : s'.forceStart ≤ s.forceStart)
    (hpar : ∀ c, s.parentErr = some c → s'.parentErr = some c) :
    CtlInv r (as ++ [a]) s' := by
  have hfl : failLog (as ++ [a]) = failLog as := by simp [hfail]
  refine
    { running := by rw [hpc, hns]; exact ih.running
      received := by rw [hfl, hne, herrs]; exact ih.received
      zoneMode := by rw [hne]; exact ih.zoneMode
      budgetSel := ?_
      budgetSig := ?_
      ret := ?_ }
  · intro hm hp
    rw [hpc] at hp
    have := ih.budgetSel hm hp
    rw [hne]
    exact ⟨this.1, by omega⟩
  · intro hm hp
    rw [hpc] at hp
    have := ih.budgetSig hm hp
    rw [hne]
    exact ⟨this.1, by omega⟩
  · intro res err hp
    rw [hpc] at hp
    rw [hfl, hne, hns, hres, hz]
    rcases ih.ret res err hp with h | h | h | ⟨c, h1, h2, h3⟩
    · exact Or.inl h
    · exact Or.inr (Or.inl h)
    · exact Or.inr (Or.inr (Or.inl h))
    · exact Or.inr (Or.inr (Or.inr ⟨c, h1, h2, hpar c h3⟩))

theorem loopHead_pc_of_lt {r : ReplicationSet} {s : DoState α ε}
    (h : s.numSuccess < minSuccess r) : (loopHead r s).pc = Collector.selecting := by
  rw [loopHead_pc, if_pos h]

theorem drop_eq_cons {β : Type} {l t : List β} {k : Nat} {x : β}
    (h : l.drop k = x :: t) : l[k]? = some x ∧ l.drop (k + 1) = t := by
  constructor
  · have := List.getElem?_drop (L := l) (i := k) (j := 0)
    rw [h] at this
    simpa using this.symm
  · have := List.drop_drop 1 k l
    rw [h] at this
    simpa [Nat.add_comm] using this.symm

/-- Every transition preserves `CtlInv`. -/
theorem ctlInv_step {r : ReplicationSet} {d : Int} {as : List (Action α ε)}
    {s s' : DoState α ε} {a : Action α ε} (hl : LogInv r d as s) (ih : CtlInv r as s)
    (hst : step r s a = some s') : CtlInv r (as ++ [a]) s' := by
  cases a with
  | cancel c =>
    obtain ⟨hn, rfl⟩ := step_cancel hst
    exact ctlInv_frame ih _ rfl rfl rfl rfl rfl rfl rfl le_rfl
      (fun c' hc' => by rw [hn] at hc'; exact absurd hc' (by simp))
  | timer i =>
    obtain ⟨_, rfl⟩ := step_timer hst
    exact ctlInv_frame ih _ rfl rfl rfl rfl rfl rfl rfl le_rfl (fun _ h => h)
  | forced i =>
    obtain ⟨_, _, rfl⟩ := step_forced hst
    exact ctlInv_frame ih _ rfl rfl rfl rfl rfl rfl rfl (Nat.sub_le _ _) (fun _ h => h)
  | ctxDone i =>
    obtain ⟨_, _, rfl⟩ := step_ctxDone hst
    exact ctlInv_frame ih _ rfl rfl rfl rfl rfl rfl rfl le_rfl (fun _ h => h)
  | handoff i =>
    obtain ⟨h0, _, rfl⟩ := step_handoff hst
    have hlt : s.numSuccess < minSuccess r := ih.running (by simp [h0, Collector.isReturned])
    have hpc := loopHead_pc_of_lt (r := r) (s := { s with tasks := s.tasks.set i .calling }) hlt
    refine
      { running := fun _ => by simpa using hlt
        received := by simpa [failOf] using ih.received
        zoneMode := by simpa using ih.zoneMode
        budgetSel := ?_
        budgetSig := fun _ h => by rw [hpc] at h; exact absurd h (by simp)
        ret := fun _ _ h => by rw [hpc] at h; exact absurd h (by simp) }
    intro hm _
    have := ih.budgetSig hm h0
    simp only [loopHead_numErrs, loopHead_forceStart]
    exact ⟨this.1, by omega⟩
  | signal =>
    obtain ⟨h0, _, rfl⟩ := step_signal hst
    have hlt : s.numSuccess < minSuccess r := ih.running (by simp [h0, Collector.isReturned])
    have hpc := loopHead_pc_of_lt (r := r)
      (s := { s with forceStart := s.forceStart + 1 }) hlt
    refine
      { running := fun _ => by simpa using hlt
        received := by simpa [failOf] using ih.received
        zoneMode := by simpa using ih.zoneMode
        budgetSel := ?_
        budgetSig := fun _ h => by rw [hpc] at h; exact absurd h (by simp)
        ret := fun _ _ h => by rw [hpc] at h; exact absurd h (by simp) }
    intro hm _
    have := ih.budgetSig hm h0
    simp only [loopHead_numErrs, loopHead_forceStart]
    exact ⟨this.1, by push_cast; omega⟩
  | recvDone =>
    obtain ⟨h0, c, h1, rfl⟩ := step_recvDone hst
    refine
      { running := fun h => by simp [Collector.isReturned] at h
        received := by simpa [failOf] using ih.received
        zoneMode := by simpa using ih.zoneMode
        budgetSel := fun _ h => by simp at h
        budgetSig := fun _ h => by simp at h
        ret := ?_ }
    intro res err h
    simp only [Collector.returned.injEq] at h
    exact Or.inr (Or.inr (Or.inr ⟨c, h.2.symm, h.1.symm, h1⟩))
  | recvRes =>
    obtain ⟨h0, v, rest, h1, rfl⟩ := step_recvRes hst
    have hlt : s.numSuccess < minSuccess r := ih.running (by simp [h0, Collector.isReturned])
    refine
      { running := ?_
        received := by simpa [failOf] using ih.received
        zoneMode := by simpa using ih.zoneMode
        budgetSel := ?_
        budgetSig := ?_
        ret := ?_ }
    · intro h
      rw [loopHead_pc] at h
      simp only [loopHead_numSuccess]
      split at h
      · assumption
      · simp [Collector.isReturned] at h
    · intro hm _
      simpa using ih.budgetSel hm h0
    · intro _ h
      rw [loopHead_pc] at h
      split at h <;> simp at h
    · intro res err h
      rw [loopHead_pc] at h
      split at h
      · simp at h
      · rename_i hn
        simp only [Collector.returned.injEq] at h
        left
        simp only [loopHead_results, loopHead_numSuccess]
        have := hl.numSuccess
        have hn' : ¬ (s.numSuccess + 1 < minSuccess r) := hn
        refine ⟨h.2.symm, h.1.symm, by omega, Or.inr ?_⟩
        simp only [List.length_append, List.length_singleton]
        push_cast
        omega
  | deliver i o =>
    cases o with
    | ok v =>
      obtain ⟨_, _, _, rfl⟩ := step_deliver_ok hst
      exact ctlInv_frame ih _ rfl rfl rfl rfl rfl rfl rfl le_rfl (fun _ h => h)
    | fail e =>
      obtain ⟨_, _, ing, _, rfl⟩ := step_deliver_fail hst
      have hfl : failLog (as ++ [Action.deliver i (Outcome.fail e)]) =
          failLog as ++ [(i, e)] := by simp [failOf]
      refine
        { running := ih.running
          received := ?_
          zoneMode := ih.zoneMode
          budgetSel := ih.budgetSel
          budgetSig := ih.budgetSig
          ret := ?_ }
      · intro hm
        obtain ⟨g1, g2, g3⟩ := ih.received hm
        rw [hfl]
        refine ⟨g1, by simp; omega, ?_⟩
        rw [List.map_append, List.drop_append_of_le_length (by simp; omega), g3]
        simp
      · intro res err hp
        rw [hfl]
        rcases ih.ret res err hp with h | ⟨x, h1, h2, h3, h4, h5⟩ | h | h
        · exact Or.inl h
        · refine Or.inr (Or.inl ⟨x, h1, h2, h3, h4, ?_⟩)
          rw [List.map_append, List.getElem?_append_left]
          · exact h5
          · exact (List.getElem?_eq_some_iff.mp h5).1
        · exact Or.inr (Or.inr (Or.inl h))
        · exact Or.inr (Or.inr (Or.inr h))
  | recvErr =>
    obtain ⟨h0, e, ing, rest, h1, rfl⟩ := step_recvErr hst
    have hlt : s.numSuccess < minSuccess r := ih.running (by simp [h0, Collector.isReturned])
    have hfl : failLog (as ++ [(Action.recvErr : Action α ε)]) = failLog as := by
      simp [failOf]
    by_cases hz : r.MaxUnavailableZones > 0
    · by_cases hc :
        ((insertZone ing.Zone s.zoneFailureCount).length : Int) > r.MaxUnavailableZones
      · have hs' : onFailure r { s with errs := rest } e ing =
            { s with errs := rest
                     zoneFailureCount := insertZone ing.Zone s.zoneFailureCount
                     pc := .returned none (some .tooManyZoneFailures) } := by
          simp only [onFailure, hz, hc, if_true]
        rw [hs']
        refine
          { running := fun h => by simp [Collector.isReturned] at h
            received := fun h => by omega
            zoneMode := fun _ => ih.zoneMode hz
            budgetSel := fun h => by omega
            budgetSig := fun h => by omega
            ret := ?_ }
        intro res err h
        simp only [Collector.returned.injEq] at h
        exact Or.inr (Or.inr (Or.inl ⟨h.2.symm, h.1.symm, hz, hc⟩))
      · have hs' : onFailure r { s with errs := rest } e ing =
            { s with errs := rest
                     zoneFailureCount := insertZone ing.Zone s.zoneFailureCount
                     pc := .signalling } := by
          simp only [onFailure, hz, hc, if_true, if_false]
        rw [hs']
        exact
          { running := fun _ => hlt
            received := fun h => by omega
            zoneMode := fun _ => ih.zoneMode hz
            budgetSel := fun h => by omega
            budgetSig := fun h => by omega
            ret := fun _ _ h => by simp at h }
    · have hm : r.MaxUnavailableZones ≤ 0 := by omega
      obtain ⟨g1, g2, g3⟩ := ih.received hm
      obtain ⟨b1, b2⟩ := ih.budgetSel hm h0
      rw [h1] at g2 g3
      simp only [List.map_cons, List.length_cons] at g2 g3
      obtain ⟨d1, d2⟩ := drop_eq_cons g3
      have hk : (s.numErrs + 1).toNat = s.numErrs.toNat + 1 := by omega
      by_cases hc : s.numErrs + 1 > r.MaxErrors
      · have hs' : onFailure r { s with errs := rest } e ing =
            { s with errs := rest
                     numErrs := s.numErrs + 1
                     pc := .returned none (some (.fromF e)) } := by
          simp only [onFailure, hz, hc, if_true, if_false]
        rw [hs']
        refine
          { running := fun h => by simp [Collector.isReturned] at h
            received := fun _ => ⟨by simp; omega, by rw [hfl]; simp only [hk]; omega, by
              rw [hfl]; simp only [hk]; exact d2⟩
            zoneMode := fun h => absurd h hz
            budgetSel := fun _ h => by simp at h
            budgetSig := fun _ h => by simp at h
            ret := ?_ }
        intro res err h
        simp only [Collector.returned.injEq] at h
        refine Or.inr (Or.inl ⟨e, h.2.symm, h.1.symm, hm, by simp; omega, ?_⟩)
        have : r.MaxErrors.toNat = s.numErrs.toNat := by omega
        rw [this, hfl]
        exact d1
      · have hs' : onFailure r { s with errs := rest } e ing =
            { s with errs := rest
                     numErrs := s.numErrs + 1
                     pc := .signalling } := by
          simp only [onFailure, hz, hc, if_true, if_false]
        rw [hs']
        exact
          { running := fun _ => hlt
            received := fun _ => ⟨by simp; omega, by rw [hfl]; simp only [hk]; omega, by
              rw [hfl]; simp only [hk]; exact d2⟩
            zoneMode := fun h => absurd h hz
            budgetSel := fun _ h => by simp at h
            budgetSig := fun _ _ => ⟨by simp; omega, by simp; omega⟩
            ret := fun _ _ h => by simp at h }

/-- `CtlInv` holds after every schedule. -/
theorem ctlInv {r : ReplicationSet} {d : Int} (as : List (Action α ε)) (s : DoState α ε)
    (h : Do.exec r d as = some s) : CtlInv r as s :=
  exec_induction (fun as s => CtlInv r as s) (fun _ h0 => ctlInv_init h0)
    (fun as s _ _ hx ih hst => ctlInv_step (logInv as s hx) ih hst) as s h

theorem pcW_loopHead (r : ReplicationSet) (s : DoState α ε) : pcW (loopHead r s).pc ≤ 1 := by
  rw [loopHead_pc]
  split <;> simp [pcW]

theorem pcW_onFailure (r : ReplicationSet) (s : DoState α ε) (e : ε) (ing : IngesterDesc) :
    pcW (onFailure r s e ing).pc ≤ 2 := by
  unfold onFailure
  split
  · simp only []
    split <;> simp [pcW]
  · split <;> simp [pcW]

/-- Every transition strictly decreases `measure`. -/
theorem measure_step {r : ReplicationSet} {s s' : DoState α ε} {a : Action α ε}
    (hst : step r s a = some s') : measure s' + 1 ≤ measure s := by
  cases a with
  | cancel c =>
    obtain ⟨hn, rfl⟩ := step_cancel hst
    simp [measure, hn]
  | timer i =>
    obtain ⟨h1, rfl⟩ := step_timer hst
    have := sum_map_set taskW s.tasks i Task.waiting Task.calling h1
    simp only [taskW] at this
    simp only [measure]
    omega
  | forced i =>
    obtain ⟨h1, _, rfl⟩ := step_forced hst
    have := sum_map_set taskW s.tasks i Task.waiting Task.calling h1
    simp only [taskW] at this
    simp only [measure]
    omega
  | ctxDone i =>
    obtain ⟨h1, _, rfl⟩ := step_ctxDone hst
    have := sum_map_set taskW s.tasks i Task.waiting Task.stopped h1
    simp only [taskW] at this
    simp only [measure]
    omega
  | handoff i =>
    obtain ⟨h0, h1, rfl⟩ := step_handoff hst
    have := sum_map_set taskW s.tasks i Task.waiting Task.calling h1
    have hp := pcW_loopHead r { s with tasks := s.tasks.set i Task.calling }
    have hs : pcW s.pc = 2 := by rw [h0]; rfl
    simp only [taskW] at this
    simp only [measure, loopHead_tasks, loopHead_errs, loopHead_resultsChan,
      loopHead_parentErr]
    omega
  | deliver i o =>
    cases o with
    | ok v =>
      obtain ⟨h1, _, _, rfl⟩ := step_deliver_ok hst
      have := sum_map_set taskW s.tasks i Task.calling (Task.finished (Outcome.ok v)) h1
      simp only [taskW] at this
      simp only [measure, List.length_append, List.length_singleton]
      omega
    | fail e =>
      obtain ⟨h1, _, ing, _, rfl⟩ := step_deliver_fail hst
      have := sum_map_set taskW s.tasks i Task.calling (Task.finished (Outcome.fail e)) h1
      simp only [taskW] at this
      simp only [measure, List.length_append, List.length_singleton]
      omega
  | recvErr =>
    obtain ⟨h0, e, ing, rest, h1, rfl⟩ := step_recvErr hst
    have hp := pcW_onFailure r { s with errs := rest } e ing
    have hs : pcW s.pc = 1 := by rw [h0]; rfl
    simp only [measure, onFailure_tasks, onFailure_errs, onFailure_resultsChan,
      onFailure_parentErr, h1, List.length_cons]
    omega
  | recvRes =>
    obtain ⟨h0, v, rest, h1, rfl⟩ := step_recvRes hst
    have hp := pcW_loopHead r { s with resultsChan := rest, numSuccess := s.numSuccess + 1,
                                       results := s.results ++ [v] }
    have hs : pcW s.pc = 1 := by rw [h0]; rfl
    simp only [measure, loopHead_tasks, loopHead_errs, loopHead_resultsChan,
      loopHead_parentErr, h1, List.length_cons]
    omega
  | recvDone =>
    obtain ⟨h0, c, h1, rfl⟩ := step_recvDone hst
    have hs : pcW s.pc = 1 := by rw [h0]; rfl
    have hr : pcW (Collector.returned none (some (DoError.ctxErr c)) : Collector α ε) = 0 :=
      rfl
    simp only [measure, hr]
    omega
  | signal =>
    obtain ⟨h0, _, rfl⟩ := step_signal hst
    have hp := pcW_loopHead r { s with forceStart := s.forceStart + 1 }
    have hs : pcW s.pc = 2 := by rw [h0]; rfl
    simp only [measure, loopHead_tasks, loopHead_errs, loopHead_resultsChan,
      loopHead_parentErr]
    omega

theorem sum_taskW_le (l : List (Task α ε)) : (l.map taskW).sum ≤ 4 * l.length := by
  induction l with
  | nil => simp
  | cons x xs ih =>
    have : taskW x ≤ 4 := by cases x <;> simp [taskW]
    simp only [List.map_cons, List.sum_cons, List.length_cons]
    omega

/-- No schedule of a call of `Do` on `n` instances has more than `4 * n + 2` labels. -/
theorem exec_length_le {r : ReplicationSet} {d : Int} (as : List (Action α ε))
    (s : DoState α ε) (h : Do.exec r d as = some s) :
    as.length + measure s ≤ 4 * r.Ingesters.length + 2 := by
  refine exec_induction (fun as s => as.length + measure s ≤ 4 * r.Ingesters.length + 2)
    ?_ ?_ as s h
  · intro s0 h0
    obtain ⟨_, rfl⟩ := init_eq h0
    have h1 := pcW_loopHead r
      ({ tasks := (List.range r.Ingesters.length).map
          (fun i => if isHedge r d i then Task.waiting else Task.calling)
         errs := []
         resultsChan := []
         forceStart := 0
         parentErr := none
         numErrs := 0
         numSuccess := 0
         results := []
         zoneFailureCount := []
         pc := .selecting } : DoState α ε)
    have h2 := sum_taskW_le ((List.range r.Ingesters.length).map
          (fun i => if isHedge r d i then (Task.waiting : Task α ε) else Task.calling))
    simp only [List.length_map, List.length_range] at h2
    simp only [measure, loopHead_tasks, loopHead_errs, loopHead_resultsChan,
      loopHead_parentErr, List.length_nil, Option.isSome_none, Bool.false_eq_true, if_false]
    omega
  · intro as s a s' _ ih hst
    have := measure_step hst
    simp only [List.length_append, List.length_singleton]
    omega

theorem step_signal_of {r : ReplicationSet} {s : DoState α ε}
    (h0 : s.pc = Collector.signalling) (h1 : (s.forceStart : Int) < r.MaxErrors) :
    (step r s Action.signal).isSome = true := by
  simp [step, h0, h1]

theorem step_recvErr_of {r : ReplicationSet} {s : DoState α ε}
    (h0 : s.pc = Collector.selecting) (h1 : s.errs ≠ []) :
    (step r s Action.recvErr).isSome = true := by
  cases he : s.errs with
  | nil => exact absurd he h1
  | cons m rest => simp [step, h0, he]

theorem step_recvRes_of {r : ReplicationSet} {s : DoState α ε}
    (h0 : s.pc = Collector.selecting) (h1 : s.resultsChan ≠ []) :
    (step r s Action.recvRes).isSome = true := by
  cases he : s.resultsChan with
  | nil => exact absurd he h1
  | cons m rest => simp [step, h0, he]

theorem step_timer_of {r : ReplicationSet} {s : DoState α ε} {i : Nat}
    (h : s.tasks[i]? = some Task.waiting) : (step r s (Action.timer i)).isSome = true := by
  simp [step, h]

theorem step_deliver_of {r : ReplicationSet} {s : DoState α ε} {i : Nat}
    (o : Outcome α ε) (h : s.tasks[i]? = some Task.calling) (hi : i < r.Ingesters.length)
    (h1 : s.errs.length < r.Ingesters.length)
    (h2 : s.resultsChan.length < r.Ingesters.length) :
    (step r s (Action.deliver i o)).isSome = true := by
  have : r.Ingesters[i]? = some r.Ingesters[i] := List.getElem?_eq_getElem hi
  cases o <;> simp [step, h, this, h1, h2]

/-- While `Do` has not returned and the caller has not cancelled, no goroutine has
stopped and a state without waiting or calling goroutine has received every outcome. -/
theorem all_sent_of_idle {r : ReplicationSet} {d : Int} {acts : List (Action α ε)}
    {s : DoState α ε} (hl : LogInv r d acts s) (hnc : noCancel acts)
    (hr : s.pc.isReturned = false)
    (hw : ¬ ∃ i : Nat, s.tasks[i]? = some Task.waiting)
    (hc : ¬ ∃ i : Nat, s.tasks[i]? = some Task.calling) :
    (okLog acts).length + (failLog acts).length = r.Ingesters.length := by
  have hall : ∀ (i : Nat) (t : Task α ε), s.tasks[i]? = some t → sentW t = 1 := by
    intro i t ht
    cases t with
    | waiting => exact absurd ⟨i, ht⟩ hw
    | calling => exact absurd ⟨i, ht⟩ hc
    | finished o => rfl
    | stopped =>
      have hd := hl.stopped i ht
      unfold derivedDone at hd
      rw [hr, Bool.or_false] at hd
      obtain ⟨c, hc'⟩ := Option.isSome_iff_exists.mp hd
      exact absurd (hl.cancelled c hc') (hnc c)
  have := sum_sentW_eq s.tasks hall
  have h2 := hl.count
  unfold numSent at h2
  rw [← h2, this, hl.len]

/-- In error-count mode without cancellation the collecting loop is never stuck:
until `Do` returns, either an internal label is enabled, or a call of `f` is in
flight, or every instance has delivered and more than `MaxErrors` of them failed - which
cannot be, since then `Do` has returned. -/
theorem errMode_progress {r : ReplicationSet} {d : Int} {acts : List (Action α ε)}
    {s : DoState α ε} (hz : r.MaxUnavailableZones ≤ 0)
    (hrun : Do.exec r d acts = some s) (hnc : noCancel acts)
    (hr : s.pc.isReturned = false) :
    (∃ i : Nat, s.tasks[i]? = some Task.calling) ∨
      ∃ a : Action α ε, a.internal = true ∧ (step r s a).isSome = true := by
  have hl := logInv acts s hrun
  have hc := ctlInv acts s hrun
  have hlt := hc.running hr
  cases hpc : s.pc with
  | returned res err => rw [hpc] at hr; simp [Collector.isReturned] at hr
  | signalling =>
    have := hc.budgetSig hz hpc
    exact Or.inr ⟨Action.signal, rfl, step_signal_of hpc (by omega)⟩
  | selecting =>
    by_cases herr : s.errs = []
    swap
    · exact Or.inr ⟨Action.recvErr, rfl, step_recvErr_of hpc herr⟩
    by_cases hres : s.resultsChan = []
    swap
    · exact Or.inr ⟨Action.recvRes, rfl, step_recvRes_of hpc hres⟩
    by_cases hw : ∃ i : Nat, s.tasks[i]? = some Task.waiting
    · obtain ⟨i, hi⟩ := hw
      exact Or.inr ⟨Action.timer i, rfl, step_timer_of hi⟩
    by_cases hcall : ∃ i : Nat, s.tasks[i]? = some Task.calling
    · exact Or.inl hcall
    exfalso
    have hall := all_sent_of_idle hl hnc hr hw hcall
    obtain ⟨g1, g2, _⟩ := hc.received hz
    obtain ⟨b1, _⟩ := hc.budgetSel hz hpc
    have h1 := hl.results
    rw [hres, List.append_nil] at h1
    have h2 : s.results.length = (okLog acts).length := by rw [h1, List.length_map]
    have h3 := hl.numSuccess
    rw [herr] at g2
    simp only [List.length_nil, Nat.add_zero] at g2
    unfold minSuccess at hlt
    omega

/-- C1 (quorum success, error-count mode). For `n >= 1` instances, `0 <= MaxErrors <= n-1`,
`MaxUnavailableZones = 0`, any delay and any schedule without cancellation in which at most
`MaxErrors` calls of `f` fail: until `Do` returns it has received fewer than `n - MaxErrors`
results and is never stuck (a call of `f` is in flight or an internal label is enabled);
when it has returned, the error is nil and the results are the values of the first
`n - MaxErrors` successful calls in order of arrival, exactly `n - MaxErrors` of them,
coming from distinct instances; and the schedule has at most `4 * n + 2` labels, so `Do`
does return. -/
theorem do_quorum_success (r : ReplicationSet) (delay : Int) (acts : List (Action α ε))
    (s : DoState α ε) (hn : 1 ≤ r.Ingesters.length) (he0 : 0 ≤ r.MaxErrors)
    (he : r.MaxErrors ≤ (r.Ingesters.length : Int) - 1) (hz : r.MaxUnavailableZones = 0)
    (hrun : Do.exec r delay acts = some s) (hnc : noCancel acts)
    (hf : ((failLog acts).length : Int) ≤ r.MaxErrors) :
    (s.pc.isReturned = false →
      (s.results.length : Int) < (r.Ingesters.length : Int) - r.MaxErrors ∧
      ((∃ i : Nat, s.tasks[i]? = some Task.calling) ∨
        ∃ a : Action α ε, a.internal = true ∧ (step r s a).isSome = true)) ∧
    (∀ res err, s.pc = Collector.returned res err →
      err = none ∧
      res = some (((okLog acts).take (r.Ingesters.length - r.MaxErrors.toNat)).map Prod.snd) ∧
      ((okLog acts).take (r.Ingesters.length - r.MaxErrors.toNat)).length =
        r.Ingesters.length - r.MaxErrors.toNat ∧
      ((okLog acts).map Prod.fst).Nodup ∧
      ∀ p ∈ okLog acts, s.tasks[p.1]? = some (Task.finished (Outcome.ok p.2))) ∧
    acts.length ≤ 4 * r.Ingesters.length + 2 := by
  have hl := logInv acts s hrun
  have hc := ctlInv acts s hrun
  have hz' : r.MaxUnavailableZones ≤ 0 := by omega
  refine ⟨?_, ?_, ?_⟩
  · intro hr
    have hlt := hc.running hr
    rw [hl.numSuccess] at hlt
    exact ⟨hlt, errMode_progress hz' hrun hnc hr⟩
  · intro res err hp
    obtain ⟨g1, g2, _⟩ := hc.received hz'
    rcases hc.ret res err hp with ⟨h1, h2, h3, h4⟩ | ⟨x, _, _, _, h4, _⟩ | ⟨_, _, h3, _⟩ |
      ⟨c, _, _, h3⟩
    · have hns := hl.numSuccess
      have hlen : s.results.length = r.Ingesters.length - r.MaxErrors.toNat := by
        unfold minSuccess at h3 h4
        rcases h4 with h4 | h4
        · rw [h4] at hns
          simp only [List.length_nil] at hns
          omega
        · omega
      have hres := hl.results
      have htake : ((okLog acts).take (r.Ingesters.length - r.MaxErrors.toNat)).map Prod.snd =
          s.results := by
        rw [List.map_take, ← hres]
        exact List.take_left' hlen
      refine ⟨h1, by rw [h2, htake], ?_, ?_, hl.okFin⟩
      · have : ((okLog acts).map Prod.snd).length = s.results.length + s.resultsChan.length := by
          rw [← hres, List.length_append]
        rw [List.length_map] at this
        rw [List.length_take]
        omega
      · exact (List.nodup_append.mp hl.nodup).1
    · omega
    · omega
    · exact absurd (hl.cancelled c h3) (hnc c)
  · have := exec_length_le acts s hrun
    omega

/-- C2 (quorum failure, error-count mode). For every replication set with
`MaxUnavailableZones = 0` (in particular for `n >= 1` instances and `0 <= MaxErrors <= n-1`;
a negative `MaxErrors` has no execution) and any schedule without cancellation in which `MaxErrors + 1`
calls of `f` have failed: until `Do` returns it has received at most `MaxErrors` failures
and the collecting loop has an enabled internal label (it is not waiting for any call);
when it has returned, the results are nil, exactly `MaxErrors + 1` failures have been
received and the error is the one returned by the failing call that arrived in
position `MaxErrors + 1`, as returned by `f`. -/
theorem do_quorum_failure (r : ReplicationSet) (delay : Int) (acts : List (Action α ε))
    (s : DoState α ε) (hz : r.MaxUnavailableZones = 0)
    (hrun : Do.exec r delay acts = some s) (hnc : noCancel acts)
    (hf : r.MaxErrors + 1 ≤ ((failLog acts).length : Int)) :
    s.numErrs.toNat + s.errs.length = (failLog acts).length ∧
    (s.pc.isReturned = false →
      s.numErrs ≤ r.MaxErrors ∧
      ∃ a : Action α ε, a.internal = true ∧ (step r s a).isSome = true) ∧
    (∀ res err, s.pc = Collector.returned res err →
      res = none ∧ s.numErrs = r.MaxErrors + 1 ∧
      ∃ x, err = some (DoError.fromF x) ∧
        ((failLog acts).map Prod.snd)[r.MaxErrors.toNat]? = some x) := by
  have hl := logInv acts s hrun
  have hc := ctlInv acts s hrun
  have hz' : r.MaxUnavailableZones ≤ 0 := by omega
  obtain ⟨g1, g2, _⟩ := hc.received hz'
  refine ⟨g2, ?_, ?_⟩
  · intro hr
    cases hpc : s.pc with
    | returned res err => rw [hpc] at hr; simp [Collector.isReturned] at hr
    | signalling =>
      have := hc.budgetSig hz' hpc
      exact ⟨this.1, Action.signal, rfl, step_signal_of hpc (by omega)⟩
    | selecting =>
      have hb := hc.budgetSel hz' hpc
      refine ⟨hb.1, Action.recvErr, rfl, step_recvErr_of hpc ?_⟩
      intro herr
      rw [herr] at g2
      simp only [List.length_nil, Nat.add_zero] at g2
      omega
  · intro res err hp
    rcases hc.ret res err hp with ⟨_, _, h3, h4⟩ | ⟨x, h1, h2, _, h4, h5⟩ | ⟨_, _, h3, _⟩ |
      ⟨c, _, _, h3⟩
    · exfalso
      have hns := hl.numSuccess
      have hres := hl.results
      have hlen : ((okLog acts).map Prod.snd).length =
          s.results.length + s.resultsChan.length := by
        rw [← hres, List.length_append]
      rw [List.length_map] at hlen
      have hcount := hl.count
      have hle := sum_sentW_le s.tasks
      unfold numSent at hcount
      rw [hl.len] at hle
      unfold minSuccess at h3
      omega
    · exact ⟨h2, h4, x, h1, h5⟩
    · omega
    · exact absurd (hl.cancelled c h3) (hnc c)

/-- Nothing releases a blocked send: no transition leads out of `Blocked`. -/
theorem blocked_step {r : ReplicationSet} {s s' : DoState α ε} {a : Action α ε}
    (hb : Blocked r s) (hst : step r s a = some s') : Blocked r s' := by
  obtain ⟨b1, b2, b3⟩ := hb
  cases a with
  | cancel c =>
    obtain ⟨_, rfl⟩ := step_cancel hst
    exact ⟨b1, b2, b3⟩
  | timer i => exact absurd (step_timer hst).1 (b3 i)
  | forced i => exact absurd (step_forced hst).1 (b3 i)
  | handoff i => exact absurd (step_handoff hst).2.1 (b3 i)
  | ctxDone i => exact absurd (step_ctxDone hst).1 (b3 i)
  | recvErr => have := (step_recvErr hst).1; rw [b1] at this; exact absurd this (by simp)
  | recvRes => have := (step_recvRes hst).1; rw [b1] at this; exact absurd this (by simp)
  | recvDone => have := (step_recvDone hst).1; rw [b1] at this; exact absurd this (by simp)
  | signal => have := (step_signal hst).2.1; omega
  | deliver i o =>
    cases o with
    | ok v =>
      obtain ⟨_, _, _, rfl⟩ := step_deliver_ok hst
      refine ⟨b1, b2, ?_⟩
      intro j hj
      rcases getElem?_set_inv hj with ⟨_, h⟩ | h
      · exact absurd h (by simp)
      · exact b3 j h
    | fail e =>
      obtain ⟨_, _, ing, _, rfl⟩ := step_deliver_fail hst
      refine ⟨b1, b2, ?_⟩
      intro j hj
      rcases getElem?_set_inv hj with ⟨_, h⟩ | h
      · exact absurd h (by simp)
      · exact b3 j h

theorem blocked_run {r : ReplicationSet} {s s' : DoState α ε} {acts : List (Action α ε)}
    (hb : Blocked r s) (hrun : run r s acts = some s') : Blocked r s' := by
  induction acts generalizing s with
  | nil =>
    simp only [run, Option.some.injEq] at hrun
    rw [← hrun]; exact hb
  | cons a as ih =>
    simp only [run] at hrun
    cases hst : step r s a with
    | none => rw [hst] at hrun; simp at hrun
    | some s1 =>
      rw [hst] at hrun
      exact ih (blocked_step hb hst) (by simpa using hrun)

/-- With `MaxErrors = 0` no goroutine ever waits: there is no hedge candidate. -/
theorem no_waiting_of_maxErrors_zero {r : ReplicationSet} {d : Int}
    {acts : List (Action α ε)} {s : DoState α ε} (hl : LogInv r d acts s)
    (he : r.MaxErrors = 0) (i : Nat) : s.tasks[i]? ≠ some Task.waiting := by
  intro hi
  have h1 := hl.hedge i hi
  have h2 : i < s.tasks.length := (List.getElem?_eq_some_iff.mp hi).1
  rw [hl.len] at h2
  unfold isHedge minSuccess at h1
  simp only [Bool.and_eq_true, decide_eq_true_eq] at h1
  omega

/-- Zone mode with `MaxErrors = 0`: before the first failure is received no zone is
recorded, and from the reception of the first failure on the send on `forceStart`
is blocked. -/
theorem zone_deadlock {r : ReplicationSet} {d : Int} (he : r.MaxErrors = 0)
    (hz : 1 ≤ r.MaxUnavailableZones) (acts : List (Action α ε)) (s : DoState α ε)
    (hrun : Do.exec r d acts = some s) :
    (Action.recvErr ∉ acts → s.zoneFailureCount = []) ∧
    (Action.recvErr ∈ acts → Blocked r s) := by
  refine exec_induction
    (fun acts s => (Action.recvErr ∉ acts → s.zoneFailureCount = []) ∧
      (Action.recvErr ∈ acts → Blocked r s)) ?_ ?_ acts s hrun
  · intro s0 h0
    obtain ⟨_, rfl⟩ := init_eq h0
    exact ⟨fun _ => by simp, fun h => by simp at h⟩
  · intro as s a s' hx ih hst
    have hl' := logInv_step (logInv as s hx) hst
    by_cases hmem : Action.recvErr ∈ as
    · exact ⟨fun h => absurd (List.mem_append_left _ hmem) h,
        fun _ => blocked_step (ih.2 hmem) hst⟩
    · have hz0 := ih.1 hmem
      cases a with
      | recvErr =>
        refine ⟨fun h => absurd (by simp) h, fun _ => ?_⟩
        obtain ⟨h0, e, ing, rest, h1, rfl⟩ := step_recvErr hst
        have hzs : insertZone ing.Zone s.zoneFailureCount = [ing.Zone] := by
          rw [hz0]; simp [insertZone]
        have hs' : onFailure r { s with errs := rest } e ing =
            { s with errs := rest
                     zoneFailureCount := [ing.Zone]
                     pc := .signalling } := by
          have h1 : r.MaxUnavailableZones > 0 := by omega
          have h2 : ¬ ((1 : Int) > r.MaxUnavailableZones) := by omega
          simp only [onFailure, h1, hzs, if_true, List.length_singleton, Nat.cast_one, h2,
            if_false]
        have hnw := no_waiting_of_maxErrors_zero hl' he
        rw [hs'] at hnw ⊢
        exact ⟨rfl, by rw [he]; exact Int.ofNat_nonneg _, hnw⟩
      | cancel c =>
        obtain ⟨_, rfl⟩ := step_cancel hst
        exact ⟨fun _ => hz0, fun h => by simp [hmem] at h⟩
      | timer i =>
        obtain ⟨_, rfl⟩ := step_timer hst
        exact ⟨fun _ => hz0, fun h => by simp [hmem] at h⟩
      | forced i =>
        obtain ⟨_, _, rfl⟩ := step_forced hst
        exact ⟨fun _ => hz0, fun h => by simp [hmem] at h⟩
      | handoff i =>
        obtain ⟨_, _, rfl⟩ := step_handoff hst
        exact ⟨fun _ => by simpa using hz0, fun h => by simp [hmem] at h⟩
      | ctxDone i =>
        obtain ⟨_, _, rfl⟩ := step_ctxDone hst
        exact ⟨fun _ => hz0, fun h => by simp [hmem] at h⟩
      | recvRes =>
        obtain ⟨_, _, _, _, rfl⟩ := step_recvRes hst
        exact ⟨fun _ => by simpa using hz0, fun h => by simp [hmem] at h⟩
      | recvDone =>
        obtain ⟨_, _, _, rfl⟩ := step_recvDone hst
        exact ⟨fun _ => hz0, fun h => by simp [hmem] at h⟩
      | signal =>
        obtain ⟨_, _, rfl⟩ := step_signal hst
        exact ⟨fun _ => by simpa using hz0, fun h => by simp [hmem] at h⟩
      | deliver i o =>
        cases o with
        | ok v =>
          obtain ⟨_, _, _, rfl⟩ := step_deliver_ok hst
          exact ⟨fun _ => hz0, fun h => by simp [hmem] at h⟩
        | fail e =>
          obtain ⟨_, _, _, _, rfl⟩ := step_deliver_fail hst
          exact ⟨fun _ => hz0, fun h => by simp [hmem] at h⟩

/-- C3 (zone-budget failure), evaluated on the code: in zone mode with `MaxErrors = 0`
the error `errorTooManyZoneFailures` is never returned, whatever the number of zones
in which `f` fails: as soon as one failure has been received the collecting loop is
at the send on `forceStart` and stays there. -/
theorem zone_failure_never_reported (r : ReplicationSet) (delay : Int)
    (acts : List (Action α ε)) (s : DoState α ε) (he : r.MaxErrors = 0)
    (hz : 1 ≤ r.MaxUnavailableZones) (hrun : Do.exec r delay acts = some s) :
    (∀ res, s.pc ≠ Collector.returned res (some DoError.tooManyZoneFailures)) ∧
    (Action.recvErr ∈ acts → s.pc = Collector.signalling) := by
  have hd := zone_deadlock he hz acts s hrun
  refine ⟨?_, fun h => (hd.2 h).1⟩
  intro res hp
  by_cases hmem : Action.recvErr ∈ acts
  · have := (hd.2 hmem).1
    rw [this] at hp
    exact absurd hp (by simp)
  · have h0 := hd.1 hmem
    rcases (ctlInv acts s hrun).ret res _ hp with ⟨h, _⟩ | ⟨_, h, _⟩ | ⟨_, _, _, h⟩ |
      ⟨_, h, _⟩
    · simp at h
    · simp at h
    · rw [h0] at h
      simp only [List.length_nil, Nat.cast_zero] at h
      omega
    · simp at h

/-- Two instances in two zones with `MaxErrors = 0`: both calls fail, and after the first reception the loop is at the send on `forceStart`. -/
theorem zone_failure_never_reported_witness :
    exTwoZones.MaxErrors = 0 ∧ 1 ≤ exTwoZones.MaxUnavailableZones ∧
    Do.exec exTwoZones 0 [.deliver 0 (.fail 7), .deliver 1 (.fail 8), .recvErr] =
      some exTwoZonesBlocked ∧
    exTwoZonesBlocked.pc = Collector.signalling :=
  ⟨rfl, by decide, by decide,
    (zone_failure_never_reported exTwoZones 0
      [.deliver 0 (.fail 7), .deliver 1 (.fail 8), .recvErr] exTwoZonesBlocked rfl
      (by decide) (by decide)).2 (by simp)⟩

/-- C4 (cancellation), evaluated on the code: in zone mode with `MaxErrors = 0`, once a
failure has been received a cancellation of the caller's context is not honoured: `Do`
has not returned, the `ctx.Done()` case cannot be taken, and `Do` does not return under
any continuation of the schedule. -/
theorem cancellation_not_honoured (r : ReplicationSet) (delay : Int)
    (acts : List (Action α ε)) (s : DoState α ε) (c : ε) (he : r.MaxErrors = 0)
    (hz : 1 ≤ r.MaxUnavailableZones) (hrun : Do.exec r delay acts = some s)
    (hrecv : Action.recvErr ∈ acts) (hc : s.parentErr = some c) :
    derivedDone s = true ∧ s.pc.isReturned = false ∧ step r s Action.recvDone = none ∧
    ∀ more s', run r s more = some s' → s'.pc.isReturned = false := by
  have hb := (zone_deadlock he hz acts s hrun).2 hrecv
  refine ⟨by simp [derivedDone, hc], by rw [hb.1]; rfl, ?_, ?_⟩
  · simp [step, hb.1]
  · intro more s' hmore
    rw [(blocked_run hb hmore).1]
    rfl

/-- One instance in zone mode: the call fails, the failure is received, then the context is cancelled; `Do` has not returned. -/
theorem cancellation_not_honoured_witness :
    exOneZone.MaxErrors = 0 ∧ 1 ≤ exOneZone.MaxUnavailableZones ∧
    Do.exec exOneZone 0 [.deliver 0 (.fail 7), .recvErr, .cancel 9] =
      some { exOneZoneBlocked with parentErr := some 9 } ∧
    ({ exOneZoneBlocked with parentErr := some 9 } : DoState Nat Nat).errs = [] ∧
    ({ exOneZoneBlocked with parentErr := some 9 } : DoState Nat Nat).resultsChan = [] ∧
    ({ exOneZoneBlocked with parentErr := some 9 } : DoState Nat Nat).pc.isReturned = false :=
  ⟨rfl, by decide, by decide, rfl, rfl,
    (cancellation_not_honoured exOneZone 0 [.deliver 0 (.fail 7), .recvErr, .cancel 9]
      { exOneZoneBlocked with parentErr := some 9 } 9 rfl (by decide) (by decide)
      (by simp) rfl).2.1⟩

/-- C5 (suspension points), evaluated on the code: in zone mode with `MaxErrors = 0`,
after a tolerated failure has been received the send on `forceStart` is blocked - the
buffer has no room and no goroutine receives - and it stays blocked under every
continuation of the schedule, so `Do` is suspended at a place that is neither a
result, a failure nor a cancellation. -/
theorem force_start_send_blocks (r : ReplicationSet) (delay : Int)
    (acts more : List (Action α ε)) (s s' : DoState α ε) (he : r.MaxErrors = 0)
    (hz : 1 ≤ r.MaxUnavailableZones) (hrun : Do.exec r delay acts = some s)
    (hrecv : Action.recvErr ∈ acts) (hmore : run r s more = some s') :
    s'.pc = Collector.signalling ∧ step r s' Action.signal = none ∧
    ∀ i, step r s' (Action.handoff i) = none := by
  have hb := blocked_run ((zone_deadlock he hz acts s hrun).2 hrecv) hmore
  obtain ⟨b1, b2, b3⟩ := hb
  refine ⟨b1, ?_, ?_⟩
  · have : ¬ ((s'.forceStart : Int) < r.MaxErrors) := by omega
    simp [step, b1, this]
  · intro i
    cases h : step r s' (Action.handoff i) with
    | none => rfl
    | some s2 => exact absurd (step_handoff h).2.1 (b3 i)

/-- One instance in zone mode: the call fails, the failure is received and the send on `forceStart` is not enabled. -/
theorem force_start_send_blocks_witness :
    exOneZone.MaxErrors = 0 ∧ 1 ≤ exOneZone.MaxUnavailableZones ∧
    Do.exec exOneZone 0 [.deliver 0 (.fail 7), .recvErr] = some exOneZoneBlocked ∧
    run exOneZone exOneZoneBlocked [] = some exOneZoneBlocked ∧
    step exOneZone exOneZoneBlocked Action.signal = none :=
  ⟨rfl, by decide, by decide, rfl,
    (force_start_send_blocks exOneZone 0 [.deliver 0 (.fail 7), .recvErr] []
      exOneZoneBlocked exOneZoneBlocked rfl (by decide) (by decide) (by simp) rfl).2.1⟩

/-- C6, counterexample: one instance, `MaxErrors = 0`; the call fails and the context is
cancelled before the collecting loop runs its `select`. The context is cancelled and a
failure that exhausts the error budget is ready; the `select` may take the failure, and
then `Do` returns the error of `f`, not the context's error. -/
theorem cancel_priority_counterexample :
    Do.exec exSingle 0 [.deliver 0 (.fail 7), .cancel 9] = some exSingleCancelled ∧
    exSingleCancelled.pc = Collector.selecting ∧
    exSingleCancelled.parentErr = some 9 ∧
    exSingleCancelled.errs = [(7, exInstance "a")] ∧
    (step exSingle exSingleCancelled Action.recvErr).map (fun s => s.pc) =
      some (Collector.returned none (some (DoError.fromF 7))) := by
  decide

/-- C6, amended: in a state of the collecting loop where the context is already
cancelled, the `ctx.Done()` case can be taken and `Do` then returns nil results and the
context's error; if no failure and no result is ready, that is the only way in which `Do`
returns; in general a transition by which `Do` returns is the `ctx.Done()` case with the
context's error, or the reception of a ready failure with the budget error, or the
reception of a ready result with a nil error. -/
theorem select_when_cancelled (r : ReplicationSet) (s : DoState α ε) (c : ε)
    (hpc : s.pc = Collector.selecting) (hc : s.parentErr = some c) :
    step r s Action.recvDone =
      some { s with pc := Collector.returned none (some (DoError.ctxErr c)) } ∧
    (s.errs = [] → s.resultsChan = [] → ∀ a s', step r s a = some s' →
      s'.pc.isReturned = true →
      s'.pc = Collector.returned none (some (DoError.ctxErr c))) ∧
    (∀ a s' res err, step r s a = some s' → s'.pc = Collector.returned res err →
      (a = Action.recvDone ∧ res = none ∧ err = some (DoError.ctxErr c)) ∨
      (a = Action.recvErr ∧ res = none ∧ ∃ e ing rest, s.errs = (e, ing) :: rest ∧
        (err = some (DoError.fromF e) ∨ err = some DoError.tooManyZoneFailures)) ∨
      (a = Action.recvRes ∧ err = none)) := by
  have key : ∀ a s' res err, step r s a = some s' → s'.pc = Collector.returned res err →
      (a = Action.recvDone ∧ res = none ∧ err = some (DoError.ctxErr c)) ∨
      (a = Action.recvErr ∧ res = none ∧ ∃ e ing rest, s.errs = (e, ing) :: rest ∧
        (err = some (DoError.fromF e) ∨ err = some DoError.tooManyZoneFailures)) ∨
      (a = Action.recvRes ∧ err = none) := by
    intro a s' res err hst hp
    cases a with
    | cancel c' =>
      obtain ⟨_, rfl⟩ := step_cancel hst
      rw [hpc] at hp; exact absurd hp (by simp)
    | timer i =>
      obtain ⟨_, rfl⟩ := step_timer hst
      rw [hpc] at hp; exact absurd hp (by simp)
    | forced i =>
      obtain ⟨_, _, rfl⟩ := step_forced hst
      rw [hpc] at hp; exact absurd hp (by simp)
    | handoff i =>
      have := (step_handoff hst).1
      rw [hpc] at this; exact absurd this (by simp)
    | ctxDone i =>
      obtain ⟨_, _, rfl⟩ := step_ctxDone hst
      rw [hpc] at hp; exact absurd hp (by simp)
    | signal =>
      have := (step_signal hst).1
      rw [hpc] at this; exact absurd this (by simp)
    | deliver i o =>
      cases o with
      | ok v =>
        obtain ⟨_, _, _, rfl⟩ := step_deliver_ok hst
        rw [hpc] at hp; exact absurd hp (by simp)
      | fail e =>
        obtain ⟨_, _, _, _, rfl⟩ := step_deliver_fail hst
        rw [hpc] at hp; exact absurd hp (by simp)
    | recvDone =>
      obtain ⟨_, c', h1, rfl⟩ := step_recvDone hst
      rw [hc] at h1
      simp only [Option.some.injEq] at h1
      subst h1
      simp only [Collector.returned.injEq] at hp
      exact Or.inl ⟨rfl, hp.1.symm, hp.2.symm⟩
    | recvRes =>
      obtain ⟨_, v, rest, h1, rfl⟩ := step_recvRes hst
      rw [loopHead_pc] at hp
      split at hp
      · exact absurd hp (by simp)
      · simp only [Collector.returned.injEq] at hp
        exact Or.inr (Or.inr ⟨rfl, hp.2.symm⟩)
    | recvErr =>
      obtain ⟨_, e, ing, rest, h1, rfl⟩ := step_recvErr hst
      refine Or.inr (Or.inl ⟨rfl, ?_, e, ing, rest, h1, ?_⟩)
      · unfold onFailure at hp
        split at hp
        · simp only [] at hp
          split at hp
          · simp only [Collector.returned.injEq] at hp; exact hp.1.symm
          · exact absurd hp (by simp)
        · split at hp
          · simp only [Collector.returned.injEq] at hp; exact hp.1.symm
          · exact absurd hp (by simp)
      · unfold onFailure at hp
        split at hp
        · simp only [] at hp
          split at hp
          · simp only [Collector.returned.injEq] at hp; exact Or.inr hp.2.symm
          · exact absurd hp (by simp)
        · split at hp
          · simp only [Collector.returned.injEq] at hp; exact Or.inl hp.2.symm
          · exact absurd hp (by simp)
  refine ⟨by simp [step, hpc, hc], ?_, key⟩
  intro herr hres a s' hst hr
  cases hp : s'.pc with
  | selecting => rw [hp] at hr; simp [Collector.isReturned] at hr
  | signalling => rw [hp] at hr; simp [Collector.isReturned] at hr
  | returned res err =>
    rcases key a s' res err hst hp with ⟨_, h1, h2⟩ | ⟨_, _, e, ing, rest, h, _⟩ | ⟨h, _⟩
    · rw [h1, h2]
    · rw [herr] at h; exact absurd h (by simp)
    · subst h
      obtain ⟨_, v, rest, h1, _⟩ := step_recvRes hst
      rw [hres] at h1; exact absurd h1 (by simp)

/-- One instance, context cancelled with a failure ready: the `ctx.Done()` case returns the context error. -/
theorem select_when_cancelled_witness :
    exSingleCancelled.pc = Collector.selecting ∧ exSingleCancelled.parentErr = some 9 ∧
    step exSingle exSingleCancelled Action.recvDone =
      some { exSingleCancelled with
        pc := Collector.returned none (some (DoError.ctxErr 9)) } :=
  ⟨rfl, rfl, (select_when_cancelled exSingle exSingleCancelled 9 rfl rfl).1⟩

theorem hedge_filter_length (n : Nat) (m : Int) (hm : 0 ≤ m) :
    ((List.range n).filter (fun i : Nat => decide ((i : Int) ≥ m))).length =
      n - m.toNat := by
  induction n with
  | zero => simp
  | succ k ih =>
    rw [List.range_succ, List.filter_append, List.length_append, ih]
    by_cases h : (k : Int) ≥ m
    · simp [h]
      omega
    · simp [h]
      omega

/-- C7, counterexample: two instances, `MaxErrors = 1`, delay 1. Instance 0 fails, the
failure is received and the force-start signal is buffered; the caller's context is
cancelled; the hedge goroutine of instance 1 then runs its `select` with both
`ctx.Done()` and `forceStart` ready and may take `forceStart`: it invokes `f` although
the derived context was cancelled first. -/
theorem hedge_after_cancel_counterexample :
    Do.exec exHedge 1 [.deliver 0 (.fail 7), .recvErr, .signal, .cancel 9] =
      some exHedgeCancelled ∧
    derivedDone exHedgeCancelled = true ∧
    exHedgeCancelled.tasks[1]? = some Task.waiting ∧
    (step exHedge exHedgeCancelled (Action.forced 1)).map (fun s => s.tasks[1]?) =
      some (some Task.calling) := by
  decide

/-- C7, amended: with `0 <= MaxErrors <= n` and `delay > 0` the call for instance `i` is
started immediately iff `i < minSuccess`, the others - exactly `MaxErrors` of them - wait;
with `delay <= 0` every call is started immediately. A waiting goroutine invokes `f`
only by taking its timer case or by receiving a force-start signal; when the derived
context is done it can take the `ctx.Done()` case, which is the only way it stops without
invoking `f`, and a stopped goroutine never invokes `f`. -/
theorem hedge_candidates (r : ReplicationSet) (delay : Int) (s0 : DoState α ε)
    (hinit : Do.init r delay = some s0) (he : r.MaxErrors ≤ (r.Ingesters.length : Int)) :
    (0 < delay → ∀ i < r.Ingesters.length,
      (s0.tasks[i]? = some Task.calling ↔ (i : Int) < minSuccess r) ∧
      (s0.tasks[i]? = some Task.waiting ↔ minSuccess r ≤ (i : Int))) ∧
    (0 < delay →
      ((List.range r.Ingesters.length).filter (fun i => isHedge r delay i)).length =
        r.MaxErrors.toNat) ∧
    (delay ≤ 0 → ∀ i < r.Ingesters.length, s0.tasks[i]? = some Task.calling) ∧
    (∀ (s s' : DoState α ε) (a : Action α ε) (i : Nat), step r s a = some s' →
      s.tasks[i]? = some Task.waiting →
      (s'.tasks[i]? = some Task.waiting) ∨
      (s'.tasks[i]? = some Task.calling ∧
        (a = Action.timer i ∨ a = Action.forced i ∨ a = Action.handoff i)) ∨
      (s'.tasks[i]? = some Task.stopped ∧ a = Action.ctxDone i ∧ derivedDone s = true)) ∧
    (∀ (s : DoState α ε) (i : Nat), s.tasks[i]? = some Task.waiting →
      derivedDone s = true →
      step r s (Action.ctxDone i) = some { s with tasks := s.tasks.set i Task.stopped }) ∧
    (∀ (s s' : DoState α ε) (a : Action α ε) (i : Nat), step r s a = some s' →
      s.tasks[i]? = some Task.stopped → s'.tasks[i]? = some Task.stopped) := by
  obtain ⟨h0, rfl⟩ := init_eq hinit
  have htask : ∀ i < r.Ingesters.length,
      ((List.range r.Ingesters.length).map
        (fun i => if isHedge r delay i then (Task.waiting : Task α ε) else Task.calling))[i]? =
      some (if isHedge r delay i then Task.waiting else Task.calling) := by
    intro i hi
    rw [List.getElem?_map, List.getElem?_range hi]
    rfl
  -- a goroutine other than the one that moves keeps its state
  have other : ∀ (s : DoState α ε) (i j : Nat) (t t' : Task α ε),
      s.tasks[j]? = some t → s.tasks[i]? = some t' → t' ≠ t →
      ∀ x, (s.tasks.set j x)[i]? = some t' := by
    intro s i j t t' hj hi hne x
    exact getElem?_set_keep hj hi hne
  refine ⟨?_, ?_, ?_, ?_, ?_, ?_⟩
  · intro hd i hi
    simp only [loopHead_tasks]
    rw [htask i hi]
    by_cases hh : (i : Int) ≥ minSuccess r
    · have : isHedge r delay i = true := by simp [isHedge, hh, hd]
      rw [if_pos this]
      exact ⟨⟨fun h => absurd h (by simp), fun h => by omega⟩, ⟨fun _ => hh, fun _ => rfl⟩⟩
    · have : ¬ (isHedge r delay i = true) := by simp [isHedge, hh]
      rw [if_neg this]
      exact ⟨⟨fun _ => by omega, fun _ => rfl⟩,
        ⟨fun h => absurd h (by simp), fun h => absurd h hh⟩⟩
  · intro hd
    have hfun : (fun i => isHedge r delay i) =
        (fun i : Nat => decide ((i : Int) ≥ minSuccess r)) := by
      funext i
      simp [isHedge, hd]
    rw [hfun, hedge_filter_length _ _ (by unfold minSuccess; omega)]
    unfold minSuccess
    omega
  · intro hd i hi
    simp only [loopHead_tasks]
    rw [htask i hi]
    have : ¬ (isHedge r delay i = true) := by
      simp only [isHedge, Bool.and_eq_true, decide_eq_true_eq, not_and]
      intro _
      omega
    rw [if_neg this]
  · intro s s' a i hst hw
    have keep : ∀ (j : Nat) (x : Task α ε), s.tasks[j]? = some Task.waiting → j ≠ i →
        (s.tasks.set j x)[i]? = some Task.waiting := by
      intro j x _ hji
      rw [List.getElem?_set_ne hji]; exact hw
    have self : ∀ (x : Task α ε), (s.tasks.set i x)[i]? = some x := by
      intro x
      exact List.getElem?_set_self (List.getElem?_eq_some_iff.mp hw).1
    cases a with
    | cancel c =>
      obtain ⟨_, rfl⟩ := step_cancel hst
      exact Or.inl hw
    | timer j =>
      obtain ⟨hj, rfl⟩ := step_timer hst
      by_cases hji : j = i
      · subst hji
        exact Or.inr (Or.inl ⟨self _, Or.inl rfl⟩)
      · exact Or.inl (keep j _ hj hji)
    | forced j =>
      obtain ⟨hj, _, rfl⟩ := step_forced hst
      by_cases hji : j = i
      · subst hji
        exact Or.inr (Or.inl ⟨self _, Or.inr (Or.inl rfl)⟩)
      · exact Or.inl (keep j _ hj hji)
    | handoff j =>
      obtain ⟨_, hj, rfl⟩ := step_handoff hst
      simp only [loopHead_tasks]
      by_cases hji : j = i
      · subst hji
        exact Or.inr (Or.inl ⟨self _, Or.inr (Or.inr rfl)⟩)
      · exact Or.inl (keep j _ hj hji)
    | ctxDone j =>
      obtain ⟨hj, hd, rfl⟩ := step_ctxDone hst
      by_cases hji : j = i
      · subst hji
        exact Or.inr (Or.inr ⟨self _, rfl, hd⟩)
      · exact Or.inl (keep j _ hj hji)
    | deliver j o =>
      cases o with
      | ok v =>
        obtain ⟨hj, _, _, rfl⟩ := step_deliver_ok hst
        exact Or.inl (other s i j _ _ hj hw (by simp) _)
      | fail e =>
        obtain ⟨hj, _, _, _, rfl⟩ := step_deliver_fail hst
        exact Or.inl (other s i j _ _ hj hw (by simp) _)
    | recvErr =>
      obtain ⟨_, _, _, _, _, rfl⟩ := step_recvErr hst
      exact Or.inl (by simpa using hw)
    | recvRes =>
      obtain ⟨_, _, _, _, rfl⟩ := step_recvRes hst
      exact Or.inl (by simpa using hw)
    | recvDone =>
      obtain ⟨_, _, _, rfl⟩ := step_recvDone hst
      exact Or.inl hw
    | signal =>
      obtain ⟨_, _, rfl⟩ := step_signal hst
      exact Or.inl (by simpa using hw)
  · intro s i hw hd
    simp [step, hw, hd]
  · intro s s' a i hst hs
    cases a with
    | cancel c =>
      obtain ⟨_, rfl⟩ := step_cancel hst
      exact hs
    | timer j =>
      obtain ⟨hj, rfl⟩ := step_timer hst
      exact other s i j _ _ hj hs (by simp) _
    | forced j =>
      obtain ⟨hj, _, rfl⟩ := step_forced hst
      exact other s i j _ _ hj hs (by simp) _
    | handoff j =>
      obtain ⟨_, hj, rfl⟩ := step_handoff hst
      simp only [loopHead_tasks]
      exact other s i j _ _ hj hs (by simp) _
    | ctxDone j =>
      obtain ⟨hj, _, rfl⟩ := step_ctxDone hst
      exact other s i j _ _ hj hs (by simp) _
    | deliver j o =>
      cases o with
      | ok v =>
        obtain ⟨hj, _, _, rfl⟩ := step_deliver_ok hst
        exact other s i j _ _ hj hs (by simp) _
      | fail e =>
        obtain ⟨hj, _, _, _, rfl⟩ := step_deliver_fail hst
        exact other s i j _ _ hj hs (by simp) _
    | recvErr =>
      obtain ⟨_, _, _, _, _, rfl⟩ := step_recvErr hst
      simpa using hs
    | recvRes =>
      obtain ⟨_, _, _, _, rfl⟩ := step_recvRes hst
      simpa using hs
    | recvDone =>
      obtain ⟨_, _, _, rfl⟩ := step_recvDone hst
      exact hs
    | signal =>
      obtain ⟨_, _, rfl⟩ := step_signal hst
      simpa using hs

/-- Two instances with `MaxErrors = 1` and delay 1: exactly one hedge candidate. -/
theorem hedge_candidates_witness :
    Do.init exHedge 1 = some exHedgeInit ∧
    exHedge.MaxErrors ≤ (exHedge.Ingesters.length : Int) ∧
    ((List.range exHedge.Ingesters.length).filter (fun i => isHedge exHedge 1 i)).length =
      exHedge.MaxErrors.toNat :=
  ⟨by decide, by decide,
    (hedge_candidates exHedge 1 exHedgeInit (by decide) (by decide)).2.1 (by decide)⟩

/-- C8 (zone-mode accounting). After every schedule: if `MaxUnavailableZones > 0` the
error counter is untouched and an error returned by `Do` is nil,
`errorTooManyZoneFailures` or the context's error, never an error of `f`; whenever `Do`
returns `errorTooManyZoneFailures`, zone mode is on and the instances whose calls failed
lie in more than `MaxUnavailableZones` distinct zones; and if `MaxUnavailableZones <= 0`
then `Do` never returns `errorTooManyZoneFailures`. -/
theorem do_zone_accounting (r : ReplicationSet) (delay : Int) (acts : List (Action α ε))
    (s : DoState α ε) (hrun : Do.exec r delay acts = some s) :
    (0 < r.MaxUnavailableZones → s.numErrs = 0 ∧
      ∀ res err, s.pc = Collector.returned res err →
        err = none ∨ err = some DoError.tooManyZoneFailures ∨
        ∃ c, err = some (DoError.ctxErr c) ∧ s.parentErr = some c) ∧
    (∀ res, s.pc = Collector.returned res (some DoError.tooManyZoneFailures) →
      0 < r.MaxUnavailableZones ∧
      r.MaxUnavailableZones < ((failedZones r acts).dedup.length : Int)) ∧
    (r.MaxUnavailableZones ≤ 0 →
      ∀ res, s.pc ≠ Collector.returned res (some DoError.tooManyZoneFailures)) := by
  have hl := logInv acts s hrun
  have hc := ctlInv acts s hrun
  have hsub : s.zoneFailureCount.length ≤ (failedZones r acts).dedup.length := by
    have h1 : s.zoneFailureCount ⊆ (failedZones r acts).dedup := by
      intro z hz
      obtain ⟨i, e, ing, g1, g2, g3⟩ := hl.zones z hz
      rw [List.mem_dedup]
      unfold failedZones
      rw [List.mem_filterMap]
      exact ⟨(i, e), g1, by simp [g2, g3]⟩
    exact (List.subperm_of_subset hl.zonesNodup h1).length_le
  have tooMany : ∀ res, s.pc = Collector.returned res (some DoError.tooManyZoneFailures) →
      0 < r.MaxUnavailableZones ∧
      r.MaxUnavailableZones < ((failedZones r acts).dedup.length : Int) := by
    intro res hp
    rcases hc.ret res _ hp with ⟨h, _⟩ | ⟨_, h, _⟩ | ⟨_, _, h1, h2⟩ | ⟨_, h, _⟩
    · simp at h
    · simp at h
    · exact ⟨h1, by omega⟩
    · simp at h
  refine ⟨?_, tooMany, ?_⟩
  · intro hz
    refine ⟨hc.zoneMode hz, ?_⟩
    intro res err hp
    rcases hc.ret res err hp with ⟨h, _⟩ | ⟨_, _, _, h, _⟩ | ⟨h, _⟩ | ⟨c, h1, _, h2⟩
    · exact Or.inl h
    · omega
    · exact Or.inr (Or.inl h)
    · exact Or.inr (Or.inr ⟨c, h1, h2⟩)
  · intro hz res hp
    have := (tooMany res hp).1
    omega

/-- Three instances in three zones with zone budget 1: failures in two zones. -/
theorem do_zone_accounting_witness :
    Do.exec exThreeZones 0
      [.deliver 0 (.fail 7), .recvErr, .signal, .deliver 1 (.fail 8), .recvErr] =
      some exThreeZonesFailed ∧
    exThreeZones.MaxUnavailableZones <
      ((failedZones exThreeZones
        ([.deliver 0 (.fail 7), .recvErr, .signal, .deliver 1 (.fail 8), .recvErr] :
          List (Action Nat Nat))).dedup.length : Int) :=
  ⟨by decide,
    ((do_zone_accounting exThreeZones 0
      [.deliver 0 (.fail 7), .recvErr, .signal, .deliver 1 (.fail 8), .recvErr]
      exThreeZonesFailed (by decide)).2.1 none rfl).2⟩

/-- C9, counterexample: two instances, `MaxErrors = 1`, a positive delay. The first call
succeeds and `Do` returns while the hedge candidate is still waiting; the derived context
is done, but the timer case of the candidate is taken and `f` is called for it after `Do`
has returned. -/
theorem hedge_after_return_counterexample :
    (Do.exec exHedge 1 [.deliver 0 (.ok 3), .recvRes] : Option (DoState Nat Nat)).map
        (fun s => (s.pc, derivedDone s, s.tasks)) =
      some (Collector.returned (some [3]) none, true,
        [Task.finished (Outcome.ok 3), Task.waiting]) ∧
    (Do.exec exHedge 1 [.deliver 0 (.ok 3), .recvRes, .timer 1] :
        Option (DoState Nat Nat)).map (fun s => (s.pc, s.tasks)) =
      some (Collector.returned (some [3]) none,
        [Task.finished (Outcome.ok 3), Task.calling]) ∧
    (Do.exec exHedge 1 [.deliver 0 (.ok 3), .recvRes, .timer 1, .deliver 1 (.ok 4)] :
        Option (DoState Nat Nat)).map (fun s => (s.pc, s.tasks)) =
      some (Collector.returned (some [3]) none,
        [Task.finished (Outcome.ok 3), Task.finished (Outcome.ok 4)]) := by
  decide

/-- C9 (no leaked goroutine), amended. After every schedule, whether or not `Do` has
returned: every instance has delivered at most one outcome, so the messages sent on
`resultsChan` and on `errs` together number at most `len(Ingesters)`, the capacity of
each channel, and each channel holds no more than was sent on it; hence a goroutine whose
call of `f` returns can always deliver the outcome; once `Do` has returned the derived
context is done, and a goroutine still waiting when the derived context is done can take
the `ctx.Done()` case and then stops without calling `f`. Its timer case stays available
as well, so the goroutine may call `f` after `Do` has returned; no goroutine is ever left
without an enabled label. -/
theorem do_no_leak (r : ReplicationSet) (delay : Int) (acts : List (Action α ε))
    (s : DoState α ε) (hrun : Do.exec r delay acts = some s) :
    ((okLog acts).map Prod.fst ++ (failLog acts).map Prod.fst).Nodup ∧
    (okLog acts).length + (failLog acts).length ≤ r.Ingesters.length ∧
    s.resultsChan.length ≤ (okLog acts).length ∧
    s.errs.length ≤ (failLog acts).length ∧
    (∀ (i : Nat) (o : Outcome α ε), s.tasks[i]? = some Task.calling →
      (step r s (Action.deliver i o)).isSome = true) ∧
    (s.pc.isReturned = true → derivedDone s = true) ∧
    (∀ i : Nat, s.tasks[i]? = some Task.waiting → derivedDone s = true →
      step r s (Action.ctxDone i) = some { s with tasks := s.tasks.set i Task.stopped }) ∧
    (∀ i : Nat, s.tasks[i]? = some Task.waiting →
      (step r s (Action.timer i)).isSome = true) := by
  have hl := logInv acts s hrun
  have hcount := hl.count
  unfold numSent at hcount
  have hres : s.resultsChan.length ≤ (okLog acts).length := by
    have : ((okLog acts).map Prod.snd).length = s.results.length + s.resultsChan.length := by
      rw [← hl.results, List.length_append]
    rw [List.length_map] at this
    omega
  refine ⟨hl.nodup, ?_, hres, hl.errsLen, ?_, ?_, ?_, fun i hw => step_timer_of hw⟩
  · have := sum_sentW_le s.tasks
    rw [hl.len] at this
    omega
  · intro i o hi
    have hlt := sum_sentW_lt s.tasks i Task.calling hi rfl
    have hi' : i < s.tasks.length := (List.getElem?_eq_some_iff.mp hi).1
    have := hl.errsLen
    rw [hl.len] at hlt hi'
    exact step_deliver_of o hi hi' (by omega) (by omega)
  · intro h
    simp [derivedDone, h]
  · intro i hw hd
    simp [step, hw, hd]

/-- Three instances: the third call can deliver its outcome after `Do` has returned. -/
theorem do_no_leak_witness :
    Do.exec exThreeZones 0
      [.deliver 0 (.fail 7), .recvErr, .signal, .deliver 1 (.fail 8), .recvErr] =
      some exThreeZonesFailed ∧
    (step exThreeZones exThreeZonesFailed (Action.deliver 2 (Outcome.ok 5))).isSome = true :=
  ⟨by decide,
    (do_no_leak exThreeZones 0
      [.deliver 0 (.fail 7), .recvErr, .signal, .deliver 1 (.fail 8), .recvErr]
      exThreeZonesFailed (by decide)).2.2.2.2.1 2 (Outcome.ok 5) rfl⟩

/-- Three instances with `MaxErrors = 1`: one call fails, two succeed, and the results returned are the two successes in order of arrival. -/
theorem do_quorum_success_witness :
    Do.exec exThree 0 [.deliver 0 (.fail 7), .recvErr, .signal, .deliver 2 (.ok 3),
      .deliver 1 (.ok 4), .recvRes, .recvRes] = some exThreeSucceeded ∧
    noCancel ([.deliver 0 (.fail 7), .recvErr, .signal, .deliver 2 (.ok 3),
      .deliver 1 (.ok 4), .recvRes, .recvRes] : List (Action Nat Nat)) ∧
    (∀ res err, exThreeSucceeded.pc = Collector.returned res err →
      err = none ∧
      res = some (((okLog ([.deliver 0 (.fail 7), .recvErr, .signal, .deliver 2 (.ok 3),
        .deliver 1 (.ok 4), .recvRes, .recvRes] : List (Action Nat Nat))).take
          (exThree.Ingesters.length - exThree.MaxErrors.toNat)).map Prod.snd)) :=
  ⟨by decide, by intro c h; simp at h,
    fun res err h =>
      let t := (do_quorum_success exThree 0 [.deliver 0 (.fail 7), .recvErr, .signal,
        .deliver 2 (.ok 3), .deliver 1 (.ok 4), .recvRes, .recvRes] exThreeSucceeded
        (by decide) (by decide) (by decide) rfl (by decide) (by intro c h; simp at h)
        (by decide)).2.1 res err h
      ⟨t.1, t.2.1⟩⟩

/-- Three instances with `MaxErrors = 1`: two calls fail and both failures are received. -/
theorem do_quorum_failure_witness :
    Do.exec exThree 0 [.deliver 0 (.fail 7), .recvErr, .signal, .deliver 1 (.fail 8),
      .recvErr] = some exThreeFailed ∧
    noCancel ([.deliver 0 (.fail 7), .recvErr, .signal, .deliver 1 (.fail 8),
      .recvErr] : List (Action Nat Nat)) ∧
    exThreeFailed.numErrs.toNat + exThreeFailed.errs.length =
      (failLog ([.deliver 0 (.fail 7), .recvErr, .signal, .deliver 1 (.fail 8),
        .recvErr] : List (Action Nat Nat))).length :=
  ⟨by decide, by intro c h; simp at h,
    (do_quorum_failure exThree 0 [.deliver 0 (.fail 7), .recvErr, .signal,
      .deliver 1 (.fail 8), .recvErr] exThreeFailed rfl (by decide)
      (by intro c h; simp at h) (by decide)).1⟩

theorem equal_iff (a b : IngesterDesc) : a.Equal b = true ↔ a = b := by
  cases a
  cases b
  simp [IngesterDesc.Equal, and_assoc]

theorem changedLoop_filterMap (xs ys : List IngesterDesc) (idx : List Nat)
    (h : xs.map clearTimestamp = ys.map clearTimestamp) :
    changedLoop (idx.filterMap (fun i => xs[i]?)) (idx.filterMap (fun i => ys[i]?)) =
      false := by
  induction idx with
  | nil => simp [changedLoop]
  | cons i rest ih =>
    have hi : (xs.map clearTimestamp)[i]? = (ys.map clearTimestamp)[i]? := by rw [h]
    rw [List.getElem?_map, List.getElem?_map] at hi
    cases hx : xs[i]? with
    | none =>
      rw [hx] at hi
      cases hy : ys[i]? with
      | none => simpa [List.filterMap_cons, hx, hy] using ih
      | some y => rw [hy] at hi; simp at hi
    | some x =>
      rw [hx] at hi
      cases hy : ys[i]? with
      | none => rw [hy] at hi; simp at hi
      | some y =>
        rw [hy] at hi
        simp only [Option.map_some', Option.some.injEq] at hi
        simp only [List.filterMap_cons, hx, hy, changedLoop, hi]
        rw [(equal_iff _ _).mpr rfl]
        simpa using ih

/-- C10 (heartbeats are ignored), for every rearrangement `sortIdx` that `sort.Sort` may
perform: `HasReplicationSetChanged(s, s)` is false, and it is false for every pair of
sets holding the same instances in the same order up to their `Timestamp` fields,
duplicate addresses included. -/
theorem hasReplicationSetChanged_ignores_heartbeats (sortIdx : List String → List Nat) :
    (∀ s : ReplicationSet, HasReplicationSetChanged sortIdx s s = false) ∧
    (∀ s s' : ReplicationSet,
      s.Ingesters.map clearTimestamp = s'.Ingesters.map clearTimestamp →
      HasReplicationSetChanged sortIdx s s' = false) := by
  have key : ∀ s s' : ReplicationSet,
      s.Ingesters.map clearTimestamp = s'.Ingesters.map clearTimestamp →
      HasReplicationSetChanged sortIdx s s' = false := by
    intro s s' h
    have hlen : s.Ingesters.length = s'.Ingesters.length := by
      have := congrArg List.length h
      simpa using this
    have haddr : s.Ingesters.map (fun x => x.Addr) = s'.Ingesters.map (fun x => x.Addr) := by
      have := congrArg (List.map (fun x : IngesterDesc => x.Addr)) h
      simpa [List.map_map, Function.comp_def, clearTimestamp] using this
    unfold HasReplicationSetChanged sortByAddr
    rw [if_neg (by simpa using hlen), haddr]
    exact changedLoop_filterMap _ _ _ h
  exact ⟨fun s => key s s rfl, key⟩

/-- Two instances before and after a heartbeat of each. -/
theorem hasReplicationSetChanged_ignores_heartbeats_witness :
    exBefore.Ingesters.map clearTimestamp = exAfter.Ingesters.map clearTimestamp ∧
    HasReplicationSetChanged insertionSortIdx exBefore exAfter = false :=
  ⟨by decide,
    (hasReplicationSetChanged_ignores_heartbeats insertionSortIdx).2 exBefore exAfter
      (by decide)⟩

theorem filterMap_getElem?_range {β : Type} (xs : List β) :
    (List.range xs.length).filterMap (fun i => xs[i]?) = xs := by
  induction xs with
  | nil => simp
  | cons x xs ih =>
    rw [List.length_cons, List.range_succ_eq_map, List.filterMap_cons]
    simp only [List.getElem?_cons_zero, List.filterMap_map]
    congr 1
    have hf : ((fun i => (x :: xs)[i]?) ∘ Nat.succ) = (fun i => xs[i]?) := by
      funext i
      simp
    rw [hf]
    exact ih

theorem sortByAddr_perm {sortIdx : List String → List Nat} (h : IsRearrangement sortIdx)
    (xs : List IngesterDesc) : (sortByAddr sortIdx xs).Perm xs := by
  unfold sortByAddr
  have h1 := (h (xs.map (fun x => x.Addr))).filterMap (fun i => xs[i]?)
  rw [List.length_map, filterMap_getElem?_range] at h1
  exact h1

theorem changedLoop_false_iff (bs as : List IngesterDesc) (hlen : bs.length = as.length) :
    changedLoop bs as = false ↔ bs.map clearTimestamp = as.map clearTimestamp := by
  induction bs generalizing as with
  | nil =>
    cases as with
    | nil => simp [changedLoop]
    | cons a as => simp at hlen
  | cons b bs ih =>
    cases as with
    | nil => simp at hlen
    | cons a as =>
      simp only [List.length_cons, Nat.add_right_cancel_iff] at hlen
      simp only [changedLoop, List.map_cons, List.cons.injEq]
      by_cases hab : clearTimestamp b = clearTimestamp a
      · have : (clearTimestamp b).Equal (clearTimestamp a) = true := (equal_iff _ _).mpr hab
        rw [this]
        simp [hab, ih as hlen]
      · have : (clearTimestamp b).Equal (clearTimestamp a) = false := by
          cases h : (clearTimestamp b).Equal (clearTimestamp a)
          · rfl
          · exact absurd ((equal_iff _ _).mp h) hab
        simp [this, hab]

theorem unchanged_perm {sortIdx : List String → List Nat} (h : IsRearrangement sortIdx)
    (s s' : ReplicationSet) (hr : HasReplicationSetChanged sortIdx s s' = false) :
    (s.Ingesters.map clearTimestamp).Perm (s'.Ingesters.map clearTimestamp) := by
  unfold HasReplicationSetChanged at hr
  split at hr
  · simp at hr
  · rename_i hlen
    have hlen' : s.Ingesters.length = s'.Ingesters.length := by simpa using hlen
    have p1 := sortByAddr_perm h s.Ingesters
    have p2 := sortByAddr_perm h s'.Ingesters
    have hl : (sortByAddr sortIdx s.Ingesters).length = (sortByAddr sortIdx s'.Ingesters).length := by
      rw [p1.length_eq, p2.length_eq, hlen']
    have := (changedLoop_false_iff _ _ hl).mp hr
    exact ((p1.map clearTimestamp).symm.trans (this ▸ List.Perm.refl _)).trans
      (p2.map clearTimestamp)

theorem perm_middle_cancel {β : Type} [DecidableEq β] {l1 l2 : List β} {a b : β}
    (h : (l1 ++ a :: l2).Perm (l1 ++ b :: l2)) : a = b := by
  have h1 : (a :: (l1 ++ l2)).Perm (b :: (l1 ++ l2)) :=
    (List.perm_middle.symm.trans h).trans List.perm_middle
  by_contra hab
  have hc := h1.count_eq a
  rw [List.count_cons_self, List.count_cons_of_ne (fun h => hab h)] at hc
  omega

theorem insertIdx_perm (ks : List String) (i : Nat) (l : List Nat) :
    (insertIdx ks i l).Perm (i :: l) := by
  induction l with
  | nil => simp [insertIdx]
  | cons j js ih =>
    unfold insertIdx
    split
    · exact List.Perm.refl _
    · exact (List.Perm.cons j ih).trans (List.Perm.swap i j js)

theorem foldl_insertIdx_perm (ks : List String) (l acc : List Nat) :
    (l.foldl (fun acc i => insertIdx ks i acc) acc).Perm (l ++ acc) := by
  induction l generalizing acc with
  | nil => simp
  | cons i rest ih =>
    simp only [List.foldl_cons, List.cons_append]
    exact (ih _).trans ((List.Perm.append_left rest (insertIdx_perm ks i acc)).trans
      List.perm_middle)

theorem insertionSortIdx_rearrangement : IsRearrangement insertionSortIdx := by
  intro ks
  unfold insertionSortIdx
  simpa using foldl_insertIdx_perm ks (List.range ks.length) []

theorem insertIdx_sorted (ks : List String) (i : Nat) (l : List Nat)
    (h : (l.map (fun i => ks.getD i "")).Sorted (· ≤ ·)) :
    ((insertIdx ks i l).map (fun i => ks.getD i "")).Sorted (· ≤ ·) := by
  induction l with
  | nil => simp [insertIdx]
  | cons j js ih =>
    simp only [List.map_cons, List.sorted_cons] at h
    unfold insertIdx
    split
    · rename_i hlt
      simp only [List.map_cons, List.sorted_cons, List.mem_cons, forall_eq_or_imp]
      refine ⟨⟨le_of_lt hlt, fun b hb => le_trans (le_of_lt hlt) (h.1 b hb)⟩, h.1, h.2⟩
    · rename_i hlt
      simp only [List.map_cons, List.sorted_cons]
      refine ⟨?_, ih h.2⟩
      intro b hb
      obtain ⟨k, hk, rfl⟩ := List.mem_map.mp hb
      rcases List.mem_cons.mp ((insertIdx_perm ks i js).mem_iff.mp hk) with rfl | hk'
      · exact not_lt.mp hlt
      · exact h.1 _ (List.mem_map.mpr ⟨k, hk', rfl⟩)

theorem foldl_insertIdx_sorted (ks : List String) (l acc : List Nat)
    (h : (acc.map (fun i => ks.getD i "")).Sorted (· ≤ ·)) :
    ((l.foldl (fun acc i => insertIdx ks i acc) acc).map
      (fun i => ks.getD i "")).Sorted (· ≤ ·) := by
  induction l generalizing acc with
  | nil => simpa using h
  | cons i rest ih =>
    simp only [List.foldl_cons]
    exact ih _ (insertIdx_sorted ks i acc h)

theorem insertionSortIdx_sorts : IsSortByAddr insertionSortIdx := by
  intro ks
  refine ⟨insertionSortIdx_rearrangement ks, ?_⟩
  unfold insertionSortIdx
  exact foldl_insertIdx_sorted ks _ [] (by simp)

/-- C11 (every real change is detected), for every rearrangement `sortIdx` that
`sort.Sort` may perform: adding or removing an instance (more generally a different number
of instances) gives true; changing the address, the state, the zone or the tokens of one
instance gives true; and whenever the result is false the two sets hold the same multiset
of instances once `Timestamp` is cleared. -/
theorem hasReplicationSetChanged_detects_changes (sortIdx : List String → List Nat)
    (hsort : IsRearrangement sortIdx) :
    (∀ s s' : ReplicationSet, s.Ingesters.length ≠ s'.Ingesters.length →
      HasReplicationSetChanged sortIdx s s' = true) ∧
    (∀ (s s' : ReplicationSet) (l₁ l₂ : List IngesterDesc) (y : IngesterDesc),
      s.Ingesters = l₁ ++ l₂ → s'.Ingesters = l₁ ++ y :: l₂ →
      HasReplicationSetChanged sortIdx s s' = true ∧
      HasReplicationSetChanged sortIdx s' s = true) ∧
    (∀ (s s' : ReplicationSet) (l₁ l₂ : List IngesterDesc) (x x' : IngesterDesc),
      s.Ingesters = l₁ ++ x :: l₂ → s'.Ingesters = l₁ ++ x' :: l₂ →
      (x.Addr ≠ x'.Addr ∨ x.State ≠ x'.State ∨ x.Zone ≠ x'.Zone ∨ x.Tokens ≠ x'.Tokens) →
      HasReplicationSetChanged sortIdx s s' = true) ∧
    (∀ s s' : ReplicationSet, HasReplicationSetChanged sortIdx s s' = false →
      (s.Ingesters.map clearTimestamp).Perm (s'.Ingesters.map clearTimestamp)) := by
  have hlen : ∀ s s' : ReplicationSet, s.Ingesters.length ≠ s'.Ingesters.length →
      HasReplicationSetChanged sortIdx s s' = true := by
    intro s s' h
    unfold HasReplicationSetChanged
    rw [if_pos h]
  refine ⟨hlen, ?_, ?_, fun s s' h => unchanged_perm hsort s s' h⟩
  · intro s s' l₁ l₂ y h1 h2
    have : s.Ingesters.length ≠ s'.Ingesters.length := by
      rw [h1, h2]
      simp
    exact ⟨hlen s s' this, hlen s' s (fun h => this h.symm)⟩
  · intro s s' l₁ l₂ x x' h1 h2 hne
    by_contra hr
    have hr' : HasReplicationSetChanged sortIdx s s' = false := by
      cases h : HasReplicationSetChanged sortIdx s s'
      · rfl
      · exact absurd h hr
    have hp := unchanged_perm hsort s s' hr'
    rw [h1, h2, List.map_append, List.map_append, List.map_cons, List.map_cons] at hp
    have hx := perm_middle_cancel hp
    have e1 : (clearTimestamp x).Addr = (clearTimestamp x').Addr := by rw [hx]
    have e2 : (clearTimestamp x).State = (clearTimestamp x').State := by rw [hx]
    have e3 : (clearTimestamp x).Zone = (clearTimestamp x').Zone := by rw [hx]
    have e4 : (clearTimestamp x).Tokens = (clearTimestamp x').Tokens := by rw [hx]
    simp only [clearTimestamp] at e1 e2 e3 e4
    rcases hne with h | h | h | h
    · exact h e1
    · exact h e2
    · exact h e3
    · exact h e4

/-- Insertion sort on two instances, one of which changes zone. -/
theorem hasReplicationSetChanged_detects_changes_witness :
    IsRearrangement insertionSortIdx ∧
    HasReplicationSetChanged insertionSortIdx exBefore
      { exBefore with Ingesters :=
          [{ Addr := "b", Timestamp := 10, State := 0, Tokens := [5], Zone := "y" },
           { Addr := "a", Timestamp := 11, State := 0, Tokens := [9], Zone := "z" }] } = true :=
  ⟨insertionSortIdx_rearrangement,
    (hasReplicationSetChanged_detects_changes insertionSortIdx
      insertionSortIdx_rearrangement).2.2.1 exBefore _ []
      [{ Addr := "a", Timestamp := 11, State := 0, Tokens := [9], Zone := "z" }]
      { Addr := "b", Timestamp := 10, State := 0, Tokens := [5], Zone := "z" }
      { Addr := "b", Timestamp := 10, State := 0, Tokens := [5], Zone := "y" }
      rfl rfl (Or.inr (Or.inr (Or.inl (by decide))))⟩

theorem sortByAddr_addr {sortIdx : List String → List Nat} (h : IsRearrangement sortIdx)
    (xs : List IngesterDesc) :
    (sortByAddr sortIdx xs).map (fun x => x.Addr) =
      (sortIdx (xs.map (fun x => x.Addr))).map
        (fun i => (xs.map (fun x => x.Addr)).getD i "") := by
  unfold sortByAddr
  have hmem : ∀ i ∈ sortIdx (xs.map (fun x => x.Addr)), i < xs.length := by
    intro i hi
    have := (h (xs.map (fun x => x.Addr))).mem_iff.mp hi
    simpa using this
  generalize sortIdx (xs.map (fun x => x.Addr)) = idx at hmem
  induction idx with
  | nil => simp
  | cons i rest ih =>
    have hi : i < xs.length := hmem i (by simp)
    have ih' := ih (fun j hj => hmem j (List.mem_cons_of_mem _ hj))
    simp only [List.filterMap_cons, List.getElem?_eq_getElem hi, List.map_cons, ih',
      List.getD_eq_getElem?_getD, List.getElem?_map, Option.map_some', Option.getD_some]

theorem eq_of_perm_of_map_eq {β γ : Type} (f : β → γ) :
    ∀ (l₁ l₂ : List β), l₁.Perm l₂ → (l₁.map f).Nodup → l₁.map f = l₂.map f → l₁ = l₂
  | [], l₂, hp, _, _ => by simpa using hp.symm.eq_nil
  | a :: t₁, [], hp, _, _ => by simpa using hp.eq_nil
  | a :: t₁, b :: t₂, hp, hn, he => by
    simp only [List.map_cons, List.cons.injEq] at he
    simp only [List.map_cons, List.nodup_cons] at hn
    have hb : b ∈ a :: t₁ := hp.mem_iff.mpr (by simp)
    have hab : a = b := by
      rcases List.mem_cons.mp hb with h | h
      · exact h.symm
      · exact absurd (he.1 ▸ List.mem_map_of_mem f h) hn.1
    subst hab
    rw [eq_of_perm_of_map_eq f t₁ t₂ hp.cons_inv hn.2 he.2]

theorem sortByAddr_eq_of_perm {sortIdx : List String → List Nat} (h : IsSortByAddr sortIdx)
    {xs ys : List IngesterDesc} (hp : xs.Perm ys)
    (hn : (xs.map (fun x => x.Addr)).Nodup) :
    sortByAddr sortIdx xs = sortByAddr sortIdx ys := by
  have hr : IsRearrangement sortIdx := fun ks => (h ks).1
  have p1 := sortByAddr_perm hr xs
  have p2 := sortByAddr_perm hr ys
  have p12 : (sortByAddr sortIdx xs).Perm (sortByAddr sortIdx ys) :=
    (p1.trans hp).trans p2.symm
  have s1 : ((sortByAddr sortIdx xs).map (fun x => x.Addr)).Sorted (· ≤ ·) := by
    rw [sortByAddr_addr hr]; exact (h _).2
  have s2 : ((sortByAddr sortIdx ys).map (fun x => x.Addr)).Sorted (· ≤ ·) := by
    rw [sortByAddr_addr hr]; exact (h _).2
  have he := List.eq_of_perm_of_sorted (p12.map (fun x => x.Addr)) s1 s2
  have hn1 : ((sortByAddr sortIdx xs).map (fun x => x.Addr)).Nodup :=
    ((p1.map (fun x => x.Addr)).nodup_iff).mpr hn
  exact eq_of_perm_of_map_eq _ _ _ p12 hn1 he

theorem sortByAddr_map {sortIdx : List String → List Nat} (g : IngesterDesc → IngesterDesc)
    (hg : ∀ x, (g x).Addr = x.Addr) (xs : List IngesterDesc) :
    sortByAddr sortIdx (xs.map g) = (sortByAddr sortIdx xs).map g := by
  unfold sortByAddr
  have : (xs.map g).map (fun x => x.Addr) = xs.map (fun x => x.Addr) := by
    simp [List.map_map, Function.comp_def, hg]
  rw [this, List.map_filterMap]
  congr 1
  funext i
  simp [List.getElem?_map]

/-- C12 (sets, not sequences), for every `sortIdx` that sorts by address: when the
addresses of `before` are pairwise distinct and so are those of `after`, replacing the
instances of each set by any permutation of them does not change the result; in
particular a set and a reordering of it are reported as unchanged. -/
theorem hasReplicationSetChanged_order_independent (sortIdx : List String → List Nat)
    (hsort : IsSortByAddr sortIdx) (before after : ReplicationSet)
    (p q : List IngesterDesc)
    (hb : (before.Ingesters.map (fun x => x.Addr)).Nodup)
    (ha : (after.Ingesters.map (fun x => x.Addr)).Nodup)
    (hp : p.Perm before.Ingesters) (hq : q.Perm after.Ingesters) :
    HasReplicationSetChanged sortIdx { before with Ingesters := p }
        { after with Ingesters := q } =
      HasReplicationSetChanged sortIdx before after ∧
    HasReplicationSetChanged sortIdx before { before with Ingesters := p } = false := by
  have e1 : sortByAddr sortIdx p = sortByAddr sortIdx before.Ingesters :=
    (sortByAddr_eq_of_perm hsort hp.symm hb).symm
  have e2 : sortByAddr sortIdx q = sortByAddr sortIdx after.Ingesters :=
    (sortByAddr_eq_of_perm hsort hq.symm ha).symm
  constructor
  · unfold HasReplicationSetChanged
    simp only [e1, e2, hp.length_eq, hq.length_eq]
  · unfold HasReplicationSetChanged
    simp only [e1, hp.length_eq]
    rw [if_neg (by simp)]
    exact (changedLoop_false_iff _ _ rfl).mpr rfl

/-- Insertion sort on two instances and their reversal. -/
theorem hasReplicationSetChanged_order_independent_witness :
    IsSortByAddr insertionSortIdx ∧
    (exBefore.Ingesters.map (fun x => x.Addr)).Nodup ∧
    exBefore.Ingesters.reverse.Perm exBefore.Ingesters ∧
    HasReplicationSetChanged insertionSortIdx exBefore
      { exBefore with Ingesters := exBefore.Ingesters.reverse } = false :=
  ⟨insertionSortIdx_sorts, by decide, List.reverse_perm _,
    (hasReplicationSetChanged_order_independent insertionSortIdx insertionSortIdx_sorts
      exBefore exBefore exBefore.Ingesters.reverse exBefore.Ingesters.reverse
      (by decide) (by decide) (List.reverse_perm _) (List.reverse_perm _)).2⟩

/-- C13, failing input: for a set compared with itself the function returns false, not
true as its doc comment says, and for two sets with different numbers of instances it
returns true, not false. -/
theorem hasReplicationSetChanged_doc_counterexample :
    HasReplicationSetChanged insertionSortIdx exSingle exSingle = false ∧
    HasReplicationSetChanged insertionSortIdx exSingle exTwoZones = true := by
  decide

/-- C13 (doc comment of `HasReplicationSetChanged`), evaluated on the code: the function
returns false if the two replication sets are the same (with possibly different
timestamps) and true if they differ in any way, the opposite of what the comment says. For
every `sortIdx` that sorts by address: two sets holding the same instances in the same
order up to timestamps give false; two sets that differ as multisets of instances, up to
timestamps, give true; and when the addresses within each set are pairwise distinct, the
result is false exactly when the two sets hold the same instances up to timestamps. -/
theorem hasReplicationSetChanged_doc (sortIdx : List String → List Nat)
    (hsort : IsSortByAddr sortIdx) (before after : ReplicationSet) :
    (before.Ingesters.map clearTimestamp = after.Ingesters.map clearTimestamp →
      HasReplicationSetChanged sortIdx before after = false) ∧
    (¬ (before.Ingesters.map clearTimestamp).Perm (after.Ingesters.map clearTimestamp) →
      HasReplicationSetChanged sortIdx before after = true) ∧
    ((before.Ingesters.map (fun x => x.Addr)).Nodup →
      (after.Ingesters.map (fun x => x.Addr)).Nodup →
      (HasReplicationSetChanged sortIdx before after = false ↔
        (before.Ingesters.map clearTimestamp).Perm (after.Ingesters.map clearTimestamp))) := by
  have hr : IsRearrangement sortIdx := fun ks => (hsort ks).1
  have hperm : HasReplicationSetChanged sortIdx before after = false →
      (before.Ingesters.map clearTimestamp).Perm (after.Ingesters.map clearTimestamp) :=
    unchanged_perm hr before after
  have hcT : ∀ x, (clearTimestamp x).Addr = x.Addr := fun _ => rfl
  have hfalse : ∀ (xs ys : List IngesterDesc), xs.length = ys.length →
      (sortByAddr sortIdx xs).map clearTimestamp = (sortByAddr sortIdx ys).map clearTimestamp →
      changedLoop (sortByAddr sortIdx xs) (sortByAddr sortIdx ys) = false := by
    intro xs ys hlen h
    refine (changedLoop_false_iff _ _ ?_).mpr h
    rw [(sortByAddr_perm hr xs).length_eq, (sortByAddr_perm hr ys).length_eq, hlen]
  refine ⟨?_, ?_, ?_⟩
  · intro h
    have hlen : before.Ingesters.length = after.Ingesters.length := by
      simpa using congrArg List.length h
    unfold HasReplicationSetChanged
    rw [if_neg (by simpa using hlen)]
    apply hfalse _ _ hlen
    rw [← sortByAddr_map clearTimestamp hcT, ← sortByAddr_map clearTimestamp hcT, h]
  · intro h
    cases hv : HasReplicationSetChanged sortIdx before after
    · exact absurd (hperm hv) h
    · rfl
  · intro hb ha
    refine ⟨hperm, ?_⟩
    intro h
    have hlen : before.Ingesters.length = after.Ingesters.length := by
      simpa using h.length_eq
    unfold HasReplicationSetChanged
    rw [if_neg (by simpa using hlen)]
    apply hfalse _ _ hlen
    rw [← sortByAddr_map clearTimestamp hcT, ← sortByAddr_map clearTimestamp hcT]
    refine sortByAddr_eq_of_perm hsort h ?_
    simpa [List.map_map, Function.comp_def, clearTimestamp] using hb

/-- Insertion sort on two instances before and after a heartbeat of each. -/
theorem hasReplicationSetChanged_doc_witness :
    IsSortByAddr insertionSortIdx ∧
    exBefore.Ingesters.map clearTimestamp = exAfter.Ingesters.map clearTimestamp ∧
    HasReplicationSetChanged insertionSortIdx exBefore exAfter = false :=
  ⟨insertionSortIdx_sorts, by decide,
    (hasReplicationSetChanged_doc insertionSortIdx insertionSortIdx_sorts
      exBefore exAfter).1 (by decide)⟩

theorem includesLoop_iff (addr : String) (xs : List IngesterDesc) :
    includesLoop addr xs = true ↔ ∃ x ∈ xs, x.Addr = addr := by
  induction xs with
  | nil => simp [includesLoop]
  | cons x rest ih =>
    unfold includesLoop
    by_cases h : x.GetAddr = addr
    · rw [if_pos h]
      simp only [List.mem_cons, true_iff]
      exact ⟨x, Or.inl rfl, h⟩
    · rw [if_neg h, ih]
      constructor
      · rintro ⟨y, hy, hya⟩
        exact ⟨y, List.mem_cons_of_mem _ hy, hya⟩
      · rintro ⟨y, hy, hya⟩
        rcases List.mem_cons.mp hy with rfl | hy
        · exact absurd hya h
        · exact ⟨y, hy, hya⟩

theorem foldl_addrs (xs : List IngesterDesc) (acc : List String) :
    xs.foldl (fun addrs desc => addrs ++ [desc.Addr]) acc = acc ++ xs.map (fun x => x.Addr) := by
  induction xs generalizing acc with
  | nil => simp
  | cons x rest ih => simp [ih]

theorem getAddresses_eq (r : ReplicationSet) :
    r.GetAddresses = r.Ingesters.map (fun x => x.Addr) := by
  unfold ReplicationSet.GetAddresses
  rw [foldl_addrs]
  rfl

/-- C14 (`Includes`): `r.Includes(addr)` is true iff some instance of `r.Ingesters` has
`Addr` equal to `addr`, iff `addr` occurs in `r.GetAddresses()`; it is false for a set
without instances. -/
theorem includes_iff (r : ReplicationSet) (addr : String) :
    (r.Includes addr = true ↔ ∃ x ∈ r.Ingesters, x.Addr = addr) ∧
    (r.Includes addr = true ↔ addr ∈ r.GetAddresses) ∧
    ({ r with Ingesters := [] } : ReplicationSet).Includes addr = false := by
  have h1 : r.Includes addr = true ↔ ∃ x ∈ r.Ingesters, x.Addr = addr :=
    includesLoop_iff addr r.Ingesters
  refine ⟨h1, ?_, rfl⟩
  rw [h1, getAddresses_eq, List.mem_map]

/-- C15 (`GetAddresses`): the result has `len(Ingesters)` entries, the `i`-th one is the
`Addr` of the `i`-th instance, duplicates kept; the set of the test with instances
`1.1.1.1` and `2.2.2.2` gives these two addresses in this order; a set without instances
gives a result without entries. -/
theorem getAddresses_spec (r : ReplicationSet) :
    r.GetAddresses.length = r.Ingesters.length ∧
    (∀ i : Nat, r.GetAddresses[i]? = (r.Ingesters[i]?).map (fun x => x.Addr)) ∧
    exDiscovery.GetAddresses = ["1.1.1.1", "2.2.2.2"] ∧
    ({ r with Ingesters := [] } : ReplicationSet).GetAddresses = [] := by
  refine ⟨?_, ?_, by decide, rfl⟩
  · rw [getAddresses_eq, List.length_map]
  · intro i
    rw [getAddresses_eq, List.getElem?_map]

theorem signalsSent_snoc (as : List (Action α ε)) (a : Action α ε) :
    signalsSent (as ++ [a]) = signalsSent as + signalOf a := by
  simp [signalsSent]

theorem failuresReceived_snoc (as : List (Action α ε)) (a : Action α ε) :
    failuresReceived (as ++ [a]) = failuresReceived as + recvErrOf a := by
  simp [failuresReceived]

theorem pendingSignal_loopHead (r : ReplicationSet) (s : DoState α ε) :
    pendingSignal (loopHead r s).pc = 0 := by
  rw [loopHead_pc]
  split <;> rfl

theorem signalInv_init {r : ReplicationSet} {d : Int} {s0 : DoState α ε}
    (h : Do.init r d = some s0) : SignalInv r ([] : List (Action α ε)) s0 := by
  obtain ⟨hm, rfl⟩ := init_eq h
  refine ⟨by simp [failuresReceived], ?_, by simp [signalsSent]⟩
  rw [pendingSignal_loopHead]
  simp only [loopHead_numErrs, signalsSent, List.map_nil, List.sum_nil]
  omega

theorem signalInv_snoc {r : ReplicationSet} {as : List (Action α ε)} {a : Action α ε}
    {s' : DoState α ε}
    (h1 : s'.numErrs = ((failuresReceived as + recvErrOf a : Nat) : Int))
    (h2 : ((signalsSent as + signalOf a : Nat) : Int) + pendingSignal s'.pc =
      min s'.numErrs r.MaxErrors)
    (h3 : s'.forceStart ≤ signalsSent as + signalOf a) : SignalInv r (as ++ [a]) s' := by
  refine ⟨?_, ?_, ?_⟩
  · rw [failuresReceived_snoc]; exact h1
  · rw [signalsSent_snoc]; exact h2
  · rw [signalsSent_snoc]; exact h3

theorem signalInv_step {r : ReplicationSet} {as : List (Action α ε)}
    {s s' : DoState α ε} {a : Action α ε} (hz : r.MaxUnavailableZones ≤ 0)
    (hc : CtlInv r as s) (ih : SignalInv r as s)
    (hst : step r s a = some s') : SignalInv r (as ++ [a]) s' := by
  obtain ⟨i1, i2, i3⟩ := ih
  apply signalInv_snoc
  all_goals cases a with
  | cancel c =>
    obtain ⟨_, rfl⟩ := step_cancel hst
    first
      | simpa [recvErrOf] using i1
      | simpa [signalOf] using i2
      | simpa [signalOf] using i3
  | timer i =>
    obtain ⟨_, rfl⟩ := step_timer hst
    first
      | simpa [recvErrOf] using i1
      | simpa [signalOf] using i2
      | simpa [signalOf] using i3
  | forced i =>
    obtain ⟨_, _, rfl⟩ := step_forced hst
    first
      | simpa [recvErrOf] using i1
      | simpa [signalOf] using i2
      | (simp only [signalOf]; omega)
  | ctxDone i =>
    obtain ⟨_, _, rfl⟩ := step_ctxDone hst
    first
      | simpa [recvErrOf] using i1
      | simpa [signalOf] using i2
      | simpa [signalOf] using i3
  | deliver i o =>
    cases o with
    | ok v =>
      obtain ⟨_, _, _, rfl⟩ := step_deliver_ok hst
      first
        | simpa [recvErrOf] using i1
        | simpa [signalOf] using i2
        | simpa [signalOf] using i3
    | fail e =>
      obtain ⟨_, _, ing, _, rfl⟩ := step_deliver_fail hst
      first
        | simpa [recvErrOf] using i1
        | simpa [signalOf] using i2
        | simpa [signalOf] using i3
  | handoff i =>
    obtain ⟨h0, _, rfl⟩ := step_handoff hst
    rw [h0] at i2
    simp only [pendingSignal] at i2
    simp only [pendingSignal_loopHead, loopHead_numErrs, loopHead_forceStart, signalOf,
      recvErrOf]
    push_cast
    omega
  | signal =>
    obtain ⟨h0, _, rfl⟩ := step_signal hst
    rw [h0] at i2
    simp only [pendingSignal] at i2
    simp only [pendingSignal_loopHead, loopHead_numErrs, loopHead_forceStart, signalOf,
      recvErrOf]
    push_cast
    omega
  | recvDone =>
    obtain ⟨h0, c, _, rfl⟩ := step_recvDone hst
    rw [h0] at i2
    simp only [pendingSignal] at i2
    simp only [pendingSignal, signalOf, recvErrOf]
    push_cast
    omega
  | recvRes =>
    obtain ⟨h0, v, rest, _, rfl⟩ := step_recvRes hst
    rw [h0] at i2
    simp only [pendingSignal] at i2
    simp only [pendingSignal_loopHead, loopHead_numErrs, loopHead_forceStart, signalOf,
      recvErrOf]
    push_cast
    omega
  | recvErr =>
    obtain ⟨h0, e, ing, rest, _, rfl⟩ := step_recvErr hst
    rw [h0] at i2
    have hb := (hc.budgetSel hz h0).1
    simp only [pendingSignal] at i2
    unfold onFailure
    rw [if_neg (by omega)]
    simp only [signalOf, recvErrOf]
    split
    · simp only [pendingSignal]
      push_cast
      omega
    · simp only [pendingSignal]
      push_cast
      omega

theorem signalInv {r : ReplicationSet} {d : Int} (hz : r.MaxUnavailableZones ≤ 0)
    (as : List (Action α ε)) (s : DoState α ε)
    (h : Do.exec r d as = some s) : SignalInv r as s :=
  exec_induction (fun as s => SignalInv r as s) (fun _ h0 => signalInv_init h0)
    (fun as s _ _ hx ih hst => signalInv_step hz (ctlInv as s hx) ih hst) as s h

/-- C23 (force-start budget, error-count mode): with `MaxUnavailableZones <= 0`, after
every schedule the failure count is the number of failures received, and the sends on
`forceStart` made so far, with the one `Do` is about to make, are as many as the
failures received within the budget `MaxErrors`: one send for each of them and none for
the failure that exceeds the budget, after which `Do` has returned. Hence at most
`MaxErrors` sends are made, the buffer never holds more than `MaxErrors` values, and
whenever `Do` is at the send, the send into the buffer is enabled: it does not block. -/
theorem force_start_budget (r : ReplicationSet) (delay : Int) (acts : List (Action α ε))
    (s : DoState α ε) (hz : r.MaxUnavailableZones ≤ 0)
    (hrun : Do.exec r delay acts = some s) :
    0 ≤ r.MaxErrors ∧
    s.numErrs = failuresReceived acts ∧
    (signalsSent acts : Int) + pendingSignal s.pc = min s.numErrs r.MaxErrors ∧
    (r.MaxErrors < s.numErrs → s.pc.isReturned = true) ∧
    (signalsSent acts : Int) ≤ r.MaxErrors ∧
    (s.forceStart : Int) ≤ r.MaxErrors ∧
    (s.pc = Collector.signalling → (step r s Action.signal).isSome = true) := by
  have hl := logInv acts s hrun
  have hc := ctlInv acts s hrun
  have hs := signalInv hz acts s hrun
  have hsent : (signalsSent acts : Int) ≤ r.MaxErrors := by
    have := hs.sent
    have : (0 : Int) ≤ pendingSignal s.pc := Int.ofNat_nonneg _
    omega
  refine ⟨hl.maxErrors, hs.counted, hs.sent, ?_, hsent, ?_, ?_⟩
  · intro hgt
    cases hpc : s.pc with
    | selecting => have := (hc.budgetSel hz hpc).1; omega
    | signalling => have := (hc.budgetSig hz hpc).1; omega
    | returned res err => rfl
  · have := hs.buffered
    omega
  · intro hpc
    have := hc.budgetSig hz hpc
    have hlt : (s.forceStart : Int) < r.MaxErrors := by omega
    simp [step, hpc, hlt]

/-- Three instances with `MaxErrors = 1` and no hedge candidate: after the first failure
is received the send on `forceStart` is enabled. -/
theorem force_start_budget_witness :
    exThree.MaxUnavailableZones ≤ 0 ∧
    Do.exec exThree 0 [.deliver 0 (.fail 7), .recvErr] = some exThreeSignalling ∧
    (∀ i : Nat, exThreeSignalling.tasks[i]? ≠ some (Task.waiting : Task Nat Nat)) ∧
    (step exThree exThreeSignalling Action.signal).isSome = true :=
  ⟨by decide, by decide,
    by
      intro i
      match i with
      | 0 => decide
      | 1 => decide
      | 2 => decide
      | _ + 3 => simp [exThreeSignalling],
    (force_start_budget exThree 0 [.deliver 0 (.fail 7), .recvErr] exThreeSignalling
      (by decide) (by decide)).2.2.2.2.2.2 rfl⟩

end Ring

namespace Validation

theorem stringsCompare_nonneg (a b : String) : stringsCompare a b ≥ 0 ↔ ¬ a < b := by
  unfold stringsCompare
  by_cases h : a = b
  · subst h
    simp
  · by_cases h2 : a < b
    · simp [h, h2]
    · simp [h, h2]

theorem isValidLabelName_ne_empty {s : String} (h : IsValidLabelName s = true) : s ≠ "" := by
  intro he
  subst he
  simp [IsValidLabelName] at h

theorem empty_lt_iff (s : String) : "" < s ↔ s ≠ "" := by
  rw [String.lt_iff_toList_lt]
  constructor
  · intro h he
    subst he
    simp at h
  · intro h
    have : s.toList ≠ [] := by
      intro h2
      apply h
      rw [← String.toList_inj]
      simpa using h2
    cases hs : s.toList with
    | nil => exact absurd hs this
    | cons c cs => exact List.Lex.nil

theorem loop_none_iff (mN mV : Int) (last : String) (ls : List LabelAdapter) :
    validateLabelsLoop mN mV last ls = none ↔
      (∀ l ∈ ls, IsValidLabelName l.Name = true ∧ goLen l.Name ≤ mN ∧ goLen l.Value ≤ mV) ∧
      List.Chain (· < ·) last (ls.map (fun l => l.Name)) := by
  induction ls generalizing last with
  | nil => simp [validateLabelsLoop]
  | cons l rest ih =>
    unfold validateLabelsLoop
    simp only [List.mem_cons, forall_eq_or_imp, List.map_cons, List.chain_cons]
    by_cases h1 : IsValidLabelName l.Name = true
    swap
    · simp [h1]
    by_cases h2 : goLen l.Name > mN
    · simp [h1, h2]
    by_cases h3 : goLen l.Value > mV
    · simp [h1, h2, h3]
    by_cases h4 : stringsCompare last l.Name ≥ 0
    · have h5 : ¬ last < l.Name := (stringsCompare_nonneg _ _).mp h4
      rw [if_neg (by simp [h1]), if_neg h2, if_neg h3, if_pos h4]
      constructor
      · intro h
        split at h <;> simp at h
      · intro h
        exact absurd h.2.1 h5
    · have h5 : last < l.Name := by
        by_contra hc
        exact h4 ((stringsCompare_nonneg _ _).mpr hc)
      rw [if_neg (by simp [h1]), if_neg h2, if_neg h3, if_neg h4, ih]
      constructor
      · rintro ⟨g1, g2⟩
        exact ⟨⟨⟨h1, by omega, by omega⟩, g1⟩, h5, g2⟩
      · rintro ⟨⟨_, g1⟩, _, g2⟩
        exact ⟨g1, g2⟩

theorem loop_code (mN mV : Int) (last : String) (ls : List LabelAdapter) (e : Rejection)
    (h : validateLabelsLoop mN mV last ls = some e) : e.code = 400 := by
  induction ls generalizing last with
  | nil => simp [validateLabelsLoop] at h
  | cons l rest ih =>
    unfold validateLabelsLoop at h
    split at h
    · simp only [Option.some.injEq] at h; rw [← h]; rfl
    · split at h
      · simp only [Option.some.injEq] at h; rw [← h]; rfl
      · split at h
        · simp only [Option.some.injEq] at h; rw [← h]; rfl
        · split at h
          · split at h
            · simp only [Option.some.injEq] at h; rw [← h]; rfl
            · simp only [Option.some.injEq] at h; rw [← h]; rfl
          · exact ih _ h

theorem metricName_some {ls : List LabelAdapter} {v : String}
    (h : MetricNameFromLabelAdapters ls = some v) :
    ∃ l ∈ ls, l.Name = MetricNameLabel ∧ l.Value = v := by
  induction ls with
  | nil => simp [MetricNameFromLabelAdapters] at h
  | cons l rest ih =>
    unfold MetricNameFromLabelAdapters at h
    split at h
    · rename_i hn
      simp only [Option.some.injEq] at h
      exact ⟨l, by simp, hn, h⟩
    · obtain ⟨l', hl', g⟩ := ih h
      exact ⟨l', List.mem_cons_of_mem _ hl', g⟩

theorem metricName_of_mem {ls : List LabelAdapter} {l : LabelAdapter}
    (hn : (ls.map (fun l => l.Name)).Nodup) (hl : l ∈ ls) (hname : l.Name = MetricNameLabel) :
    MetricNameFromLabelAdapters ls = some l.Value := by
  induction ls with
  | nil => simp at hl
  | cons x rest ih =>
    simp only [List.map_cons, List.nodup_cons] at hn
    unfold MetricNameFromLabelAdapters
    rcases List.mem_cons.mp hl with rfl | hl'
    · rw [if_pos hname]
    · have hx : x.Name ≠ MetricNameLabel := by
        intro hx
        apply hn.1
        rw [hx, ← hname]
        exact List.mem_map_of_mem _ hl'
      rw [if_neg hx]
      exact ih hn.2 hl'

theorem chain_empty_iff {ls : List LabelAdapter}
    (hv : ∀ l ∈ ls, IsValidLabelName l.Name = true) :
    List.Chain (· < ·) "" (ls.map (fun l => l.Name)) ↔
      (ls.map (fun l => l.Name)).Chain' (· < ·) := by
  cases ls with
  | nil => simp
  | cons l rest =>
    have : "" < l.Name := (empty_lt_iff _).mpr (isValidLabelName_ne_empty (hv l (by simp)))
    simp only [List.map_cons]
    constructor
    · intro h
      exact (List.chain_cons.mp h).2
    · intro h
      exact List.Chain.cons this h

theorem nodup_of_chain' {names : List String} (h : names.Chain' (· < ·)) : names.Nodup := by
  have hp : names.Pairwise (· < ·) := List.chain'_iff_pairwise.mp h
  exact hp.imp (fun hab => ne_of_lt hab)

theorem rest_none_iff (cfg : LabelValidationConfig) (userID : String)
    (ls : List LabelAdapter) :
    validateLabelsRest cfg userID ls = none ↔
      (ls.length : Int) ≤ cfg.MaxLabelNamesPerSeries userID ∧
      (∀ l ∈ ls, IsValidLabelName l.Name = true ∧
        goLen l.Name ≤ cfg.MaxLabelNameLength userID) ∧
      (∀ l ∈ ls, goLen l.Value ≤ cfg.MaxLabelValueLength userID) ∧
      (ls.map (fun l => l.Name)).Chain' (· < ·) := by
  unfold validateLabelsRest
  by_cases hlen : (ls.length : Int) > cfg.MaxLabelNamesPerSeries userID
  · rw [if_pos hlen]
    constructor
    · intro h; exact absurd h (by simp)
    · intro h; omega
  · rw [if_neg hlen, loop_none_iff]
    constructor
    · rintro ⟨g1, g2⟩
      refine ⟨by omega, fun l hl => ⟨(g1 l hl).1, (g1 l hl).2.1⟩, fun l hl => (g1 l hl).2.2, ?_⟩
      exact (chain_empty_iff (fun l hl => (g1 l hl).1)).mp g2
    · rintro ⟨_, g1, g2, g3⟩
      exact ⟨fun l hl => ⟨(g1 l hl).1, (g1 l hl).2, g2 l hl⟩,
        (chain_empty_iff (fun l hl => (g1 l hl).1)).mpr g3⟩

theorem rest_code (cfg : LabelValidationConfig) (userID : String) (ls : List LabelAdapter)
    (e : Rejection) (h : validateLabelsRest cfg userID ls = some e) : e.code = 400 := by
  unfold validateLabelsRest at h
  split at h
  · simp only [Option.some.injEq] at h; rw [← h]; rfl
  · exact loop_code _ _ _ _ _ h

/-- C16 (`ValidateLabels`): the result is nil iff (a) when `EnforceMetricName` is set, `ls`
has a label named `__name__` whose value is a valid metric name, (b) `len(ls)` is at most
`MaxLabelNamesPerSeries`, (c) every label name is valid and at most `MaxLabelNameLength`
bytes long, (d) every label value is at most `MaxLabelValueLength` bytes long and (e) the
label names are strictly increasing; every error returned is an HTTP 400. -/
theorem validateLabels_spec (cfg : LabelValidationConfig) (userID : String)
    (ls : List LabelAdapter) :
    (ValidateLabels cfg userID ls = none ↔
      (cfg.EnforceMetricName userID = true →
        ∃ l ∈ ls, l.Name = MetricNameLabel ∧ IsValidMetricName l.Value = true) ∧
      (ls.length : Int) ≤ cfg.MaxLabelNamesPerSeries userID ∧
      (∀ l ∈ ls, IsValidLabelName l.Name = true ∧
        goLen l.Name ≤ cfg.MaxLabelNameLength userID) ∧
      (∀ l ∈ ls, goLen l.Value ≤ cfg.MaxLabelValueLength userID) ∧
      (ls.map (fun l => l.Name)).Chain' (· < ·)) ∧
    (∀ e, ValidateLabels cfg userID ls = some e → e.code = StatusBadRequest) := by
  constructor
  · unfold ValidateLabels
    by_cases henf : cfg.EnforceMetricName userID = true
    · rw [if_pos henf]
      cases hm : MetricNameFromLabelAdapters ls with
      | none =>
        simp only []
        constructor
        · intro h; exact absurd h (by simp)
        · rintro ⟨ha, _, _, _, he⟩
          obtain ⟨l, hl, hn, _⟩ := ha henf
          have := metricName_of_mem (nodup_of_chain' he) hl hn
          rw [hm] at this
          exact absurd this (by simp)
      | some v =>
        simp only []
        by_cases hv : IsValidMetricName v = true
        · rw [if_neg (by simp [hv]), rest_none_iff]
          constructor
          · intro h
            obtain ⟨l, hl, hn, hval⟩ := metricName_some hm
            exact ⟨fun _ => ⟨l, hl, hn, by rw [hval]; exact hv⟩, h⟩
          · intro h
            exact h.2
        · rw [if_pos (by simp [hv])]
          constructor
          · intro h; exact absurd h (by simp)
          · rintro ⟨ha, _, _, _, he⟩
            obtain ⟨l, hl, hn, hval⟩ := ha henf
            have := metricName_of_mem (nodup_of_chain' he) hl hn
            rw [hm] at this
            simp only [Option.some.injEq] at this
            rw [this] at hv
            exact absurd hval hv
    · rw [if_neg henf, rest_none_iff]
      constructor
      · intro h
        exact ⟨fun h' => absurd h' henf, h⟩
      · intro h
        exact h.2
  · intro e h
    unfold ValidateLabels at h
    split at h
    · split at h
      · simp only [Option.some.injEq] at h; rw [← h]
      · split at h
        · simp only [Option.some.injEq] at h; rw [← h]
        · exact rest_code _ _ _ _ h
    · exact rest_code _ _ _ _ h

theorem tdiv_million (d : Int) (h : 0 ≤ d ∨ d % 1000000 = 0) :
    d.tdiv 1000000 = d / 1000000 := by
  rcases h with h | h
  · exact Int.tdiv_eq_ediv h (by decide)
  · exact Int.tdiv_eq_ediv_of_dvd (Int.dvd_of_emod_eq_zero h)

theorem validateSample_cases (cfg : SampleValidationConfig) (now₁ now₂ : Int)
    (userID metricName : String) (s : Sample) (old new : Int)
    (hold : timeAdd now₁ (wrapInt64 (-(cfg.RejectOldSamplesMaxAge userID))) = old)
    (hnew : timeAdd now₂ (cfg.CreationGracePeriod userID) = new) :
    (ValidateSample cfg now₁ now₂ userID metricName s =
        some ⟨Reason.greaterThanMaxSampleAge, StatusBadRequest, Format.errTooOld⟩ ↔
      cfg.RejectOldSamples userID = true ∧ s.TimestampMs < old) ∧
    (ValidateSample cfg now₁ now₂ userID metricName s =
        some ⟨Reason.tooFarInFuture, StatusBadRequest, Format.errTooNew⟩ ↔
      ¬ (cfg.RejectOldSamples userID = true ∧ s.TimestampMs < old) ∧
      s.TimestampMs > new) ∧
    (ValidateSample cfg now₁ now₂ userID metricName s = none ↔
      ¬ (cfg.RejectOldSamples userID = true ∧ s.TimestampMs < old) ∧
      ¬ (s.TimestampMs > new)) ∧
    (∀ e, ValidateSample cfg now₁ now₂ userID metricName s = some e →
      e.code = StatusBadRequest) := by
  unfold ValidateSample
  rw [hold, hnew]
  by_cases h1 : cfg.RejectOldSamples userID = true ∧ s.TimestampMs < old
  · rw [if_pos h1]
    refine ⟨by simp [h1], ?_, ?_, ?_⟩
    · simp [h1]
    · simp [h1]
    · intro e h
      simp only [Option.some.injEq] at h
      rw [← h]
  · rw [if_neg h1]
    by_cases h2 : s.TimestampMs > new
    · rw [if_pos h2]
      refine ⟨?_, ?_, ?_, ?_⟩
      · simp [h1]
      · simp [h1, h2]
      · simp [h2]
      · intro e h
        simp only [Option.some.injEq] at h
        rw [← h]
    · rw [if_neg h2]
      refine ⟨?_, ?_, ?_, ?_⟩
      · simp [h1]
      · simp [h2]
      · simp [h1, h2]
      · intro e h
        exact absurd h (by simp)

/-- C17, counterexample: with a maximum age of -1ns a sample at `now` is accepted although
`t < now - RejectOldSamplesMaxAge` holds, and with a grace period of -1.5ms a sample one
millisecond before `now` is accepted although `t > now + CreationGracePeriod` holds:
`Time.Add` drops the fraction of a millisecond of the duration, toward zero. -/
theorem validateSample_fraction_counterexample :
    exNegativeAge.RejectOldSamples "user" = true ∧
    (1600000000000 : Int) * 1000000 <
      1600000000000 * 1000000 - exNegativeAge.RejectOldSamplesMaxAge "user" ∧
    ValidateSample exNegativeAge 1600000000000 1600000000000 "user" "metric"
      ⟨1600000000000⟩ = none ∧
    exNegativeGrace.RejectOldSamples "user" = false ∧
    ((1600000000000 : Int) - 1) * 1000000 >
      1600000000000 * 1000000 + exNegativeGrace.CreationGracePeriod "user" ∧
    ValidateSample exNegativeGrace 1600000000000 1600000000000 "user" "metric"
      ⟨1600000000000 - 1⟩ = none := by
  decide

/-- C17 (`ValidateSample`), amended: the bounds are taken in milliseconds, each duration
divided by one millisecond rounding toward zero. With `now₁`, `now₂` the clock readings
of the two checks, the result is the too-old error iff `RejectOldSamples` is set and
`t < now₁ + trunc(-RejectOldSamplesMaxAge / 1ms)`; otherwise it is the too-new error iff
`t > now₂ + trunc(CreationGracePeriod / 1ms)`; otherwise it is nil. Both bounds are
strict, the too-old check comes first, and every error is an HTTP 400. For a duration
that is non-negative or a whole number of milliseconds the bound is exactly
`t < now₁ - RejectOldSamplesMaxAge`, respectively `t > now₂ + CreationGracePeriod`. -/
theorem validateSample_spec (cfg : SampleValidationConfig) (now₁ now₂ : Int)
    (userID metricName : String) (s : Sample)
    (hnow₁ : -9223372036854 ≤ now₁ ∧ now₁ ≤ 9223372036854)
    (hnow₂ : -9223372036854 ≤ now₂ ∧ now₂ ≤ 9223372036854)
    (hage : -9223372036854775808 < cfg.RejectOldSamplesMaxAge userID ∧
      cfg.RejectOldSamplesMaxAge userID < 9223372036854775808)
    (hgrace : -9223372036854775808 ≤ cfg.CreationGracePeriod userID ∧
      cfg.CreationGracePeriod userID < 9223372036854775808) :
    (ValidateSample cfg now₁ now₂ userID metricName s =
        some ⟨Reason.greaterThanMaxSampleAge, StatusBadRequest, Format.errTooOld⟩ ↔
      cfg.RejectOldSamples userID = true ∧
      s.TimestampMs < now₁ + (-(cfg.RejectOldSamplesMaxAge userID)).tdiv 1000000) ∧
    (ValidateSample cfg now₁ now₂ userID metricName s =
        some ⟨Reason.tooFarInFuture, StatusBadRequest, Format.errTooNew⟩ ↔
      ¬ (cfg.RejectOldSamples userID = true ∧
        s.TimestampMs < now₁ + (-(cfg.RejectOldSamplesMaxAge userID)).tdiv 1000000) ∧
      s.TimestampMs > now₂ + (cfg.CreationGracePeriod userID).tdiv 1000000) ∧
    (ValidateSample cfg now₁ now₂ userID metricName s = none ↔
      ¬ (cfg.RejectOldSamples userID = true ∧
        s.TimestampMs < now₁ + (-(cfg.RejectOldSamplesMaxAge userID)).tdiv 1000000) ∧
      ¬ (s.TimestampMs > now₂ + (cfg.CreationGracePeriod userID).tdiv 1000000)) ∧
    (∀ e, ValidateSample cfg now₁ now₂ userID metricName s = some e →
      e.code = StatusBadRequest) ∧
    ((0 ≤ cfg.RejectOldSamplesMaxAge userID ∨
        cfg.RejectOldSamplesMaxAge userID % 1000000 = 0) →
      (s.TimestampMs < now₁ + (-(cfg.RejectOldSamplesMaxAge userID)).tdiv 1000000 ↔
        s.TimestampMs * 1000000 < now₁ * 1000000 - cfg.RejectOldSamplesMaxAge userID)) ∧
    ((0 ≤ cfg.CreationGracePeriod userID ∨ cfg.CreationGracePeriod userID % 1000000 = 0) →
      (s.TimestampMs > now₂ + (cfg.CreationGracePeriod userID).tdiv 1000000 ↔
        s.TimestampMs * 1000000 > now₂ * 1000000 + cfg.CreationGracePeriod userID)) := by
  have hq1 : ∀ d : Int, -9223372036854775808 ≤ d → d < 9223372036854775808 →
      -9223372036854 ≤ d.tdiv 1000000 ∧ d.tdiv 1000000 ≤ 9223372036854 := by
    intro d h1 h2
    rcases le_or_lt 0 d with hd | hd
    · rw [Int.tdiv_eq_ediv hd (by decide)]
      omega
    · have : d.tdiv 1000000 = -((-d) / 1000000) := by
        rw [← Int.tdiv_eq_ediv (by omega) (by decide), Int.neg_tdiv, neg_neg]
      rw [this]
      omega
  have hold : timeAdd now₁ (wrapInt64 (-(cfg.RejectOldSamplesMaxAge userID))) =
      now₁ + (-(cfg.RejectOldSamplesMaxAge userID)).tdiv 1000000 := by
    have hw : wrapInt64 (-(cfg.RejectOldSamplesMaxAge userID)) =
        -(cfg.RejectOldSamplesMaxAge userID) := by
      unfold wrapInt64; omega
    rw [hw]
    have := hq1 (-(cfg.RejectOldSamplesMaxAge userID)) (by omega) (by omega)
    unfold timeAdd wrapInt64
    omega
  have hnew : timeAdd now₂ (cfg.CreationGracePeriod userID) =
      now₂ + (cfg.CreationGracePeriod userID).tdiv 1000000 := by
    have := hq1 (cfg.CreationGracePeriod userID) hgrace.1 hgrace.2
    unfold timeAdd wrapInt64
    omega
  obtain ⟨c1, c2, c3, c4⟩ :=
    validateSample_cases cfg now₁ now₂ userID metricName s _ _ hold hnew
  refine ⟨c1, c2, c3, c4, ?_, ?_⟩
  · intro hage'
    rw [Int.neg_tdiv, tdiv_million _ hage']
    omega
  · intro hgrace'
    rw [tdiv_million _ hgrace']
    omega

/-- A sample exactly one hour old is accepted by `exSampleConfig`. -/
theorem validateSample_spec_witness :
    ValidateSample exSampleConfig 1600000000000 1600000000000 "user" "metric"
      ⟨1600000000000 - 3600000⟩ = none :=
  ((validateSample_spec exSampleConfig 1600000000000 1600000000000 "user" "metric"
    ⟨1600000000000 - 3600000⟩ (by decide) (by decide) (by decide) (by decide)).2.2.1).mpr
    (by decide)

theorem formatLabelSetLoop_has (quote : String → String) (ls : List LabelAdapter)
    (metricName : String) (labelStrings : List String) :
    formatLabelSetLoop quote ls metricName true labelStrings =
      (metricName, true, labelStrings ++ ls.map (labelString quote)) := by
  induction ls generalizing labelStrings with
  | nil => simp [formatLabelSetLoop]
  | cons l rest ih =>
    rw [formatLabelSetLoop, if_neg (by simp), ih]
    simp

theorem formatLabelSetLoop_eq (quote : String → String) (ls : List LabelAdapter)
    (metricName : String) (labelStrings : List String) :
    formatLabelSetLoop quote ls metricName false labelStrings =
      match ls.find? namedMetricNameWithValue with
      | some l => (l.Value, true,
          labelStrings ++ (ls.eraseP namedMetricNameWithValue).map (labelString quote))
      | none => (metricName, false, labelStrings ++ ls.map (labelString quote)) := by
  induction ls generalizing labelStrings with
  | nil => simp [formatLabelSetLoop]
  | cons l rest ih =>
    rw [formatLabelSetLoop]
    by_cases h : l.Name = MetricNameLabel ∧ l.Value ≠ ""
    · have hn : namedMetricNameWithValue l = true := by
        simp [namedMetricNameWithValue, h]
      rw [if_pos ⟨h.1, rfl, h.2⟩, formatLabelSetLoop_has]
      simp [List.find?_cons, List.eraseP_cons, hn]
    · have hn : namedMetricNameWithValue l = false := by
        simp only [namedMetricNameWithValue, decide_eq_false_iff_not]
        exact h
      rw [if_neg (fun hc => h ⟨hc.1, hc.2.2⟩), ih]
      simp only [List.find?_cons, List.eraseP_cons, hn]
      cases rest.find? namedMetricNameWithValue <;> simp

/-- C22, failing input: of two labels named `__name__` the first has an empty value; the
second one gives the metric name and the first is rendered as an entry, although by the
comment of the function the first one is the metric name. -/
theorem formatLabelSet_names_counterexample :
    formatLabelSet exQuote exTwoNames = "m\x7b__name__=\"\", a=\"b\"\x7d" ∧
    renderLabelSet namedMetricName exQuote exTwoNames = "\x7b__name__=\"m\", a=\"b\"\x7d" ∧
    formatLabelSet exQuote exTwoNames ≠ renderLabelSet namedMetricName exQuote exTwoNames := by
  decide

/-- C22 (`formatLabelSet`), evaluated on the code: not the first label named `__name__`
but the first one with a value that is not empty gives the metric name; every other label, a `__name__` label with an empty
value or after the first one included, is rendered as a `name="value"` entry, in the
original order and with duplicates kept. The output is the metric name alone when there
is no other label, the braces alone for an empty list, and else the metric name, empty
if there is none, followed by the entries in braces. -/
theorem formatLabelSet_spec (quote : String → String) (ls : List LabelAdapter) :
    formatLabelSet quote ls = renderLabelSet namedMetricNameWithValue quote ls := by
  unfold formatLabelSet renderLabelSet
  rw [formatLabelSetLoop_eq]
  cases hf : ls.find? namedMetricNameWithValue with
  | some l =>
    simp only [List.nil_append, List.length_map, List.length_eq_zero, if_true]
  | none =>
    simp only [List.nil_append, List.length_map, List.length_eq_zero]
    split
    · simp
    · simp

end Validation

namespace Util

theorem mapGet_ne_none_iff (mp : MetricFamilyMap) (hv : ∀ p ∈ mp, p.2 ≠ none)
    (name : String) : mapGet mp name ≠ none ↔ name ∈ mp.map Prod.fst := by
  induction mp with
  | nil => simp [mapGet]
  | cons p rest ih =>
    obtain ⟨k, v⟩ := p
    unfold mapGet
    by_cases h : k = name
    · subst h
      rw [if_pos rfl]
      have := hv (k, v) (by simp)
      simp only [List.map_cons, List.mem_cons, true_or, iff_true]
      exact this
    · rw [if_neg h, ih (fun p hp => hv p (List.mem_cons_of_mem _ hp))]
      simp only [List.map_cons, List.mem_cons]
      constructor
      · intro h'; exact Or.inr h'
      · rintro (h' | h')
        · exact absurd h'.symm h
        · exact h'

theorem mapSet_fresh (mp : MetricFamilyMap) (name : String) (m : Option MetricFamily)
    (h : name ∉ mp.map Prod.fst) : mapSet mp name m = mp ++ [(name, m)] := by
  induction mp with
  | nil => rfl
  | cons p rest ih =>
    obtain ⟨k, v⟩ := p
    simp only [List.map_cons, List.mem_cons, not_or] at h
    unfold mapSet
    rw [if_neg (fun hk => h.1 hk.symm), ih h.2]
    rfl

theorem mapGet_of_mem (mp : MetricFamilyMap) (hn : (mp.map Prod.fst).Nodup)
    (k : String) (v : Option MetricFamily) (h : (k, v) ∈ mp) : mapGet mp k = v := by
  induction mp with
  | nil => simp at h
  | cons p rest ih =>
    obtain ⟨k', v'⟩ := p
    simp only [List.map_cons, List.nodup_cons] at hn
    unfold mapGet
    rcases List.mem_cons.mp h with h' | h'
    · simp only [Prod.mk.injEq] at h'
      rw [if_pos h'.1.symm, h'.2]
    · have : k' ≠ k := by
        intro hk
        apply hn.1
        rw [hk]
        exact List.mem_map_of_mem Prod.fst h'
      rw [if_neg this]
      exact ih hn.2 h'

theorem newMetricFamilyMapLoop_ok_iff (acc : MetricFamilyMap) (hv : ∀ p ∈ acc, p.2 ≠ none)
    (hn : (acc.map Prod.fst).Nodup)
    (rest : List (Option MetricFamily)) (mp : MetricFamilyMap) :
    newMetricFamilyMapLoop acc rest = .ok mp ↔
      (∀ m ∈ rest, GetName m ≠ "") ∧ (acc.map Prod.fst ++ rest.map GetName).Nodup ∧
      mp = acc ++ rest.map (fun m => (GetName m, m)) := by
  induction rest generalizing acc with
  | nil =>
    simp only [newMetricFamilyMapLoop, List.map_nil, List.append_nil, List.not_mem_nil,
      false_imp_iff, implies_true, true_and, Except.ok.injEq]
    constructor
    · intro h; exact ⟨hn, h.symm⟩
    · intro h; exact h.2.symm
  | cons m rest ih =>
    unfold newMetricFamilyMapLoop
    by_cases h1 : GetName m = ""
    · rw [if_pos h1]
      constructor
      · intro h; exact absurd h (by simp)
      · rintro ⟨h, _, _⟩
        exact absurd h1 (h m (by simp))
    · rw [if_neg h1]
      by_cases h2 : mapGet acc (GetName m) ≠ none
      · rw [if_pos h2]
        constructor
        · intro h; exact absurd h (by simp)
        · rintro ⟨_, h, _⟩
          have hmem := (mapGet_ne_none_iff acc hv _).mp h2
          rw [List.nodup_append] at h
          exact absurd (List.mem_cons_self _ _) (h.2.2 hmem)
      · rw [if_neg h2]
        have hfresh : GetName m ∉ acc.map Prod.fst := by
          intro hmem
          exact h2 ((mapGet_ne_none_iff acc hv _).mpr hmem)
        have hm : m ≠ none := by
          intro hm
          apply h1
          rw [hm]
          rfl
        rw [mapSet_fresh _ _ _ hfresh, ih]
        · simp only [List.map_append, List.map_cons, List.map_nil, List.append_assoc,
            List.singleton_append, List.mem_cons, forall_eq_or_imp]
          constructor
          · rintro ⟨g1, g2, g3⟩
            exact ⟨⟨h1, g1⟩, g2, g3⟩
          · rintro ⟨⟨_, g1⟩, g2, g3⟩
            exact ⟨g1, g2, g3⟩
        · intro p hp
          rcases List.mem_append.mp hp with hp | hp
          · exact hv p hp
          · simp only [List.mem_singleton] at hp
            rw [hp]
            exact hm
        · rw [List.map_append, List.nodup_append]
          refine ⟨hn, by simp, ?_⟩
          intro a ha hb
          simp only [List.map_cons, List.map_nil, List.mem_singleton] at hb
          exact hfresh (hb ▸ ha)

/-- C18 (`NewMetricFamilyMap`): an error is returned iff some family has an empty name or
two families of the list have the same name; otherwise the map has one entry per family
of the list, keyed by the name of the family and holding it, hence `len(metrics)`
entries. -/
theorem newMetricFamilyMap_spec (metrics : List (Option MetricFamily)) :
    ((∃ e, NewMetricFamilyMap metrics = .error e) ↔
      (∃ m ∈ metrics, GetName m = "") ∨ ¬ (metrics.map GetName).Nodup) ∧
    (∀ mp, NewMetricFamilyMap metrics = .ok mp →
      mp = metrics.map (fun m => (GetName m, m)) ∧
      mp.length = metrics.length ∧
      (mp.map Prod.fst).Nodup ∧
      ∀ m ∈ metrics, mapGet mp (GetName m) = m) := by
  have key := newMetricFamilyMapLoop_ok_iff [] (by simp) (by simp) metrics
  simp only [List.map_nil, List.nil_append] at key
  have hok : ∀ mp, NewMetricFamilyMap metrics = .ok mp →
      mp = metrics.map (fun m => (GetName m, m)) ∧
      mp.length = metrics.length ∧
      (mp.map Prod.fst).Nodup ∧
      ∀ m ∈ metrics, mapGet mp (GetName m) = m := by
    intro mp h
    obtain ⟨_, g2, g3⟩ := (key mp).mp h
    have hkeys : mp.map Prod.fst = metrics.map GetName := by
      rw [g3, List.map_map]
      rfl
    refine ⟨g3, by rw [g3, List.length_map], by rw [hkeys]; exact g2, ?_⟩
    intro m hm
    apply mapGet_of_mem mp (by rw [hkeys]; exact g2)
    rw [g3]
    exact List.mem_map_of_mem _ hm
  refine ⟨?_, hok⟩
  constructor
  · rintro ⟨e, he⟩
    by_contra hcon
    simp only [not_or, not_exists, not_and, not_not] at hcon
    have := (key (metrics.map (fun m => (GetName m, m)))).mpr
      ⟨fun m hm => hcon.1 m hm, hcon.2, rfl⟩
    unfold NewMetricFamilyMap at he
    rw [this] at he
    exact absurd he (by simp)
  · intro h
    cases hr : NewMetricFamilyMap metrics with
    | error e => exact ⟨e, rfl⟩
    | ok mp =>
      exfalso
      obtain ⟨g1, g2, _⟩ := (key mp).mp hr
      rcases h with ⟨m, hm, hname⟩ | h
      · exact g1 m hm hname
      · exact h g2

end Util

namespace Aws

/-- C19 (`NewSSEParsedConfig`): with a `json.Marshal` that encodes every string map, an
error is returned iff the type is neither `SSE-S3` nor `SSE-KMS`, or it is `SSE-KMS` and
the key id is nil. With `SSE-S3` the result has `AES256` and neither key id nor context;
with `SSE-KMS` and a key id it has `aws:kms`, the given key id, and a context that is nil
iff the map is nil and otherwise the base64 of the JSON encoding of the map. -/
theorem newSSEParsedConfig_spec {ε : Type} (jsonMarshal : Tags → Except ε String)
    (base64Std : String → String) (sseType : String) (kmsKeyID : Option String)
    (kmsEncryptionContext : Option Tags)
    (hjson : ∀ ctx, ∃ js, jsonMarshal ctx = .ok js) :
    ((∃ e, NewSSEParsedConfig jsonMarshal base64Std sseType kmsKeyID kmsEncryptionContext
        = .error e) ↔
      (sseType ≠ "SSE-S3" ∧ sseType ≠ "SSE-KMS") ∨ (sseType = "SSE-KMS" ∧ kmsKeyID = none)) ∧
    (sseType = "SSE-S3" →
      NewSSEParsedConfig jsonMarshal base64Std sseType kmsKeyID kmsEncryptionContext
        = .ok ⟨"AES256", none, none⟩) ∧
    (sseType = "SSE-KMS" → ∀ k, kmsKeyID = some k →
      ∃ c, NewSSEParsedConfig jsonMarshal base64Std sseType kmsKeyID kmsEncryptionContext
          = .ok ⟨"aws:kms", some k, c⟩ ∧
        (c = none ↔ kmsEncryptionContext = none) ∧
        ∀ ctx, kmsEncryptionContext = some ctx →
          ∃ js, jsonMarshal ctx = .ok js ∧ c = some (base64Std js)) := by
  have hne : SSEKMS ≠ SSES3 := by decide
  refine ⟨?_, ?_, ?_⟩
  · unfold NewSSEParsedConfig
    by_cases h1 : sseType = SSES3
    · rw [if_pos h1]
      constructor
      · rintro ⟨e, he⟩; exact absurd he (by simp)
      · rintro (⟨h, _⟩ | ⟨h, _⟩)
        · exact absurd h1 h
        · rw [h1] at h; exact absurd h (by decide)
    · rw [if_neg h1]
      by_cases h2 : sseType = SSEKMS
      · rw [if_pos h2]
        cases kmsKeyID with
        | none =>
          constructor
          · intro _; exact Or.inr ⟨h2, rfl⟩
          · intro _; exact ⟨_, rfl⟩
        | some k =>
          constructor
          · rintro ⟨e, he⟩
            exfalso
            cases kmsEncryptionContext with
            | none => simp [parseKMSEncryptionContext] at he
            | some ctx =>
              obtain ⟨js, hjs⟩ := hjson ctx
              simp [parseKMSEncryptionContext, hjs] at he
          · rintro (⟨_, h⟩ | ⟨_, h⟩)
            · exact absurd h2 h
            · exact absurd h (by simp)
      · rw [if_neg h2]
        constructor
        · intro _; exact Or.inl ⟨h1, h2⟩
        · intro _; exact ⟨_, rfl⟩
  · intro h
    have h' : sseType = SSES3 := h
    unfold NewSSEParsedConfig
    rw [if_pos h']
    rfl
  · intro h k hk
    subst hk
    have h' : sseType = SSEKMS := h
    have h'' : ¬ sseType = SSES3 := by rw [h']; exact hne
    unfold NewSSEParsedConfig
    rw [if_neg h'', if_pos h']
    cases kmsEncryptionContext with
    | none =>
      refine ⟨none, rfl, by simp, ?_⟩
      intro ctx hctx
      exact absurd hctx (by simp)
    | some ctx =>
      obtain ⟨js, hjs⟩ := hjson ctx
      refine ⟨some (base64Std js), ?_, by simp, ?_⟩
      · simp only [parseKMSEncryptionContext, hjs]
        rfl
      · intro ctx' hctx'
        simp only [Option.some.injEq] at hctx'
        subst hctx'
        exact ⟨js, hjs, rfl⟩

theorem newSSEParsedConfig_spec_witness :
    NewSSEParsedConfig exJsonMarshal exBase64 "SSE-KMS" (some "key") (some [("a", "b")])
      = .ok ⟨"aws:kms", some "key", some "base64:\x7b\"a\":\"b\"\x7d"⟩ := by
  obtain ⟨c, h, _, hc⟩ := (newSSEParsedConfig_spec exJsonMarshal exBase64 "SSE-KMS"
    (some "key") (some [("a", "b")]) (fun ctx => ⟨_, rfl⟩)).2.2 rfl "key" rfl
  obtain ⟨js, hjs, hc⟩ := hc _ rfl
  rw [h, hc]
  have : js = "\x7b\"a\":\"b\"\x7d" := by
    have := hjs.symm
    simp only [exJsonMarshal, Except.ok.injEq] at this
    rw [this]
    decide
  rw [this]
  rfl

end Aws

namespace Objectclient

theorem stringsTrimPrefix_append (pre u : String) :
    stringsTrimPrefix (pre ++ u) pre = u := by
  unfold stringsTrimPrefix
  have h1 : (pre ++ u).toList = pre.toList ++ u.toList := by
    simp [String.toList]
  have h2 : pre.toList.isPrefixOf (pre.toList ++ u.toList) = true := by
    rw [List.isPrefixOf_iff_prefix]
    exact List.prefix_append _ _
  rw [h1, if_pos h2]
  have h3 : pre.length = pre.toList.length := rfl
  rw [h3, List.drop_left]
  rfl

theorem pathElements_plain (cs : List Char) (h : '/' ∉ cs) : pathElements cs = [cs] := by
  induction cs with
  | nil => rfl
  | cons c cs ih =>
    simp only [List.mem_cons, not_or] at h
    unfold pathElements
    rw [if_neg (fun hc => h.1 hc.symm), ih h.2]

theorem alertObjectKey_plain (u : String) (h1 : '/' ∉ u.toList) (h2 : u ≠ "")
    (h3 : u ≠ ".") (h4 : u ≠ "..") : alertObjectKey u = alertPrefix ++ u := by
  obtain ⟨cs⟩ := u
  have h2' : cs ≠ [] := fun h => h2 (by rw [h])
  have h3' : cs ≠ ['.'] := fun h => h3 (by rw [h])
  have h4' : cs ≠ ['.', '.'] := fun h => h4 (by rw [h])
  have hf : [alertPrefix, String.mk cs].filter (fun e => decide (e ≠ "")) =
      [alertPrefix, String.mk cs] := by
    rw [List.filter_eq_self]
    intro e he
    simp only [List.mem_cons, List.mem_singleton, List.not_mem_nil, or_false] at he
    rcases he with he | he
    · rw [he]; decide
    · rw [he]; simpa using h2
  have hj : String.intercalate "/" [alertPrefix, String.mk cs] =
      String.mk ("alerts//".toList ++ cs) := by
    simp only [String.intercalate, String.intercalate.go]
    rfl
  have hne : String.mk ("alerts//".toList ++ cs) ≠ "" := by
    intro h
    have := congrArg String.length h
    simp at this
  have he : pathElements ('a' :: 'l' :: 'e' :: 'r' :: 't' :: 's' :: '/' :: '/' :: cs) =
      [['a', 'l', 'e', 'r', 't', 's'], [], cs] := by
    have := pathElements_plain cs h1
    simp [pathElements, this]
  unfold alertObjectKey pathJoin
  rw [hf]
  simp only
  rw [hj]
  unfold pathClean
  rw [if_neg hne]
  simp [he, cleanElement, h2', h3', h4', String.intercalate, String.intercalate.go, alertPrefix]

/-- C20 (object alert store): the object name that the four operations address is the
cleaned path `path.Join("alerts/", u)`, not the concatenation: the user IDs `a` and `a/`
both address `alerts/a`, the empty user ID addresses `alerts`, and `../x` addresses `x`,
outside the prefix. For a user ID without a slash that is not empty, `.` or `..` the
name is `alerts/` followed by the user ID, and `ListAllUsers` maps the name `alerts/`
followed by `u` back to `u`. -/
theorem alertObjectKey_cleans :
    alertObjectKey "a" = "alerts/a" ∧
    alertObjectKey "a/" = "alerts/a" ∧
    alertObjectKey "a/" ≠ alertPrefix ++ "a/" ∧
    alertObjectKey "" = "alerts" ∧
    alertObjectKey "../x" = "x" ∧
    alertObjectKey "a/../b" = alertObjectKey "b" ∧
    (∀ u : String, '/' ∉ u.toList → u ≠ "" → u ≠ "." → u ≠ ".." →
      alertObjectKey u = alertPrefix ++ u) ∧
    (∀ (ε : Type) (u : String),
      ListAllUsers (Except.ok [alertPrefix ++ u] : Except ε (List String)) = .ok [u]) := by
  refine ⟨by decide, by decide, by decide, by decide, by decide, by decide,
    alertObjectKey_plain, ?_⟩
  intro ε u
  simp only [ListAllUsers, List.map_cons, List.map_nil, stringsTrimPrefix_append]

end Objectclient

namespace Distributor

theorem and_127 (v : Nat) : v &&& 0x7f = v % 128 :=
  Nat.and_pow_two_sub_one_eq_mod v 7

theorem lor_128 (a : Nat) (h : a < 128) : a ||| 0x80 = a + 128 := by
  have := Nat.mul_add_lt_is_or (i := 7) (b := a) h 1
  rw [Nat.lor_comm]
  simpa [Nat.add_comm] using this.symm

theorem lor_shift (acc c shift : Nat) (h : acc < 2 ^ shift) (hc : c * 2 ^ shift < 2 ^ 64) :
    acc ||| (c <<< shift) % 18446744073709551616 = acc + c * 2 ^ shift := by
  have hc' : c * 2 ^ shift < 18446744073709551616 := hc
  rw [Nat.shiftLeft_eq, Nat.mod_eq_of_lt hc', Nat.lor_comm, Nat.mul_comm c,
    ← Nat.mul_add_lt_is_or h c, Nat.add_comm]

theorem sovLoop_eq (x n : Nat) : sovLoop x n = n + (varint x).length := by
  induction x using Nat.strong_induction_on generalizing n with
  | _ x ih =>
    rw [sovLoop, varint, Nat.shiftRight_eq_div_pow]
    by_cases h : x ≥ 128
    · have h' : ¬ x / 2 ^ 7 = 0 := by omega
      rw [if_neg h', if_pos h, ih (x / 2 ^ 7) (by omega)]
      simp only [List.length_cons]
      have : x / 2 ^ 7 = x / 128 := rfl
      rw [this]
      omega
    · have h' : x / 2 ^ 7 = 0 := by omega
      rw [if_pos h', if_neg h]
      rfl

theorem sovHaTracker_eq (x : Nat) : sovHaTracker x = (varint x).length := by
  rw [sovHaTracker, sovLoop_eq, Nat.zero_add]

theorem store_append (pre suf : List Byte) (x b : Byte) :
    store (pre ++ x :: suf) pre.length b = some (pre ++ b :: suf) := by
  unfold store
  rw [if_pos (by simp)]
  simp

theorem varint_length_pos (v : Nat) : 0 < (varint v).length := by
  rw [varint]
  split <;> simp

theorem encodeVarintHaTracker_eq (v : Nat) (pre buf : List Byte)
    (h : (varint v).length ≤ buf.length) :
    encodeVarintHaTracker (pre ++ buf) pre.length v =
      some (pre ++ varint v ++ buf.drop (varint v).length,
        pre.length + (varint v).length) := by
  induction v using Nat.strong_induction_on generalizing pre buf with
  | _ v ih =>
    rw [encodeVarintHaTracker]
    rw [varint] at h ⊢
    by_cases hv : v ≥ 128
    · rw [if_pos hv] at h ⊢
      rw [if_pos hv]
      cases buf with
      | nil => simp at h
      | cons x buf =>
        simp only [List.length_cons, Nat.add_le_add_iff_right] at h
        rw [store_append]
        simp only
        have hb : v &&& 0x7f ||| 0x80 = v % 128 + 128 := by
          rw [and_127, lor_128 _ (by omega)]
        have hs : v >>> 7 = v / 128 := by rw [Nat.shiftRight_eq_div_pow]
        rw [hb, hs]
        have := ih (v / 128) (by omega) (pre ++ [uint8 (v % 128 + 128)]) buf h
        simp only [List.length_append, List.length_singleton, List.append_assoc,
          List.singleton_append] at this
        rw [this]
        simp only [List.length_cons, List.drop_succ_cons, List.cons_append, List.append_assoc]
        congr 2
        omega
    · rw [if_neg hv] at h ⊢
      rw [if_neg hv]
      cases buf with
      | nil => simp at h
      | cons x buf =>
        rw [store_append]
        simp

theorem varintLoop_varint (v : Nat) (shift acc iNdEx : Nat) (rest : List Byte)
    (hshift : shift < 64) (hacc : acc < 2 ^ shift) (hv : v * 2 ^ shift < 2 ^ 64) :
    varintLoop shift acc iNdEx (varint v ++ rest) =
      (acc + v * 2 ^ shift, iNdEx + (varint v).length, none) := by
  induction v using Nat.strong_induction_on generalizing shift acc iNdEx with
  | _ v ih =>
    rw [varint]
    have hpos : 0 < 2 ^ shift := Nat.two_pow_pos shift
    by_cases h : v ≥ 128
    · rw [if_pos h]
      rw [List.cons_append, varintLoop]
      rw [if_neg (by omega)]
      have hb : (uint8 (v % 128 + 128)).val = v % 128 + 128 := by
        simp only [uint8]
        omega
      simp only [hb]
      have h1 : (v % 128 + 128) &&& 0x7F = v % 128 := by
        rw [and_127]; omega
      rw [h1, if_neg (by omega)]
      have hle : v % 128 * 2 ^ shift ≤ v * 2 ^ shift :=
        Nat.mul_le_mul_right _ (Nat.mod_le _ _)
      rw [lor_shift _ _ _ hacc (by omega)]
      have hsplit : v * 2 ^ shift = v % 128 * 2 ^ shift + v / 128 * 2 ^ (shift + 7) := by
        rw [pow_add]
        have : v = v % 128 + 128 * (v / 128) := (Nat.mod_add_div v 128).symm
        conv_lhs => rw [this]
        ring
      have hs7 : shift + 7 < 64 := by
        by_contra hcon
        have : 2 ^ 64 ≤ 128 * 2 ^ shift := by
          have : (2:Nat) ^ 64 ≤ 2 ^ (shift + 7) := Nat.pow_le_pow_right (by decide) (by omega)
          rw [pow_add] at this
          omega
        have : 128 * 2 ^ shift ≤ v * 2 ^ shift := Nat.mul_le_mul_right _ h
        omega
      have hacc' : acc + v % 128 * 2 ^ shift < 2 ^ (shift + 7) := by
        rw [pow_add]
        have : v % 128 * 2 ^ shift ≤ 127 * 2 ^ shift :=
          Nat.mul_le_mul_right _ (by omega)
        omega
      rw [ih (v / 128) (by omega) (shift + 7) _ (iNdEx + 1) hs7 hacc' (by omega)]
      simp only [List.length_cons, Prod.mk.injEq, and_true]
      constructor
      · omega
      · omega
    · rw [if_neg h]
      rw [List.singleton_append, varintLoop]
      rw [if_neg (by omega)]
      have hb : (uint8 v).val = v := by
        simp only [uint8]
        omega
      simp only [hb]
      have h1 : v &&& 0x7F = v := by
        rw [and_127]; omega
      rw [h1, if_pos (by omega)]
      rw [lor_shift _ _ _ hacc hv]
      simp

theorem store_drop (pre suf : List Byte) (b : Byte) (h : 0 < suf.length) :
    store (pre ++ suf) pre.length b = some (pre ++ b :: suf.drop 1) := by
  cases suf with
  | nil => simp at h
  | cons x suf => rw [store_append]; rfl

theorem encodeVarintHaTracker_cons (v : Nat) (pre : List Byte) (b : Byte) (buf : List Byte)
    (h : (varint v).length ≤ buf.length) :
    encodeVarintHaTracker (pre ++ b :: buf) (pre.length + 1) v =
      some (pre ++ b :: (varint v ++ buf.drop (varint v).length),
        pre.length + 1 + (varint v).length) := by
  have := encodeVarintHaTracker_eq v (pre ++ [b]) buf h
  simpa only [List.length_append, List.length_singleton, List.append_assoc,
    List.singleton_append] using this

theorem copyAt_append (pre suf src : List Byte) (h : src.length ≤ suf.length) :
    copyAt (pre ++ suf) pre.length src =
      some (pre ++ src ++ suf.drop src.length, src.length) := by
  unfold copyAt
  rw [if_pos (by simp)]
  have hn : min ((pre ++ suf).length - pre.length) src.length = src.length := by
    simp only [List.length_append]
    omega
  simp only [hn, List.take_left', List.take_length, Option.some.injEq, Prod.mk.injEq, and_true]
  congr 1
  rw [List.drop_append_eq_append_drop]
  have : pre.drop (pre.length + src.length) = [] := by
    rw [List.drop_eq_nil_iff]; omega
  rw [this]
  simp

theorem wire_length (m : ReplicaDesc) (h : m.Replica.length < 2 ^ 64) :
    ReplicaDesc.Size (some m) = (wire m).length := by
  have hu : uint64 (m.Replica.length : Int) = m.Replica.length := by
    unfold uint64
    omega
  simp only [ReplicaDesc.Size, wire, sovHaTracker_eq, hu]
  by_cases h1 : m.Replica.length > 0 <;> by_cases h2 : m.ReceivedAt ≠ 0 <;>
    simp [h1, h2] <;> omega

theorem store_at (pre suf : List Byte) (b : Byte) {d : List Byte} {i : Nat} (hd : d = pre ++ suf)
    (hi : i = pre.length) (h : 0 < suf.length) :
    store d i b = some (pre ++ b :: suf.drop 1) := by
  rw [hd, hi]
  exact store_drop pre suf b h

theorem encode_at (pre suf : List Byte) (v : Nat) {d : List Byte} {i : Nat} (hd : d = pre ++ suf)
    (hi : i = pre.length) (h : (varint v).length ≤ suf.length) :
    encodeVarintHaTracker d i v =
      some (pre ++ varint v ++ suf.drop (varint v).length, pre.length + (varint v).length) := by
  rw [hd, hi]
  exact encodeVarintHaTracker_eq v pre suf h

theorem copy_at (pre suf src : List Byte) {d : List Byte} {i : Nat} (hd : d = pre ++ suf)
    (hi : i = pre.length) (h : src.length ≤ suf.length) :
    copyAt d i src = some (pre ++ src ++ suf.drop src.length, src.length) := by
  rw [hd, hi]
  exact copyAt_append pre suf src h

theorem marshalTo_eq (m : ReplicaDesc) (buf : List Byte) (hlen : m.Replica.length < 2 ^ 64)
    (h : (wire m).length ≤ buf.length) :
    m.MarshalTo buf = some (wire m ++ buf.drop (wire m).length, (wire m).length, none) := by
  have hu : uint64 (m.Replica.length : Int) = m.Replica.length := by
    unfold uint64
    omega
  unfold ReplicaDesc.MarshalTo
  simp only
  by_cases h1 : m.Replica.length > 0
  · rw [if_pos h1, hu]
    have hw1 : 1 + (varint m.Replica.length).length + m.Replica.length ≤ buf.length := by
      simp only [wire, if_pos h1, List.length_append, List.length_cons] at h
      omega
    rw [store_at [] buf 0xa]
    rotate_left
    · rfl
    · rfl
    · omega
    simp only
    rw [encode_at [0xa] (buf.drop 1) m.Replica.length]
    rotate_left
    · rfl
    · rfl
    · rw [List.length_drop]; omega
    simp only
    rw [copy_at ([0xa] ++ varint m.Replica.length)
      ((buf.drop 1).drop (varint m.Replica.length).length) m.Replica]
    rotate_left
    · rfl
    · simp; omega
    · simp only [List.length_drop]; omega
    simp only
    by_cases h2 : m.ReceivedAt ≠ 0
    · simp only [wire, if_pos h1, if_pos h2, List.length_append, List.length_cons] at h
      rw [if_pos h2]
      rw [store_at ([0xa] ++ varint m.Replica.length ++ m.Replica)
        (((buf.drop 1).drop (varint m.Replica.length).length).drop m.Replica.length) 0x10]
      rotate_left
      · rfl
      · simp; omega
      · simp only [List.length_drop]; omega
      simp only
      rw [encode_at ([0xa] ++ varint m.Replica.length ++ m.Replica ++ [0x10])
        ((((buf.drop 1).drop (varint m.Replica.length).length).drop m.Replica.length).drop 1)
        (uint64 m.ReceivedAt)]
      rotate_left
      · simp
      · simp; omega
      · simp only [List.length_drop]; omega
      refine congrArg some (Prod.ext ?_ (Prod.ext ?_ rfl))
      · simp only [wire, if_pos h1, if_pos h2, List.drop_drop, List.length_append,
          List.length_cons, List.append_assoc, List.singleton_append, List.cons_append,
          List.nil_append, List.cons.injEq, true_and, List.append_cancel_left_eq]
        exact congrArg (fun n => List.drop n buf) (by omega)
      · simp only [wire, if_pos h1, if_pos h2, List.length_append, List.length_cons,
          List.length_singleton, List.length_nil]
        omega
    · rw [if_neg h2]
      refine congrArg some (Prod.ext ?_ (Prod.ext ?_ rfl))
      · simp only [wire, if_pos h1, if_neg h2, List.drop_drop, List.length_append,
          List.length_cons, List.append_assoc, List.singleton_append, List.cons_append,
          List.nil_append, List.cons.injEq, true_and, List.append_cancel_left_eq,
          List.append_nil]
        exact congrArg (fun n => List.drop n buf) (by omega)
      · simp only [wire, if_pos h1, if_neg h2, List.length_append, List.length_cons,
          List.length_singleton, List.length_nil, List.append_nil]
        omega
  · rw [if_neg h1]
    simp only
    by_cases h2 : m.ReceivedAt ≠ 0
    · simp only [wire, if_neg h1, if_pos h2, List.nil_append, List.length_cons] at h
      rw [if_pos h2]
      rw [store_at [] buf 0x10]
      rotate_left
      · rfl
      · rfl
      · omega
      simp only
      rw [encode_at [0x10] (buf.drop 1) (uint64 m.ReceivedAt)]
      rotate_left
      · rfl
      · rfl
      · rw [List.length_drop]; omega
      refine congrArg some (Prod.ext ?_ (Prod.ext ?_ rfl))
      · simp only [wire, if_neg h1, if_pos h2, List.drop_drop, List.length_append,
          List.length_cons, List.append_assoc, List.singleton_append, List.cons_append,
          List.nil_append, List.cons.injEq, true_and, List.append_cancel_left_eq]
        exact congrArg (fun n => List.drop n buf) (by omega)
      · simp only [wire, if_neg h1, if_pos h2, List.length_append, List.length_cons,
          List.length_singleton, List.length_nil, List.nil_append]
        omega
    · rw [if_neg h2]
      simp [wire, h1, h2]

theorem marshal_eq (m : ReplicaDesc) (hlen : m.Replica.length < 2 ^ 64) :
    m.Marshal = some (wire m, none) := by
  unfold ReplicaDesc.Marshal
  simp only
  rw [wire_length m hlen, marshalTo_eq m _ hlen (by simp)]
  simp

theorem int64_of_nat (n : Nat) (h : n < 2 ^ 63) : int64 (n : Int) = n := by
  unfold int64
  split <;> omega

theorem int64_uint64 (x : Int) (h1 : -2 ^ 63 ≤ x) (h2 : x < 2 ^ 63) :
    int64 (uint64 x : Int) = x := by
  unfold int64 uint64
  rw [Int.toNat_of_nonneg (by omega)]
  split <;> omega

theorem uint64_lt (x : Int) : uint64 x < 2 ^ 64 := by
  unfold uint64
  omega

theorem varintLoop_tag (b : Byte) (i : Nat) (rest : List Byte) (hb : b.val < 128) :
    varintLoop 0 0 i (b :: rest) = (b.val, i + 1, none) := by
  rw [varintLoop]
  rw [if_neg (by omega)]
  simp only
  rw [if_pos (by omega : b.val < 0x80)]
  have h1 : b.val &&& 0x7F = b.val := by
    rw [and_127]; omega
  rw [h1, lor_shift 0 b.val 0 (by decide) (by omega)]
  simp

theorem unmarshalLoop_replica (dAtA pre rep suf : List Byte) (fuel : Nat) (m : ReplicaDesc)
    (hd : dAtA = pre ++ ((0xa : Byte) :: varint rep.length ++ rep) ++ suf)
    (hsz : dAtA.length < 2 ^ 63) :
    unmarshalLoop dAtA (fuel + 1) m pre.length =
      unmarshalLoop dAtA fuel { m with Replica := rep }
        (pre.length + (1 + (varint rep.length).length + rep.length)) := by
  have hl : dAtA.length =
      pre.length + (1 + (varint rep.length).length + rep.length) + suf.length := by
    rw [hd]
    simp only [List.length_append, List.length_cons]
    omega
  have hdrop : dAtA.drop pre.length =
      (0xa : Byte) :: (varint rep.length ++ (rep ++ suf)) := by
    rw [hd]
    simp
  have hdrop1 : dAtA.drop (pre.length + 1) = varint rep.length ++ (rep ++ suf) := by
    rw [← List.drop_drop, hdrop]
    rfl
  rw [unmarshalLoop]
  simp only
  rw [if_pos (by omega), hdrop, varintLoop_tag _ _ _ (by decide)]
  simp only
  have ht : ((0xa : Byte) : Nat) = 10 := rfl
  have hw : (10 : Nat) &&& 7 = 2 := by decide
  have hf : int32 (10 >>> 3) = 1 := by decide
  rw [ht, hw, hf]
  rw [if_neg (by decide), if_neg (by decide), if_pos rfl, if_neg (by decide)]
  rw [hdrop1, varintLoop_varint _ _ _ _ _ (by decide) (by decide) (by omega)]
  simp only [Nat.zero_add, pow_zero, Nat.mul_one]
  have hlen : rep.length < 2 ^ 63 := by omega
  rw [int64_of_nat _ hlen]
  have hpost : ((pre.length + 1 + (varint rep.length).length : Nat) : Int) + (rep.length : Int)
      = ((pre.length + (1 + (varint rep.length).length + rep.length) : Nat) : Int) := by
    push_cast
    ring
  rw [hpost, int64_of_nat _ (by omega)]
  rw [if_neg (by omega), if_neg (by omega), if_neg (by omega)]
  simp only [Int.toNat_ofNat]
  congr 2
  rw [List.drop_take, ← Nat.add_assoc, ← List.drop_drop, hdrop1, List.drop_left]
  have : pre.length + (1 + (varint rep.length).length) + rep.length -
      (pre.length + 1 + (varint rep.length).length) = rep.length := by omega
  rw [this, List.take_left]

theorem unmarshalLoop_receivedAt (dAtA pre suf : List Byte) (v fuel : Nat) (m : ReplicaDesc)
    (hd : dAtA = pre ++ ((0x10 : Byte) :: varint v) ++ suf) (hv : v < 2 ^ 64) :
    unmarshalLoop dAtA (fuel + 1) m pre.length =
      unmarshalLoop dAtA fuel { m with ReceivedAt := int64 v }
        (pre.length + (1 + (varint v).length)) := by
  have hl : dAtA.length = pre.length + (1 + (varint v).length) + suf.length := by
    rw [hd]
    simp only [List.length_append, List.length_cons]
    omega
  have hdrop : dAtA.drop pre.length = (0x10 : Byte) :: (varint v ++ suf) := by
    rw [hd]
    simp
  have hdrop1 : dAtA.drop (pre.length + 1) = varint v ++ suf := by
    rw [← List.drop_drop, hdrop]
    rfl
  rw [unmarshalLoop]
  simp only
  rw [if_pos (by omega), hdrop, varintLoop_tag _ _ _ (by decide)]
  simp only
  have ht : ((0x10 : Byte) : Nat) = 16 := rfl
  have hw : (16 : Nat) &&& 7 = 0 := by decide
  have hf : int32 (16 >>> 3) = 2 := by decide
  rw [ht, hw, hf]
  rw [if_neg (by decide), if_neg (by decide), if_neg (by decide), if_pos rfl,
    if_neg (by decide)]
  rw [hdrop1, varintLoop_varint _ _ _ _ _ (by decide) (by decide) (by omega)]
  simp only [Nat.zero_add, pow_zero, Nat.mul_one]
  congr 1
  omega

theorem unmarshalLoop_end (dAtA : List Byte) (fuel : Nat) (m : ReplicaDesc) :
    unmarshalLoop dAtA (fuel + 1) m dAtA.length = Run.ret (m, none) := by
  rw [unmarshalLoop]
  simp

/-- The wire form of a message is read back as the message: the fields that are not
written keep the values of the empty message. -/
theorem unmarshal_wire (m : ReplicaDesc) (hsize : (wire m).length < 2 ^ 63)
    (h1 : -2 ^ 63 ≤ m.ReceivedAt) (h2 : m.ReceivedAt < 2 ^ 63) :
    ReplicaDesc.Unmarshal ⟨[], 0⟩ (wire m) = Run.ret (m, none) := by
  unfold ReplicaDesc.Unmarshal
  obtain ⟨rep, recv⟩ := m
  simp only at h1 h2
  have hp1 := varint_length_pos rep.length
  have hp2 := varint_length_pos (uint64 recv)
  by_cases hr : rep.length > 0 <;> by_cases ht : recv ≠ 0
  · have hw : wire ⟨rep, recv⟩ =
        [] ++ ((0xa : Byte) :: varint rep.length ++ rep) ++
          ((0x10 : Byte) :: varint (uint64 recv)) := by
      simp [wire, hr, ht]
    have hw' : wire ⟨rep, recv⟩ =
        ((0xa : Byte) :: varint rep.length ++ rep) ++
          ((0x10 : Byte) :: varint (uint64 recv)) ++ [] := by
      simp [wire, hr, ht]
    have hlen : (wire ⟨rep, recv⟩).length =
        (1 + (varint rep.length).length + rep.length) +
          (1 + (varint (uint64 recv)).length) := by
      rw [hw]
      simp only [List.nil_append, List.length_append, List.length_cons]
      omega
    obtain ⟨k, hk⟩ : ∃ k, (wire ⟨rep, recv⟩).length + 1 = k + 1 + 1 + 1 :=
      ⟨(wire ⟨rep, recv⟩).length - 2, by omega⟩
    rw [hk]
    have e1 := unmarshalLoop_replica _ [] rep _ (k + 1 + 1) ⟨[], 0⟩ hw hsize
    have e2 := unmarshalLoop_receivedAt _ _ [] (uint64 recv) (k + 1) ⟨rep, 0⟩ hw'
      (uint64_lt recv)
    have e3 := unmarshalLoop_end (wire ⟨rep, recv⟩) k ⟨rep, int64 (uint64 recv)⟩
    simp only [List.length_nil, Nat.zero_add, List.length_append, List.length_cons] at e1 e2
    rw [e1]
    have hi : 1 + (varint rep.length).length + rep.length =
        (varint rep.length).length + 1 + rep.length := by omega
    rw [hi, e2]
    have hj : (varint rep.length).length + 1 + rep.length +
        (1 + (varint (uint64 recv)).length) = (wire ⟨rep, recv⟩).length := by omega
    rw [hj, e3, int64_uint64 recv h1 h2]
  · have hrecv : recv = 0 := by
      by_contra hne
      exact ht hne
    have hw : wire ⟨rep, recv⟩ =
        [] ++ ((0xa : Byte) :: varint rep.length ++ rep) ++ [] := by
      simp [wire, hr, hrecv]
    have hlen : (wire ⟨rep, recv⟩).length = 1 + (varint rep.length).length + rep.length := by
      rw [hw]
      simp only [List.nil_append, List.append_nil, List.length_append, List.length_cons]
      omega
    obtain ⟨k, hk⟩ : ∃ k, (wire ⟨rep, recv⟩).length + 1 = k + 1 + 1 :=
      ⟨(wire ⟨rep, recv⟩).length - 1, by omega⟩
    rw [hk]
    have e1 := unmarshalLoop_replica _ [] rep _ (k + 1) ⟨[], 0⟩ hw hsize
    have e3 := unmarshalLoop_end (wire ⟨rep, recv⟩) k ⟨rep, 0⟩
    simp only [List.length_nil, Nat.zero_add] at e1
    rw [e1, ← hlen, e3, hrecv]
  · have hrep : rep = [] := by
      cases rep with
      | nil => rfl
      | cons x xs => simp at hr
    have hw : wire ⟨rep, recv⟩ = [] ++ ((0x10 : Byte) :: varint (uint64 recv)) ++ [] := by
      simp [wire, hrep, ht]
    have hlen : (wire ⟨rep, recv⟩).length = 1 + (varint (uint64 recv)).length := by
      rw [hw]
      simp only [List.nil_append, List.append_nil, List.length_cons]
      omega
    obtain ⟨k, hk⟩ : ∃ k, (wire ⟨rep, recv⟩).length + 1 = k + 1 + 1 :=
      ⟨(wire ⟨rep, recv⟩).length - 1, by omega⟩
    rw [hk]
    have e2 := unmarshalLoop_receivedAt _ [] [] (uint64 recv) (k + 1) ⟨[], 0⟩ hw
      (uint64_lt recv)
    have e3 := unmarshalLoop_end (wire ⟨rep, recv⟩) k ⟨[], int64 (uint64 recv)⟩
    simp only [List.length_nil, Nat.zero_add] at e2
    rw [e2, ← hlen, e3, int64_uint64 recv h1 h2, hrep]
  · have hrecv : recv = 0 := by
      by_contra hne
      exact ht hne
    have hrep : rep = [] := by
      cases rep with
      | nil => rfl
      | cons x xs => simp at hr
    subst hrecv hrep
    rfl

theorem varint_length_le (k : Nat) : ∀ v, v < 2 ^ (7 * (k + 1)) → (varint v).length ≤ k + 1 := by
  induction k with
  | zero =>
    intro v hv
    rw [varint, if_neg (by omega)]
    simp
  | succ k ih =>
    intro v hv
    rw [varint]
    split
    · have : v / 128 < 2 ^ (7 * (k + 1)) := by
        have e : 2 ^ (7 * (k + 1 + 1)) = 128 * 2 ^ (7 * (k + 1)) := by
          rw [show 7 * (k + 1 + 1) = 7 + 7 * (k + 1) by ring, pow_add]
          rfl
        rw [e] at hv
        exact Nat.div_lt_of_lt_mul hv
      have := ih (v / 128) this
      simp only [List.length_cons]
      omega
    · simp

theorem size_le (m : ReplicaDesc) (h : m.Replica.length < 2 ^ 63) :
    ReplicaDesc.Size (some m) ≤ m.Replica.length + 22 := by
  rw [wire_length m (by omega)]
  have k1 := varint_length_le 9 m.Replica.length (by omega)
  have k2 := varint_length_le 9 (uint64 m.ReceivedAt) (by have := uint64_lt m.ReceivedAt; omega)
  unfold wire
  split <;> split <;> simp only [List.length_append, List.length_cons, List.length_nil] <;> omega

theorem equal_self (m : ReplicaDesc) : ReplicaDesc.Equal (some m) (some m) = true := by
  simp [ReplicaDesc.Equal]

/-- C21 (`ReplicaDesc` round trip): for a message whose encoding fits a slice and whose
`ReceivedAt` is an `int64`, `Marshal` returns bytes and no error, and `Unmarshal` of
these bytes into the empty message returns no error and leaves a message that is `Equal`
to the first one. -/
theorem replicaDesc_round_trip (m : ReplicaDesc)
    (hsize : ReplicaDesc.Size (some m) < 2 ^ 63)
    (h1 : -2 ^ 63 ≤ m.ReceivedAt) (h2 : m.ReceivedAt < 2 ^ 63) :
    ∃ dAtA, m.Marshal = some (dAtA, none) ∧
      ∃ m', ReplicaDesc.Unmarshal ⟨[], 0⟩ dAtA = Run.ret (m', none) ∧
        ReplicaDesc.Equal (some m') (some m) = true := by
  have hlen : m.Replica.length < 2 ^ 64 := by
    by_contra hcon
    have : m.Replica.length > 0 := by omega
    simp only [ReplicaDesc.Size, if_pos this] at hsize
    split at hsize <;> omega
  refine ⟨wire m, marshal_eq m hlen, m, ?_, equal_self m⟩
  rw [wire_length m hlen] at hsize
  exact unmarshal_wire m hsize h1 h2

theorem replicaDesc_round_trip_witness :
    ∃ dAtA, exReplicaDesc.Marshal = some (dAtA, none) ∧
      ∃ m', ReplicaDesc.Unmarshal ⟨[], 0⟩ dAtA = Run.ret (m', none) ∧
        ReplicaDesc.Equal (some m') (some exReplicaDesc) = true :=
  replicaDesc_round_trip exReplicaDesc
    (Nat.lt_of_le_of_lt (size_le exReplicaDesc (by decide)) (by decide))
    (by decide) (by decide)

theorem unmarshal_example :
    ReplicaDesc.Unmarshal ⟨[], 0⟩
      [10, 2, 97, 98, 16, 255, 255, 255, 255, 255, 255, 255, 255, 255, 1]
      = Run.ret (exReplicaDesc, none) := by
  decide

/-- The wire form of the example: the field `Replica` with its two bytes and the ten
bytes of the varint of -1. -/
theorem wire_example :
    wire exReplicaDesc =
      [10, 2, 97, 98, 16, 255, 255, 255, 255, 255, 255, 255, 255, 255, 1] := by
  have h2 : varint 2 = [2] := by
    rw [varint, if_neg (by decide)]
    rfl
  have hm : varint 18446744073709551615 =
      [255, 255, 255, 255, 255, 255, 255, 255, 255, 1] := by
    rw [varint, if_pos (by decide)]
    rw [varint, if_pos (by decide)]
    rw [varint, if_pos (by decide)]
    rw [varint, if_pos (by decide)]
    rw [varint, if_pos (by decide)]
    rw [varint, if_pos (by decide)]
    rw [varint, if_pos (by decide)]
    rw [varint, if_pos (by decide)]
    rw [varint, if_pos (by decide)]
    rw [varint, if_neg (by decide)]
    decide
  have hu : uint64 (-1) = 18446744073709551615 := by decide
  simp only [wire, exReplicaDesc, List.length_cons, List.length_nil]
  rw [if_pos (by decide), if_pos (by decide), hu, hm]
  rw [show (0 + 1 + 1 : Nat) = 2 from rfl, h2]
  rfl

theorem marshal_example :
    exReplicaDesc.Marshal =
      some ([10, 2, 97, 98, 16, 255, 255, 255, 255, 255, 255, 255, 255, 255, 1], none) := by
  rw [marshal_eq exReplicaDesc (by decide), wire_example]

theorem varintLoop_index (rest : List Byte) (shift acc i a j : Nat)
    (h : varintLoop shift acc i rest = (a, j, none)) : i < j ∧ j ≤ i + rest.length := by
  induction rest generalizing shift acc i with
  | nil =>
    rw [varintLoop] at h
    split at h <;> simp at h
  | cons b rest ih =>
    rw [varintLoop] at h
    split at h
    · simp at h
    · simp only at h
      split at h
      · simp only [Prod.mk.injEq, and_true] at h
        simp only [List.length_cons]
        omega
      · have := ih _ _ _ h
        simp only [List.length_cons]
        omega

theorem int64_lt (x : Int) : int64 x < 2 ^ 63 := by
  unfold int64
  split <;> omega

theorem int64_eq_of_nonneg (x : Int) (h0 : 0 ≤ x) (h1 : x < 2 ^ 64) (h : 0 ≤ int64 x) :
    int64 x = x := by
  unfold int64 at h ⊢
  split at h <;> split <;> omega

theorem skipHaTrackerAux_returns (fuel : Nat) :
    (∀ dAtA : List Byte, dAtA ≠ [] → dAtA.length < 2 ^ 62 → 2 * dAtA.length ≤ fuel →
      ∃ n err, skipHaTrackerAux fuel none dAtA = Run.ret (n, err) ∧
        (err = none → 1 ≤ n ∧ n < 2 ^ 63)) ∧
    (∀ (dAtA : List Byte) (start : Int), dAtA.length < 2 ^ 62 → 0 ≤ start → start < 2 ^ 63 →
      2 * (dAtA.length - start.toNat) + 1 ≤ fuel →
      ∃ n err, skipHaTrackerAux fuel (some start) dAtA = Run.ret (n, err) ∧
        (err = none → start < n ∧ n < 2 ^ 63)) := by
  induction fuel with
  | zero =>
    constructor
    · intro dAtA hne _ hf
      cases dAtA with
      | nil => exact absurd rfl hne
      | cons b bs => simp at hf
    · intro dAtA start _ _ _ hf
      omega
  | succ fuel ih =>
    obtain ⟨ihTop, ihGroup⟩ := ih
    constructor
    · intro dAtA hne hl hf
      have hpos : 0 < dAtA.length := List.length_pos.mpr hne
      rw [skipHaTrackerAux]
      simp only
      rw [if_pos hpos]
      rcases hv : varintLoop 0 0 0 dAtA with ⟨wire, iNdEx, _ | err⟩
      · obtain ⟨hi1, hi2⟩ := varintLoop_index _ _ _ _ _ _ hv
        simp only [Nat.zero_add] at hi2
        simp only
        split
        · -- wire type 0
          rcases hv2 : varintLoop 0 0 iNdEx (dAtA.drop iNdEx) with ⟨w2, j, _ | err2⟩
          · obtain ⟨hj1, hj2⟩ := varintLoop_index _ _ _ _ _ _ hv2
            rw [List.length_drop] at hj2
            exact ⟨_, _, rfl, fun _ => ⟨by omega, by omega⟩⟩
          · exact ⟨_, _, rfl, fun h => absurd h (by simp)⟩
        · split
          · exact ⟨_, _, rfl, fun _ => ⟨by omega, by omega⟩⟩
          · split
            · -- wire type 2
              rcases hv2 : varintLoop 0 0 iNdEx (dAtA.drop iNdEx) with ⟨w2, j, _ | err2⟩
              · obtain ⟨hj1, hj2⟩ := varintLoop_index _ _ _ _ _ _ hv2
                rw [List.length_drop] at hj2
                simp only
                split
                · exact ⟨_, _, rfl, fun h => absurd h (by simp)⟩
                · split
                  · exact ⟨_, _, rfl, fun h => absurd h (by simp)⟩
                  · rename_i h1 h2
                    refine ⟨_, _, rfl, fun _ => ⟨?_, int64_lt _⟩⟩
                    have hb := int64_lt (w2 : Int)
                    have := int64_eq_of_nonneg ((j : Int) + int64 w2) (by omega) (by omega)
                      (by omega)
                    omega
              · exact ⟨_, _, rfl, fun h => absurd h (by simp)⟩
            · split
              · -- wire type 3
                obtain ⟨n, err, hn, hprop⟩ := ihGroup dAtA iNdEx hl (by omega) (by omega)
                  (by simp only [Int.toNat_ofNat]; omega)
                exact ⟨n, err, hn, fun h => ⟨by have := hprop h; omega, (hprop h).2⟩⟩
              · split
                · exact ⟨_, _, rfl, fun _ => ⟨by omega, by omega⟩⟩
                · split
                  · exact ⟨_, _, rfl, fun _ => ⟨by omega, by omega⟩⟩
                  · exact ⟨_, _, rfl, fun h => absurd h (by simp)⟩
      · exact ⟨_, _, rfl, fun h => absurd h (by simp)⟩
    · intro dAtA start hl h0 h1 hf
      rw [skipHaTrackerAux]
      rcases hv : varintLoop 0 0 start.toNat (dAtA.drop start.toNat) with
        ⟨innerWire, iNdEx, _ | err⟩
      · obtain ⟨hi1, hi2⟩ := varintLoop_index _ _ _ _ _ _ hv
        rw [List.length_drop] at hi2
        have hst : (start.toNat : Int) = start := Int.toNat_of_nonneg h0
        simp only
        split
        · exact ⟨_, _, rfl, fun _ => ⟨by omega, by omega⟩⟩
        · have hne : dAtA.drop start.toNat ≠ [] := by
            intro hnil
            have := congrArg List.length hnil
            rw [List.length_drop] at this
            simp only [List.length_nil] at this
            omega
          obtain ⟨next, err, hn, hprop⟩ := ihTop (dAtA.drop start.toNat) hne
            (by rw [List.length_drop]; omega) (by rw [List.length_drop]; omega)
          rw [hn]
          cases err with
          | some e => exact ⟨_, _, rfl, fun h => absurd h (by simp)⟩
          | none =>
            obtain ⟨hn1, hn2⟩ := hprop rfl
            simp only
            split
            · exact ⟨_, _, rfl, fun h => absurd h (by simp)⟩
            · rename_i hnn
              have heq := int64_eq_of_nonneg (start + next) (by omega) (by omega) (by omega)
              obtain ⟨n, err, hg, hgp⟩ := ihGroup dAtA (int64 (start + next)) hl (by omega)
                (int64_lt _) (by rw [heq]; omega)
              exact ⟨n, err, hg, fun h => ⟨by have := hgp h; omega, (hgp h).2⟩⟩
      · exact ⟨_, _, rfl, fun h => absurd h (by simp)⟩

theorem skipHaTracker_returns (dAtA : List Byte) (hne : dAtA ≠ [])
    (hl : dAtA.length < 2 ^ 62) :
    ∃ n err, skipHaTracker dAtA = Run.ret (n, err) ∧ (err = none → 1 ≤ n ∧ n < 2 ^ 63) :=
  (skipHaTrackerAux_returns (2 * dAtA.length + 2)).1 dAtA hne hl (by omega)

theorem unmarshalLoop_returns (dAtA : List Byte) (hl : dAtA.length < 2 ^ 62) :
    ∀ (fuel : Nat) (m : ReplicaDesc) (i : Nat), i ≤ dAtA.length →
      dAtA.length - i + 1 ≤ fuel →
      ∃ m' err, unmarshalLoop dAtA fuel m i = Run.ret (m', err) := by
  intro fuel
  induction fuel with
  | zero =>
    intro m i _ hf
    omega
  | succ fuel ih =>
    intro m i hi hf
    rw [unmarshalLoop]
    simp only
    split
    · rename_i hlt
      rcases hv : varintLoop 0 0 i (dAtA.drop i) with ⟨wire, iNdEx, _ | err⟩
      · obtain ⟨hi1, hi2⟩ := varintLoop_index _ _ _ _ _ _ hv
        rw [List.length_drop] at hi2
        simp only
        split
        · exact ⟨_, _, rfl⟩
        · split
          · exact ⟨_, _, rfl⟩
          · split
            · split
              · exact ⟨_, _, rfl⟩
              · rcases hv2 : varintLoop 0 0 iNdEx (dAtA.drop iNdEx) with ⟨len, j, _ | err2⟩
                · obtain ⟨hj1, hj2⟩ := varintLoop_index _ _ _ _ _ _ hv2
                  rw [List.length_drop] at hj2
                  simp only
                  split
                  · exact ⟨_, _, rfl⟩
                  · split
                    · exact ⟨_, _, rfl⟩
                    · split
                      · exact ⟨_, _, rfl⟩
                      · rename_i h1 h2 h3
                        have hnn : 0 ≤ int64 ((j : Int) + int64 len) := not_lt.mp h2
                        have hle : int64 ((j : Int) + int64 len) ≤ dAtA.length :=
                          not_lt.mp h3
                        have hb := int64_lt (len : Int)
                        have hge : (j : Int) ≤ int64 ((j : Int) + int64 len) := by
                          have hL : 0 ≤ int64 (len : Int) := not_lt.mp h1
                          rw [int64_eq_of_nonneg ((j : Int) + int64 len) (by omega)
                            (by omega) hnn]
                          omega
                        generalize int64 ((j : Int) + int64 len) = post at hnn hle hge
                        obtain ⟨k, rfl⟩ := Int.eq_ofNat_of_zero_le hnn
                        simp only [Int.toNat_ofNat]
                        exact ih _ _ (by omega) (by omega)
                · exact ⟨_, _, rfl⟩
            · split
              · split
                · exact ⟨_, _, rfl⟩
                · rcases hv2 : varintLoop 0 0 iNdEx (dAtA.drop iNdEx) with ⟨bits, j, _ | err2⟩
                  · obtain ⟨hj1, hj2⟩ := varintLoop_index _ _ _ _ _ _ hv2
                    rw [List.length_drop] at hj2
                    exact ih _ _ (by omega) (by omega)
                  · exact ⟨_, _, rfl⟩
              · have hne : dAtA.drop i ≠ [] := by
                  intro hnil
                  have := congrArg List.length hnil
                  rw [List.length_drop] at this
                  simp only [List.length_nil] at this
                  omega
                obtain ⟨skippy, err, hs, hprop⟩ := skipHaTracker_returns (dAtA.drop i) hne
                  (by rw [List.length_drop]; omega)
                rw [hs]
                cases err with
                | some e => exact ⟨_, _, rfl⟩
                | none =>
                  obtain ⟨hs1, hs2⟩ := hprop rfl
                  simp only
                  split
                  · exact ⟨_, _, rfl⟩
                  · split
                    · exact ⟨_, _, rfl⟩
                    · split
                      · exact ⟨_, _, rfl⟩
                      · rename_i h1 h2 h3
                        have heq := int64_eq_of_nonneg ((i : Int) + skippy) (by omega)
                          (by omega) (by omega)
                        exact ih _ _ (by omega) (by omega)
      · exact ⟨_, _, rfl⟩
    · split
      · exact ⟨_, _, rfl⟩
      · exact ⟨_, _, rfl⟩

/-- The method `Unmarshal` returns on every input that fits a slice: the rounds given to
the loops of `Unmarshal` and `skipHaTracker` are enough, and `skipHaTracker` is not
called on an empty slice. -/
theorem unmarshal_returns (m : ReplicaDesc) (dAtA : List Byte) (hl : dAtA.length < 2 ^ 62) :
    ∃ m' err, ReplicaDesc.Unmarshal m dAtA = Run.ret (m', err) :=
  unmarshalLoop_returns dAtA hl (dAtA.length + 1) m 0 (by omega) (by omega)

end Distributor
